import Mathlib

/-!
# babbleserv: rooms super-stream, sync engine and receipts

A shallow embedding of the rooms database of babbleserv
(`internal/databases/rooms`, `internal/types`, `internal/util`) together with
the properties of its super-stream, its incremental sync and its receipt
write path.

Conventions of the embedding.

* A `tuple.Versionstamp` is its ten transaction-version bytes and its
  `uint16` user version; `Versionstamp.Bytes` is the twelve byte big-endian
  form the FoundationDB binding produces, and versions are ordered with
  `bytes.Compare` on that form, as `SortVersioners` and the key order of the
  store do.
* A directory of the store is an association list from decoded tuple keys to
  decoded values; `kvSet` replaces, `kvClear` removes, range reads filter and
  return the keys in key order.
* A write transaction is the list of mutations it buffers; `commit` applies
  them with the commit version the store assigns.
* Panics and errors are values of `Err` returned through `Except`.
* A Go map is an association list in insertion order. Go leaves the iteration
  order of a map open; the properties below that speak of the items a sync
  returns do not depend on it, since the items are sorted before they are cut.
* The users directory, the servers directory and the events provider of the
  rooms database are fields of `RoomsDatabase`: functions of the membership
  and event data, which the receipt and sync code only read.
-/

namespace Babbleserv

/-! ## Versionstamps (`tuple.Versionstamp`, `internal/types/version.go`) -/

/-- The `tuple.Versionstamp` of the FoundationDB binding: ten bytes of
transaction version and a `uint16` user version. -/
structure Versionstamp where
  TransactionVersion : List Nat
  UserVersion : Nat
  deriving DecidableEq, Repr

/-- The well-formed versionstamps: ten bytes and a sixteen bit user version. -/
def Versionstamp.WF (v : Versionstamp) : Prop :=
  v.TransactionVersion.length = 10 ∧ (∀ b ∈ v.TransactionVersion, b < 256) ∧
    v.UserVersion < 65536

instance (v : Versionstamp) : Decidable v.WF := by
  unfold Versionstamp.WF; exact inferInstance

/-- The value `tuple.Versionstamp{}`. -/
def ZeroVersionstamp : Versionstamp := ⟨List.replicate 10 0, 0⟩

/-- The ten `0xff` bytes that mark a versionstamp the store still has to fill in. -/
def incompleteVersion : List Nat := List.replicate 10 0xff

/-- The binding's `tuple.IncompleteVersionstamp(userVersion)`. -/
def IncompleteVersionstamp (userVersion : Nat) : Versionstamp :=
  ⟨incompleteVersion, userVersion⟩

/-- The binding's `Versionstamp.Bytes()`: the transaction version followed by
the user version in big-endian. -/
def Versionstamp.Bytes (v : Versionstamp) : List Nat :=
  v.TransactionVersion ++ [v.UserVersion / 256, v.UserVersion % 256]

/-- Go's `bytes.Compare`: lexicographic comparison of byte strings. -/
def bytesCompare : List Nat → List Nat → Ordering
  | [], [] => .eq
  | [], _ :: _ => .lt
  | _ :: _, [] => .gt
  | a :: as, b :: bs =>
    if a < b then .lt else if b < a then .gt else bytesCompare as bs

/-- The comparison function `SortVersioners` hands to `slices.SortFunc`. -/
def versionCompare (a b : Versionstamp) : Ordering :=
  bytesCompare a.Bytes b.Bytes

/-- Version `a` sorts strictly before version `b`. -/
def vlt (a b : Versionstamp) : Prop := versionCompare a b = .lt

/-- Version `a` sorts before or together with version `b`. -/
def vle (a b : Versionstamp) : Prop := versionCompare a b ≠ .gt

instance (a b : Versionstamp) : Decidable (vlt a b) := by
  unfold vlt; exact inferInstance

instance (a b : Versionstamp) : Decidable (vle a b) := by
  unfold vle; exact inferInstance

/-- The statement `options.From.UserVersion += 1` on a `uint16`. -/
def bumpUserVersion (v : Versionstamp) : Versionstamp :=
  { v with UserVersion := (v.UserVersion + 1) % 65536 }

/-- The function `util.MinInt(ns ...int)`: starts from `ns[0]` and keeps the smaller value. -/
def MinInt (n0 : Nat) (rest : List Nat) : Nat :=
  rest.foldl (fun min n => if n < min then n else min) n0

/-! ## Errors -/

/-- Errors and panics of the modelled code. -/
inductive Err where
  /-- A Go `panic` that is not recovered by the transaction harness. -/
  | panic (msg : String)
  /-- A FoundationDB error, by error code. -/
  | fdb (code : Nat)
  /-- The error `types.ErrUserNotInRoom`. -/
  | ErrUserNotInRoom
  /-- The error `types.ErrEventNotFound`. -/
  | ErrEventNotFound
  /-- The error `types.ErrInvalidVersion`. -/
  | ErrInvalidVersion
  /-- The error `types.ErrUserNotFound`. -/
  | ErrUserNotFound
  /-- The error `types.ErrTokenExpired`. -/
  | ErrTokenExpired
  /-- The error `types.ErrUserAlreadyExists`. -/
  | ErrUserAlreadyExists
  /-- An error of a collaborator outside the rooms database. -/
  | other (msg : String)
  deriving DecidableEq, Repr

deriving instance DecidableEq for Except

/-! ## Identifiers, receipts and stream items -/

/-- A Matrix room id (`id.RoomID`). -/
abbrev RoomID := String

/-- A Matrix user id (`id.UserID`), of the form `@localpart:homeserver`. -/
abbrev UserID := String

/-- A Matrix event id (`id.EventID`). -/
abbrev EventID := String

/-- The method `id.UserID.Homeserver()` of mautrix: the part after the first
colon of a user id that starts with `@`, and the empty string otherwise. -/
def Homeserver (userID : UserID) : String :=
  match userID.data with
  | '@' :: rest =>
    match rest.dropWhile (fun c => c != ':') with
    | _ :: hs => String.mk hs
    | [] => ""
  | _ => ""

/-- The struct `types.Receipt` (`internal/types/receipt.go`). -/
structure Receipt where
  RoomID : RoomID
  Type_ : String
  ThreadID : String
  UserID : UserID
  EventID : EventID
  Data : List Nat
  deriving DecidableEq, Repr

/-- The struct `types.EventIDTup`, by the two fields `valueToSuperStreamItem` sets. -/
structure EventIDTup where
  EventID : EventID
  RoomID : RoomID
  deriving DecidableEq, Repr

/-- The two kinds of super-stream item, `"ev"` and `"rc"`. -/
inductive SuperStreamType where
  | SuperStreamEvent
  | SuperStreamReceipt
  deriving DecidableEq, Repr

/-- The struct `SuperStreamItem` (`superstream.go`). -/
structure SuperStreamItem where
  Type_ : SuperStreamType
  Version : Versionstamp
  EventIDTup : Option EventIDTup
  Receipt : Option Receipt
  deriving DecidableEq, Repr

/-- The method `SuperStreamItem.GetVersion`. -/
def SuperStreamItem.GetVersion (i : SuperStreamItem) : Versionstamp := i.Version

/-- The value stored under a super-stream key, as the tuple the two writers pack:
`("ev", event_id)` or `("rc", user_id, event_id, thread_id, type, data)`. -/
inductive StreamValue where
  | ev (eventID : EventID)
  | rc (userID : UserID) (eventID : EventID) (threadID : String) (type : String)
      (data : List Nat)
  deriving DecidableEq, Repr

/-- The function `valueToSuperStreamItem`. -/
def valueToSuperStreamItem (roomID : RoomID) (version : Versionstamp) :
    StreamValue → SuperStreamItem
  | .ev eventID =>
    { Type_ := .SuperStreamEvent, Version := version,
      EventIDTup := some { RoomID := roomID, EventID := eventID }, Receipt := none }
  | .rc userID eventID threadID type data =>
    { Type_ := .SuperStreamReceipt, Version := version, EventIDTup := none,
      Receipt := some { RoomID := roomID, UserID := userID, EventID := eventID,
                        ThreadID := threadID, Type_ := type, Data := data } }

/-- The function `types.SortVersioners`: `slices.SortFunc` with `bytes.Compare`
on the version bytes. The order `slices.SortFunc` gives to items of equal
version is unspecified; this insertion sort keeps them in input order. -/
def SortVersioners (versions : List SuperStreamItem) : List SuperStreamItem :=
  versions.insertionSort (fun a b => vle a.GetVersion b.GetVersion)

/-! ## The ordered key-value store -/

/-- Read of one key of a directory. -/
def kvGet {κ ν : Type} [DecidableEq κ] (l : List (κ × ν)) (k : κ) : Option ν :=
  (l.find? (fun e => decide (e.1 = k))).map (fun e => e.2)

/-- Removal of one key of a directory. -/
def kvClear {κ ν : Type} [DecidableEq κ] (l : List (κ × ν)) (k : κ) : List (κ × ν) :=
  l.filter (fun e => !decide (e.1 = k))

/-- Write of one key of a directory, replacing the value it had. -/
def kvSet {κ ν : Type} [DecidableEq κ] (l : List (κ × ν)) (k : κ) (v : ν) :
    List (κ × ν) :=
  (k, v) :: kvClear l k

/-- A super-stream directory: `[room_id, v] → (kind, payload)`. -/
abbrev Stream := List ((RoomID × Versionstamp) × StreamValue)

/-- One end of a key range inside the keys that start with `sub.Pack(args)`:
either the packed prefix followed by one byte, or the packed prefix followed
by a versionstamp element. -/
inductive RangeEdge where
  | prefixThen (b : Nat)
  | version (v : Versionstamp)
  deriving DecidableEq, Repr

/-- The `fdb.KeyRange` built by `GetVersionRange` for the argument `roomID`. -/
structure KeyRange where
  roomID : RoomID
  Begin : RangeEdge
  End : RangeEdge
  deriving DecidableEq, Repr

/-- The range end `sub.Pack(append(args, version))`. The binding's `Pack`
panics on a tuple that holds an incomplete versionstamp. -/
def packVersionEdge (version : Versionstamp) : Except Err RangeEdge :=
  if version.TransactionVersion = incompleteVersion then
    .error (.panic "Incomplete Versionstamp included in vanilla tuple pack")
  else .ok (.version version)

/-- The function `types.GetVersionRange` for one tuple argument: the zero
versionstamp stands for the open end, every other version is packed. -/
def GetVersionRange (fromVersion toVersion : Versionstamp) (roomID : RoomID) :
    Except Err KeyRange :=
  let begin_ : Except Err RangeEdge :=
    if fromVersion = ZeroVersionstamp then .ok (.prefixThen 0x00)
    else packVersionEdge fromVersion
  match begin_ with
  | .error e => .error e
  | .ok b =>
    let end_ : Except Err RangeEdge :=
      if toVersion = ZeroVersionstamp then .ok (.prefixThen 0xff)
      else packVersionEdge toVersion
    match end_ with
    | .error e => .error e
    | .ok e => .ok { roomID := roomID, Begin := b, End := e }

/-- The range `GetVersionRange` returns when neither version is incomplete. -/
def completeVersionRange (fromVersion toVersion : Versionstamp) (roomID : RoomID) : KeyRange :=
  { roomID := roomID,
    Begin := if fromVersion = ZeroVersionstamp then .prefixThen 0x00 else .version fromVersion,
    End := if toVersion = ZeroVersionstamp then .prefixThen 0xff else .version toVersion }

/-- The bytes a packed versionstamp element adds to a key: type code `0x33`
and the twelve version bytes. -/
def versionElementBytes (v : Versionstamp) : List Nat := 0x33 :: v.Bytes

/-- The bytes of a range end that follow the packed prefix. -/
def RangeEdge.bytes : RangeEdge → List Nat
  | .prefixThen b => [b]
  | .version v => versionElementBytes v

/-- Whether the key `[room_id, v]` lies in the range: `Begin ≤ key < End` in
byte order. Both ends start with the packed `roomID`, and packed strings are
prefix free, so a key of another room is never inside. -/
def KeyRange.contains (rng : KeyRange) (key : RoomID × Versionstamp) : Bool :=
  decide (key.1 = rng.roomID) &&
    decide (bytesCompare rng.Begin.bytes (versionElementBytes key.2) ≠ .gt) &&
    decide (bytesCompare (versionElementBytes key.2) rng.End.bytes = .lt)

/-- The read `txn.GetRange(range, RangeOptions{Limit: limit}).Iterator()`: the
entries inside the range in key order, at most `limit` of them; a limit of
zero means no limit. -/
def txnGetRange (s : Stream) (rng : KeyRange) (limit : Nat) : Stream :=
  let hits := (s.filter (fun e => rng.contains e.1)).insertionSort
    (fun a b => vle a.1.2 b.1.2)
  if limit = 0 then hits else hits.take limit

/-! ## Super-stream pagination (`superstream.go`) -/

/-- The bytes `msgpack.Marshal` of the library vmihailenco/msgpack produces.
The library is outside the repository; its encoding of a
`map[string][]byte` is kept as the map it encodes, which `msgpack.Unmarshal`
gives back, and all other byte strings are `invalid`. -/
inductive Msgpack where
  | rawMap (entries : List (String × List Nat))
  | invalid
  deriving DecidableEq, Repr

/-- The contents of the rooms database that the super-stream, the receipts
code and the federation sender read and write: the receipts directory
`byRoomTypeThread`, the two super-streams, the receipt version pointers, the
time index `ttv` and the server positions `idToPosition` of the servers
directory. -/
structure Store where
  receipts : List ((RoomID × String × String × UserID) × (EventID × List Nat))
  superStream : Stream
  localSuperStream : Stream
  superStreamReceiptVersions : List ((RoomID × UserID × String × String) × Versionstamp)
  ttv : List (Nat × Versionstamp)
  serverPositions : List (String × Msgpack) := []
  deriving DecidableEq, Repr

/-- The method `rangeForSuperStream`. -/
def rangeForSuperStream (roomID : RoomID) (fromVersion toVersion : Versionstamp) :
    Except Err KeyRange :=
  GetVersionRange fromVersion toVersion roomID

/-- The method `rangeForLocalSuperStream`. -/
def rangeForLocalSuperStream (roomID : RoomID) (fromVersion toVersion : Versionstamp) :
    Except Err KeyRange :=
  GetVersionRange fromVersion toVersion roomID

/-- The method `keyToSuperStreamVersion`: the second element of the unpacked key. -/
def keyToSuperStreamVersion (key : RoomID × Versionstamp) : Versionstamp := key.2

/-- The method `keyToLocalSuperStreamVersion`. -/
def keyToLocalSuperStreamVersion (key : RoomID × Versionstamp) : Versionstamp := key.2

/-- The method `txnPaginateRoomSuperStream`, called with a nil events provider
as `SyncRoomsForUser` does. A panic of `rangeForSuperStream` leaves the method
before the read. -/
def txnPaginateRoomSuperStream (db : Store) (roomID : RoomID)
    (fromVersion toVersion : Versionstamp) (limit : Nat) : Except Err (List SuperStreamItem) :=
  match rangeForSuperStream roomID fromVersion toVersion with
  | .error e => .error e
  | .ok rng =>
    .ok ((txnGetRange db.superStream rng limit).map
      (fun kv => valueToSuperStreamItem roomID (keyToSuperStreamVersion kv.1) kv.2))

/-- The method `txnPaginateRoomLocalSuperStream`. -/
def txnPaginateRoomLocalSuperStream (db : Store) (roomID : RoomID)
    (fromVersion toVersion : Versionstamp) (limit : Nat) : Except Err (List SuperStreamItem) :=
  match rangeForLocalSuperStream roomID fromVersion toVersion with
  | .error e => .error e
  | .ok rng =>
    .ok ((txnGetRange db.localSuperStream rng limit).map
      (fun kv => valueToSuperStreamItem roomID (keyToLocalSuperStreamVersion kv.1) kv.2))

/-! ## Incremental sync (`rooms_sync.go`) -/

/-- The string type `event.Membership` of mautrix. -/
abbrev Membership := String

/-- The constant `event.MembershipJoin`. -/
def MembershipJoin : Membership := "join"

/-- The struct `types.MembershipTup`, by the fields the sources under
`internal` read: `EventID`, `RoomID` and `Membership`. It is the key of the
maps of `syncRoomEvents`. -/
structure MembershipTup where
  EventID : EventID
  RoomID : RoomID
  Membership : Membership
  deriving DecidableEq, Repr

/-- The map type `types.Memberships`, from room id to membership. -/
abbrev Memberships := List (RoomID × MembershipTup)

/-- The struct `types.MembershipChange`: a `MembershipTup` and the version of
the change. -/
structure MembershipChange where
  MembershipTup : MembershipTup
  Version : Versionstamp
  deriving DecidableEq, Repr

/-- The slice type `types.MembershipChanges`. -/
abbrev MembershipChanges := List MembershipChange

/-- The struct `SyncOptions`. -/
structure SyncOptions where
  From : Versionstamp
  Limit : Nat
  deriving DecidableEq, Repr

/-- The local struct `versionRange` of `syncRoomEvents`. -/
structure versionRange where
  from_ : Versionstamp
  to_ : Versionstamp
  deriving DecidableEq, Repr

/-- A value of the `unsigned` map of an event. -/
inductive UnsignedValue where
  | int (n : Int)
  | base64 (bytes : List Nat)
  deriving DecidableEq, Repr

/-- The struct `types.Event`, by the fields the rooms database touches. -/
structure Event where
  ID : EventID
  RoomID : RoomID
  Sender : UserID
  Timestamp : Int
  Unsigned : List (String × UnsignedValue)
  deriving DecidableEq, Repr

/-- The struct `types.SyncRoom`, by the fields the rooms database fills. -/
structure SyncRoom where
  StateEvents : List Event
  TimelineEvents : List Event
  Receipts : List Receipt
  deriving DecidableEq, Repr

/-- The function `types.VersionstampToValue`: the packed one element tuple; an
incomplete versionstamp is packed with `PackWithVersionstamp`, which appends
the little-endian offset of the versionstamp inside the value. -/
def VersionstampToValue (version : Versionstamp) : List Nat :=
  if version.TransactionVersion = incompleteVersion then
    versionElementBytes version ++ [1, 0, 0, 0]
  else
    versionElementBytes version

/-- Assignment `m[k] = v` on a Go map kept as an association list: an existing
key keeps its place. -/
def mapPut {κ ν : Type} [DecidableEq κ] (m : List (κ × ν)) (k : κ) (v : ν) : List (κ × ν) :=
  if (kvGet m k).isSome then m.map (fun e => if e.1 = k then (k, v) else e)
  else m ++ [(k, v)]

/-- Lines 92 to 95 of `syncRoomEvents`: every current membership starts with
the range from the bumped `From` to the latest version. -/
def initialRanges (from_ latestVersion : Versionstamp) (memberships : Memberships) :
    List (MembershipTup × versionRange) :=
  memberships.foldl (fun m e => mapPut m e.2 ⟨from_, latestVersion⟩) []

/-- The body of the loop over the membership changes, lines 101 to 117. -/
def applyMembershipChange (from_ latestVersion : Versionstamp)
    (m : List (MembershipTup × versionRange)) (membershipChange : MembershipChange) :
    List (MembershipTup × versionRange) :=
  let vRange := match kvGet m membershipChange.MembershipTup with
    | some r => r
    | none => ⟨from_, latestVersion⟩
  if membershipChange.MembershipTup.Membership = MembershipJoin then
    mapPut m membershipChange.MembershipTup { vRange with from_ := membershipChange.Version }
  else
    mapPut m membershipChange.MembershipTup { vRange with to_ := membershipChange.Version }

/-- Lines 88 to 117: the version range of every membership. -/
def membershipsWithRanges (from_ latestVersion : Versionstamp) (memberships : Memberships)
    (membershipChanges : MembershipChanges) : List (MembershipTup × versionRange) :=
  membershipChanges.foldl (applyMembershipChange from_ latestVersion)
    (initialRanges from_ latestVersion memberships)

/-- Lines 125 to 161: one pagination per membership; an error of a pagination
makes its goroutine panic. The results are collected in the order of the map. -/
def paginateAll (paginateRoomSuperStream :
      RoomID → Versionstamp → Versionstamp → Except Err (List SuperStreamItem)) :
    List (MembershipTup × versionRange) →
      Except Err (List (MembershipTup × List SuperStreamItem))
  | [] => .ok []
  | (membershipTup, vRange) :: rest =>
    match paginateRoomSuperStream membershipTup.RoomID vRange.from_ vRange.to_ with
    | .error _ => .error (.panic "error in paginateRoomSuperStream")
    | .ok items =>
      match paginateAll paginateRoomSuperStream rest with
      | .error e => .error e
      | .ok results => .ok ((membershipTup, items) :: results)

/-- Lines 172 to 180: sort all items by version, keep the first `limit`, and
when the batch is full move the next position to the last kept version. The
read `items[len(items)-1]` panics on an empty slice. -/
def selectItems (limit : Nat) (latestVersion : Versionstamp)
    (allItems : List SuperStreamItem) : Except Err (List SuperStreamItem × Versionstamp) :=
  let sorted := SortVersioners allItems
  let items := sorted.take (MinInt limit [sorted.length])
  if items.length = limit then
    match items.getLast? with
    | some last => .ok (items, last.Version)
    | none => .error (.panic "index out of range [-1]")
  else
    .ok (items, latestVersion)

/-- The closure `getSyncRoom` followed by an update of the room it returns. -/
def updateSyncRoom (roomIDToMembership : List (RoomID × MembershipTup))
    (rooms : List (MembershipTup × SyncRoom)) (roomID : RoomID) (f : SyncRoom → SyncRoom) :
    List (MembershipTup × SyncRoom) :=
  let membershipTup := (kvGet roomIDToMembership roomID).getD ⟨"", "", ""⟩
  match kvGet rooms membershipTup with
  | some room => mapPut rooms membershipTup (f room)
  | none => mapPut rooms membershipTup (f ⟨[], [], []⟩)

/-- The loop of lines 197 to 212 over the kept items. `MustGet` panics on an
event that is not stored. -/
def assembleRooms (MustGet : EventID → Option Event) (now : Int)
    (roomIDToMembership : List (RoomID × MembershipTup)) :
    List SuperStreamItem → List (MembershipTup × SyncRoom) →
      Except Err (List (MembershipTup × SyncRoom))
  | [], rooms => .ok rooms
  | item :: rest, rooms =>
    match item.Type_ with
    | .SuperStreamReceipt =>
      match item.Receipt with
      | none => .error (.panic "nil pointer dereference")
      | some rc =>
        assembleRooms MustGet now roomIDToMembership rest
          (updateSyncRoom roomIDToMembership rooms rc.RoomID
            (fun room => { room with Receipts := room.Receipts ++ [rc] }))
    | .SuperStreamEvent =>
      match item.EventIDTup with
      | none => .error (.panic "nil pointer dereference")
      | some evIDTup =>
        match MustGet evIDTup.EventID with
        | none => .error (.panic "event not found")
        | some ev =>
          let ev' := { ev with Unsigned :=
            [("age", .int (now - ev.Timestamp)),
             ("hs.order", .base64 (VersionstampToValue item.Version))] }
          assembleRooms MustGet now roomIDToMembership rest
            (updateSyncRoom roomIDToMembership rooms evIDTup.RoomID
              (fun room => { room with TimelineEvents := room.TimelineEvents ++ [ev'] }))

/-- The function `util.TxnGetLatestWriteVersion`: the value of the last key of
the time index; indexing the empty result panics. -/
def TxnGetLatestWriteVersion (db : Store) : Except Err Versionstamp :=
  match db.ttv.foldl (fun best e =>
      match best with
      | none => some e
      | some b => if b.1 < e.1 then some e else some b) none with
  | none => .error (.panic "index out of range [0] with length 0")
  | some e => .ok e.2

/-- Lines 74 to 180 of `syncRoomEvents`, after the first read transaction has
given the latest write version `latestVersion`: the room of every membership,
the items kept and the next position. The current memberships come from that
same first transaction; an error of the second read, of the membership
changes, is overwritten before it is looked at, so the changes are then
empty. -/
def syncRoomItems (options : SyncOptions) (latestVersion : Versionstamp)
    (getCurrentMemberships : Except Err Memberships)
    (getMembershipChanges : Versionstamp → Versionstamp → Except Err MembershipChanges)
    (paginateRoomSuperStream :
      RoomID → Versionstamp → Versionstamp → Except Err (List SuperStreamItem)) :
    Except Err (List (RoomID × MembershipTup) × List SuperStreamItem × Versionstamp) :=
  let from_ := bumpUserVersion options.From
  match getCurrentMemberships with
  | .error e => .error e
  | .ok memberships =>
    let membershipChanges := match getMembershipChanges from_ latestVersion with
      | .ok changes => changes
      | .error _ => []
    let ranges := membershipsWithRanges from_ latestVersion memberships membershipChanges
    match paginateAll paginateRoomSuperStream ranges with
    | .error e => .error e
    | .ok allResults =>
      let roomIDToMembership := allResults.foldl
        (fun m memAndEvs => mapPut m memAndEvs.1.RoomID memAndEvs.1) []
      let allItems := (allResults.map (fun memAndEvs => memAndEvs.2)).flatten
      match selectItems options.Limit latestVersion allItems with
      | .error e => .error e
      | .ok (items, nextVersion) => .ok (roomIDToMembership, items, nextVersion)

/-- The method `syncRoomEvents`: the kept items of `syncRoomItems`, fetched and
grouped by room in the last read transaction. -/
def syncRoomEvents (options : SyncOptions) (latestVersion : Versionstamp)
    (getCurrentMemberships : Except Err Memberships)
    (getMembershipChanges : Versionstamp → Versionstamp → Except Err MembershipChanges)
    (paginateRoomSuperStream :
      RoomID → Versionstamp → Versionstamp → Except Err (List SuperStreamItem))
    (MustGet : EventID → Option Event) (now : Int) :
    Except Err (Versionstamp × List (MembershipTup × SyncRoom)) :=
  match syncRoomItems options latestVersion getCurrentMemberships getMembershipChanges
      paginateRoomSuperStream with
  | .error e => .error e
  | .ok (roomIDToMembership, items, nextVersion) =>
    match assembleRooms MustGet now roomIDToMembership items [] with
    | .error e => .error e
    | .ok rooms => .ok (nextVersion, rooms)

/-- The lookups of the users directory (`rooms/users`) that the rooms database
calls; the directory decides them from the memberships it stores. -/
structure UsersDirectory where
  TxnLookupUserMemberships : UserID → Except Err Memberships
  TxnLookupUserMembershipChanges :
    UserID → Versionstamp → Versionstamp → Except Err MembershipChanges
  TxnMustIsUserInRoom : UserID → RoomID → Bool

/-- The lookups of the servers directory (`rooms/servers`) used by the server sync. -/
structure ServersDirectory where
  TxnLookupServerMemberships : String → Except Err Memberships
  TxnLookupServerMembershipChanges :
    String → Versionstamp → Versionstamp → Except Err MembershipChanges

/-- The events directory as its provider shows it: `Get` of an event id, which
fails for an event that is not stored. -/
structure EventsDirectory where
  Get : EventID → Option Event
  /-- The current general state of a room, from state key to event id. -/
  TxnLookupCurrentRoomStateMap : RoomID → Except Err (List (String × EventID)) :=
    fun _ => .ok []
  /-- The current member state of a room, from user id to event id. -/
  TxnLookupCurrentRoomMemberStateMap : RoomID → Except Err (List (UserID × EventID)) :=
    fun _ => .ok []

/-- The struct `RoomsDatabase`: configuration and directories. -/
structure RoomsDatabase where
  ServerName : String
  users : UsersDirectory
  servers : ServersDirectory
  events : EventsDirectory

/-- The method `SyncRoomsForUser`. -/
def SyncRoomsForUser (r : RoomsDatabase) (db : Store)
    (now : Int) (userID : UserID) (options : SyncOptions) :
    Except Err (Versionstamp × List (MembershipTup × SyncRoom)) :=
  match TxnGetLatestWriteVersion db with
  | .error e => .error e
  | .ok latestVersion =>
  syncRoomEvents options latestVersion
    (r.users.TxnLookupUserMemberships userID)
    (fun fromVersion toVersion =>
      r.users.TxnLookupUserMembershipChanges userID fromVersion toVersion)
    (fun roomID fromVersion toVersion =>
      txnPaginateRoomSuperStream db roomID fromVersion toVersion options.Limit)
    r.events.Get now

/-- The method `SyncRoomsForServer`. -/
def SyncRoomsForServer (r : RoomsDatabase) (db : Store)
    (now : Int) (serverName : String) (options : SyncOptions) :
    Except Err (Versionstamp × List (MembershipTup × SyncRoom)) :=
  match TxnGetLatestWriteVersion db with
  | .error e => .error e
  | .ok latestVersion =>
  syncRoomEvents options latestVersion
    (r.servers.TxnLookupServerMemberships serverName)
    (fun fromVersion _toVersion =>
      r.servers.TxnLookupServerMembershipChanges serverName fromVersion ZeroVersionstamp)
    (fun roomID fromVersion toVersion =>
      txnPaginateRoomLocalSuperStream db roomID fromVersion toVersion options.Limit)
    r.events.Get now

/-! ## Write transactions (`util/database.go`) -/

/-- A key of a super-stream as the code builds it. `packed` is
`sub.Pack(tuple{room_id, version})`, the form of every stored key;
`versionstamped` is `sub.PackWithVersionstamp(tuple{room_id, version})`, the
same bytes followed by the four byte offset of the versionstamp. -/
inductive StreamKey where
  | packed (roomID : RoomID) (version : Versionstamp)
  | versionstamped (roomID : RoomID) (version : Versionstamp)
  deriving DecidableEq, Repr

/-- The key of `superStreamReceiptVersions`: room, user, type and thread. -/
abbrev ReceiptVersionKey := RoomID × UserID × String × String

/-- The mutations a write transaction of the receipts code buffers. -/
inductive Mutation where
  /-- The call `txn.Set` on the receipts directory. -/
  | setReceipt (key : RoomID × String × String × UserID) (value : EventID × List Nat)
  /-- The call `txn.SetVersionstampedKey` on the super-stream, or on the local one. -/
  | setVersionstampedKey (isLocal : Bool) (key : StreamKey) (value : StreamValue)
  /-- The call `txn.Clear` on the super-stream, or on the local one. -/
  | clear (isLocal : Bool) (key : StreamKey)
  /-- The call `txn.SetVersionstampedValue` on a receipt version pointer, with the value
  `VersionstampToValue(version)`. -/
  | setReceiptVersion (key : ReceiptVersionKey) (version : Versionstamp)
  /-- The call `txn.SetVersionstampedValue` on the time index, with the value
  `VersionstampToValue(version)`. -/
  | setTimeToVersion (nanos : Nat) (version : Versionstamp)
  /-- The call `txn.Set` on the position key of a server. -/
  | setServerPosition (serverName : String) (data : Msgpack)
  deriving DecidableEq, Repr

/-- The effect of `SetVersionstampedKey` at commit: the ten sentinel bytes of
the key are replaced by the commit version. A key without the offset suffix
is refused by the store and never reaches the commit. -/
def commitStreamKey (s : Stream) (commitVersion : List Nat) (key : StreamKey)
    (value : StreamValue) : Stream :=
  match key with
  | .versionstamped roomID version =>
    kvSet s (roomID, ⟨commitVersion, version.UserVersion⟩) value
  | .packed _ _ => s

/-- The effect of `Clear` on one key. A key built with `PackWithVersionstamp`
is longer by its offset suffix than a stored key of its room and, packed
strings being prefix free, different from the keys of other rooms, so
clearing it removes nothing. -/
def clearStreamKey (s : Stream) (key : StreamKey) : Stream :=
  match key with
  | .packed roomID version => kvClear s (roomID, version)
  | .versionstamped _ _ => s

/-- The effect of one buffered mutation at the commit version `commitVersion`. -/
def applyMutation (commitVersion : List Nat) (db : Store) : Mutation → Store
  | .setReceipt key value => { db with receipts := kvSet db.receipts key value }
  | .setVersionstampedKey false key value =>
    { db with superStream := commitStreamKey db.superStream commitVersion key value }
  | .setVersionstampedKey true key value =>
    { db with localSuperStream := commitStreamKey db.localSuperStream commitVersion key value }
  | .clear false key => { db with superStream := clearStreamKey db.superStream key }
  | .clear true key => { db with localSuperStream := clearStreamKey db.localSuperStream key }
  | .setReceiptVersion key version =>
    { db with
      superStreamReceiptVersions :=
        kvSet db.superStreamReceiptVersions key (Versionstamp.mk commitVersion version.UserVersion) }
  | .setTimeToVersion nanos version =>
    { db with ttv := kvSet db.ttv nanos (Versionstamp.mk commitVersion version.UserVersion) }
  | .setServerPosition serverName data =>
    { db with serverPositions := kvSet db.serverPositions serverName data }

/-- The commit of a transaction: its mutations applied in order. -/
def commit (commitVersion : List Nat) (db : Store) (mutations : List Mutation) : Store :=
  mutations.foldl (applyMutation commitVersion) db

/-- The function `util.DoWriteTransaction` around a closure that read the
store `db` and buffered `mutations`: the closure's error aborts, otherwise the
time index entry with user version 65534 is added and all is committed at the
version `commitVersion` the store assigns. -/
def DoWriteTransaction {α : Type} (db : Store) (commitVersion : List Nat) (nowNanos : Nat)
    (fn : Except Err (α × List Mutation)) : Except Err (α × Store) :=
  match fn with
  | .error e => .error e
  | .ok (res, mutations) =>
    .ok (res, commit commitVersion db
      (mutations ++ [.setTimeToVersion nowNanos (IncompleteVersionstamp (65536 - 1 - 1))]))

/-! ## Receipts in the super-stream (`superstream.go`) -/

/-- The binding's `Tuple.PackWithVersionstamp` on `(room_id, version)`: it
fails unless the tuple holds an incomplete versionstamp. -/
def PackWithVersionstamp (roomID : RoomID) (version : Versionstamp) : Except Err StreamKey :=
  if version.TransactionVersion = incompleteVersion then
    .ok (.versionstamped roomID version)
  else
    .error (.other "No incomplete versionstamp included in tuple pack with versionstamp")

/-- The method `keyForSuperStreamRoom`: panics on the error of
`PackWithVersionstamp`. -/
def keyForSuperStreamRoom (roomID : RoomID) (version : Versionstamp) : Except Err StreamKey :=
  match PackWithVersionstamp roomID version with
  | .error _ =>
    .error (.panic "No incomplete versionstamp included in tuple pack with versionstamp")
  | .ok key => .ok key

/-- The method `keyForLocalSuperStreamRoom`. -/
def keyForLocalSuperStreamRoom (roomID : RoomID) (version : Versionstamp) :
    Except Err StreamKey :=
  match PackWithVersionstamp roomID version with
  | .error _ =>
    .error (.panic "No incomplete versionstamp included in tuple pack with versionstamp")
  | .ok key => .ok key

/-- The method `keyForSuperStreamReceiptVersion`. -/
def keyForSuperStreamReceiptVersion (rc : Receipt) : ReceiptVersionKey :=
  (rc.RoomID, rc.UserID, rc.Type_, rc.ThreadID)

/-- The read `txn.Get(key).MustGet()` of a receipt version pointer inside a
write transaction. The store refuses to read a key whose value the same
transaction set with `SetVersionstampedValue` (error 1036,
`accessed_unreadable`); otherwise the committed value is read. -/
def txnGetReceiptVersion (db : Store) (mutations : List Mutation) (key : ReceiptVersionKey) :
    Except Err (Option Versionstamp) :=
  if mutations.any (fun m =>
      match m with
      | .setReceiptVersion k _ => decide (k = key)
      | _ => false) then
    .error (.fdb 1036)
  else
    .ok (kvGet db.superStreamReceiptVersions key)

/-- The value `txnAddReceiptToSuperStream` stores for a receipt. -/
def receiptStreamValue (rc : Receipt) : StreamValue :=
  .rc rc.UserID rc.EventID rc.ThreadID rc.Type_ rc.Data

/-- The method `txnAddReceiptToSuperStream`: the mutations buffered so far,
extended by those of the receipt `rc`. -/
def txnAddReceiptToSuperStream (serverName : String) (db : Store) (mutations : List Mutation)
    (rc : Receipt) (version : Versionstamp) : Except Err (List Mutation) :=
  let value := receiptStreamValue rc
  match keyForSuperStreamRoom rc.RoomID version with
  | .error e => .error e
  | .ok key =>
    let mutations := mutations ++ [.setVersionstampedKey false key value]
    let withLocal : Except Err (List Mutation) :=
      if Homeserver rc.UserID = serverName then
        match keyForLocalSuperStreamRoom rc.RoomID version with
        | .error e => .error e
        | .ok localKey => .ok (mutations ++ [.setVersionstampedKey true localKey value])
      else .ok mutations
    match withLocal with
    | .error e => .error e
    | .ok mutations =>
      match txnGetReceiptVersion db mutations (keyForSuperStreamReceiptVersion rc) with
      | .error e => .error e
      | .ok currVersionB =>
        let withClears : Except Err (List Mutation) :=
          match currVersionB with
          | none => .ok mutations
          | some currVersion =>
            match keyForSuperStreamRoom rc.RoomID currVersion with
            | .error e => .error e
            | .ok key =>
              match keyForLocalSuperStreamRoom rc.RoomID currVersion with
              | .error e => .error e
              | .ok localKey => .ok (mutations ++ [.clear false key, .clear true localKey])
        match withClears with
        | .error e => .error e
        | .ok mutations =>
          .ok (mutations ++ [.setReceiptVersion (keyForSuperStreamReceiptVersion rc) version])

/-- The method `txnAddEventToSuperStream`: the mutations buffered so far,
extended by those of the event `ev`. -/
def txnAddEventToSuperStream (serverName : String) (mutations : List Mutation) (ev : Event)
    (version : Versionstamp) : Except Err (List Mutation) :=
  let value := StreamValue.ev ev.ID
  match keyForSuperStreamRoom ev.RoomID version with
  | .error e => .error e
  | .ok key =>
    let mutations := mutations ++ [.setVersionstampedKey false key value]
    if Homeserver ev.Sender = serverName then
      match keyForLocalSuperStreamRoom ev.RoomID version with
      | .error e => .error e
      | .ok localKey => .ok (mutations ++ [.setVersionstampedKey true localKey value])
    else .ok mutations

/-! ## Sending receipts (`receipts_send.go`, `receipts/receipts.go`) -/

/-- Modelled from the spec: the struct `notifier.Change`, whose declaration is
not among the sources. The spec describes it as the change hint
`Change{user?, room?, server?}` that subscribers match by user ids, room ids
and servers; the zero value names nothing. -/
structure Change where
  UserIDs : List UserID
  RoomIDs : List RoomID
  Servers : List String
  deriving DecidableEq, Repr

/-- The struct `RejectedReceipt`. -/
structure RejectedReceipt where
  ReceiptTup : Receipt
  Error : Err
  deriving DecidableEq, Repr

/-- The struct `SendReceiptsResults`, without the commit version future. -/
structure SendReceiptsResults where
  change : Change
  Allowed : List Receipt
  Rejected : List RejectedReceipt
  deriving DecidableEq, Repr

/-- The method `ReceiptsDirectory.KeyValueForReceipt`. -/
def KeyValueForReceipt (rc : Receipt) :
    (RoomID × String × String × UserID) × (EventID × List Nat) :=
  ((rc.RoomID, rc.Type_, rc.ThreadID, rc.UserID), (rc.EventID, rc.Data))

/-- The variables the loop of `SendReceipts` updates: the buffered mutations
and the two result slices. -/
structure SendState where
  mutations : List Mutation
  allowedReceipts : List Receipt
  rejectedReceipts : List RejectedReceipt
  deriving DecidableEq, Repr

/-- The loop `for i, rc := range rcs` of `SendReceipts`, from index `i` on. -/
def sendReceiptsLoop (r : RoomsDatabase) (db : Store) (roomID : RoomID) :
    Nat → List Receipt → SendState → Except Err SendState
  | _, [], st => .ok st
  | i, rc :: rest, st =>
    if rc.RoomID ≠ roomID then
      .error (.panic "wrong room id provided")
    else if !r.users.TxnMustIsUserInRoom rc.UserID rc.RoomID then
      sendReceiptsLoop r db roomID (i + 1) rest
        { st with rejectedReceipts := st.rejectedReceipts ++ [⟨rc, .ErrUserNotInRoom⟩] }
    else if Homeserver rc.UserID = r.ServerName ∧ (r.events.Get rc.EventID).isNone then
      sendReceiptsLoop r db roomID (i + 1) rest
        { st with rejectedReceipts := st.rejectedReceipts ++ [⟨rc, .ErrEventNotFound⟩] }
    else
      let kv := KeyValueForReceipt rc
      let mutations := st.mutations ++ [.setReceipt kv.1 kv.2]
      let version := IncompleteVersionstamp (i % 65536)
      match txnAddReceiptToSuperStream r.ServerName db mutations rc version with
      | .error e => .error e
      | .ok mutations =>
        sendReceiptsLoop r db roomID (i + 1) rest
          { st with mutations := mutations, allowedReceipts := st.allowedReceipts ++ [rc] }

/-- The closure `SendReceipts` runs in its write transaction. The field
`change` of the result is left at its zero value. -/
def sendReceiptsTxn (r : RoomsDatabase) (db : Store) (roomID : RoomID) (rcs : List Receipt) :
    Except Err (SendReceiptsResults × List Mutation) :=
  match sendReceiptsLoop r db roomID 0 rcs ⟨[], [], []⟩ with
  | .error e => .error e
  | .ok st =>
    .ok ({ change := ⟨[], [], []⟩, Allowed := st.allowedReceipts,
           Rejected := st.rejectedReceipts }, st.mutations)

/-- The method `SendReceipts`: the result, the store after the commit at
`commitVersion`, and the change handed to `r.notifiers.Rooms.SendChange`. -/
def SendReceipts (r : RoomsDatabase) (db : Store) (commitVersion : List Nat) (nowNanos : Nat)
    (roomID : RoomID) (rcs : List Receipt) :
    Except Err (SendReceiptsResults × Store × Change) :=
  match DoWriteTransaction db commitVersion nowNanos (sendReceiptsTxn r db roomID rcs) with
  | .error e => .error e
  | .ok (res, db') => .ok (res, db', res.change)

/-! ## Specification of the receipt write path -/

/-- The rejection the spec gives a receipt: `UserNotInRoom` when the sender is
not a current member of the room, else `EventNotFound` when the sender is
local and the referenced event is not known, else none. -/
def rejectionOf (r : RoomsDatabase) (rc : Receipt) : Option Err :=
  if r.users.TxnMustIsUserInRoom rc.UserID rc.RoomID = false then some .ErrUserNotInRoom
  else if Homeserver rc.UserID = r.ServerName ∧ (r.events.Get rc.EventID).isNone then
    some .ErrEventNotFound
  else none

/-- The receipts of a batch that the spec accepts, with their index in the batch. -/
def acceptedWithIndex (r : RoomsDatabase) (i : Nat) (rcs : List Receipt) :
    List (Nat × Receipt) :=
  (List.enumFrom i rcs).filter (fun e => (rejectionOf r e.2).isNone)

/-- The store after the writes the spec asks for one accepted receipt, the
`i`-th of its batch, committed at `commitVersion`: the receipts directory, one
stream entry at user version `uint16(i)`, its mirror in the local stream for a
local user, and the version pointer. -/
def storeAfterReceipt (serverName : String) (commitVersion : List Nat) (db : Store)
    (e : Nat × Receipt) : Store :=
  { receipts := kvSet db.receipts (KeyValueForReceipt e.2).1 (KeyValueForReceipt e.2).2,
    superStream := kvSet db.superStream (e.2.RoomID, ⟨commitVersion, e.1 % 65536⟩)
      (receiptStreamValue e.2),
    localSuperStream :=
      if Homeserver e.2.UserID = serverName then
        kvSet db.localSuperStream (e.2.RoomID, ⟨commitVersion, e.1 % 65536⟩)
          (receiptStreamValue e.2)
      else db.localSuperStream,
    superStreamReceiptVersions := kvSet db.superStreamReceiptVersions
      (keyForSuperStreamReceiptVersion e.2) ⟨commitVersion, e.1 % 65536⟩,
    ttv := db.ttv,
    serverPositions := db.serverPositions }

/-- The receipt entries of a stream that belong to the key
`(room, user, type, thread)`. -/
def receiptEntries (s : Stream) (key : ReceiptVersionKey) : Stream :=
  s.filter (fun e =>
    match e.2 with
    | .rc userID _ threadID type _ =>
      decide ((e.1.1, userID, type, threadID) = key)
    | .ev _ => false)

/-- The store with nothing written to the receipts directory, the two
super-streams, the version pointers and the time index. -/
def emptyStore : Store := ⟨[], [], [], [], [], []⟩

/-- The store states reachable from the empty store by committed `SendReceipts`
transactions, for the memberships and stored events that `r` answers with.
The store never assigns the sentinel of incomplete versionstamps as a commit
version. -/
inductive Reachable (r : RoomsDatabase) : Store → Prop where
  | init : Reachable r emptyStore
  | step (db db' : Store) (commitVersion : List Nat) (nowNanos : Nat) (roomID : RoomID)
      (rcs : List Receipt) (res : SendReceiptsResults) (change : Change) :
      Reachable r db → commitVersion ≠ incompleteVersion →
      SendReceipts r db commitVersion nowNanos roomID rcs = .ok (res, db', change) →
      Reachable r db'

/-- The invariant of the receipt entries: every receipt entry of either stream
sits at the version its pointer records, no stream holds a key twice, and
every pointer is a complete versionstamp. -/
def StoreInvariant (db : Store) : Prop :=
  (∀ e ∈ db.superStream, ∀ userID eventID threadID type data,
    e.2 = .rc userID eventID threadID type data →
      kvGet db.superStreamReceiptVersions (e.1.1, userID, type, threadID) = some e.1.2) ∧
  (∀ e ∈ db.localSuperStream, ∀ userID eventID threadID type data,
    e.2 = .rc userID eventID threadID type data →
      kvGet db.superStreamReceiptVersions (e.1.1, userID, type, threadID) = some e.1.2) ∧
  (db.superStream.map (fun e => e.1)).Nodup ∧
  (db.localSuperStream.map (fun e => e.1)).Nodup ∧
  (∀ key v, kvGet db.superStreamReceiptVersions key = some v →
    v.TransactionVersion ≠ incompleteVersion)

/-- The receipt version keys a list of mutations writes. -/
def receiptVersionKeys (mutations : List Mutation) : List ReceiptVersionKey :=
  mutations.filterMap (fun m =>
    match m with
    | .setReceiptVersion k _ => some k
    | _ => none)

/-- The mutations `SendReceipts` buffers for one accepted receipt, the `i`-th
of its batch, when its writes succeed: the receipts directory, the stream
entry, its local mirror, the clears of the entry a stored pointer names, and
the new pointer. -/
def receiptMutations (serverName : String) (db : Store) (e : Nat × Receipt) : List Mutation :=
  let version := IncompleteVersionstamp (e.1 % 65536)
  [.setReceipt (KeyValueForReceipt e.2).1 (KeyValueForReceipt e.2).2,
   .setVersionstampedKey false (.versionstamped e.2.RoomID version) (receiptStreamValue e.2)] ++
  (if Homeserver e.2.UserID = serverName then
    [.setVersionstampedKey true (.versionstamped e.2.RoomID version) (receiptStreamValue e.2)]
   else []) ++
  (match kvGet db.superStreamReceiptVersions (keyForSuperStreamReceiptVersion e.2) with
   | none => []
   | some currVersion =>
     [.clear false (.versionstamped e.2.RoomID currVersion),
      .clear true (.versionstamped e.2.RoomID currVersion)]) ++
  [.setReceiptVersion (keyForSuperStreamReceiptVersion e.2) version]

/-- The condition under which the writes of the accepted receipts of a batch
all succeed, after `written` pointers were set earlier in the transaction:
the accepted receipts have pairwise different keys, none of them was set
earlier in the transaction, and none has a stored pointer that is a complete
versionstamp. -/
def WritesSucceed (r : RoomsDatabase) (db : Store) (written : List ReceiptVersionKey)
    (rcs : List Receipt) : Prop :=
  let keys := (rcs.filter (fun rc => (rejectionOf r rc).isNone)).map
    keyForSuperStreamReceiptVersion
  keys.Nodup ∧ (∀ k ∈ keys, k ∉ written) ∧
    (∀ k ∈ keys, ∀ v, kvGet db.superStreamReceiptVersions k = some v →
      v.TransactionVersion = incompleteVersion)

/-- The state the loop of `SendReceipts` owes when it started at index `i` in
state `st`: the mutations of the accepted receipts, the accepted receipts and
the rejected ones with their errors, all in batch order. -/
def sendReceiptsSpec (r : RoomsDatabase) (db : Store) (i : Nat) (rcs : List Receipt)
    (st : SendState) : SendState :=
  { mutations := st.mutations ++
      ((acceptedWithIndex r i rcs).map (receiptMutations r.ServerName db)).flatten,
    allowedReceipts := st.allowedReceipts ++
      rcs.filter (fun rc => (rejectionOf r rc).isNone),
    rejectedReceipts := st.rejectedReceipts ++
      rcs.filterMap (fun rc => (rejectionOf r rc).map (fun e => ⟨rc, e⟩)) }

/-- The store the spec owes after a batch is committed at `commitVersion`: the
writes of the accepted receipts in batch order, and the time index entry of
the transaction harness. -/
def storeAfterBatch (r : RoomsDatabase) (commitVersion : List Nat) (nowNanos : Nat)
    (db : Store) (rcs : List Receipt) : Store :=
  let written := (acceptedWithIndex r 0 rcs).foldl (storeAfterReceipt r.ServerName commitVersion) db
  { written with ttv := kvSet written.ttv nowNanos (Versionstamp.mk commitVersion 65534) }

/-- The result the spec owes for a batch: the accepted receipts and the
rejected ones with their errors, in batch order. -/
def resultsOfBatch (r : RoomsDatabase) (rcs : List Receipt) : SendReceiptsResults :=
  { change := ⟨[], [], []⟩,
    Allowed := rcs.filter (fun rc => (rejectionOf r rc).isNone),
    Rejected := rcs.filterMap (fun rc => (rejectionOf r rc).map (fun e => ⟨rc, e⟩)) }

/-! ## Versionstamp values and version maps (`internal/types/version.go`) -/

/-- An element of an unpacked tuple of the FoundationDB tuple layer. Integers,
floats, UUIDs and nested tuples are outside the model. -/
inductive TupleElement where
  | null
  | bytes (b : List Nat)
  | string (b : List Nat)
  | bool (b : Bool)
  | versionstamp (v : Versionstamp)
  deriving DecidableEq, Repr

/-- The binding's `decodeBytes` after the type code, on the byte strings `Pack`
produces: the bytes up to the first `0x00` that is not followed by `0xff`,
with every `0x00 0xff` read as `0x00`, and the bytes after that terminator.
A byte string without terminator is not an output of `Pack`; the model
reports it as the out of range slice the binding mostly runs into. -/
def decodeBytes : List Nat → Option (List Nat × List Nat)
  | [] => none
  | [b] => if b = 0 then some ([], []) else none
  | b :: c :: rest =>
    if b = 0 then
      if c = 0xff then (decodeBytes rest).map (fun r => (0 :: r.1, r.2))
      else some ([], c :: rest)
    else (decodeBytes (c :: rest)).map (fun r => (b :: r.1, r.2))

/-- The loop of the binding's `tuple.Unpack` over the bytes that are left, for
the element kinds of the model; `fuel` bounds the number of elements. -/
def unpackLoop : Nat → List Nat → Except Err (List TupleElement)
  | 0, _ => .error (.other "out of fuel")
  | _ + 1, [] => .ok []
  | fuel + 1, code :: rest =>
    if code = 0x00 then
      (unpackLoop fuel rest).map (fun t => .null :: t)
    else if code = 0x01 then
      match decodeBytes rest with
      | none => .error (.panic "slice bounds out of range")
      | some (b, rest') => (unpackLoop fuel rest').map (fun t => .bytes b :: t)
    else if code = 0x02 then
      match decodeBytes rest with
      | none => .error (.panic "slice bounds out of range")
      | some (b, rest') => (unpackLoop fuel rest').map (fun t => .string b :: t)
    else if code = 0x26 then
      (unpackLoop fuel rest).map (fun t => .bool false :: t)
    else if code = 0x27 then
      (unpackLoop fuel rest).map (fun t => .bool true :: t)
    else if code = 0x33 then
      match rest.drop 10 with
      | hi :: lo :: rest' =>
        (unpackLoop fuel rest').map
          (fun t => .versionstamp ⟨rest.take 10, hi * 256 + lo⟩ :: t)
      | _ => .error (.other "insufficient bytes to decode Versionstamp")
    else
      .error (.other "type code outside the model")

/-- The binding's `tuple.Unpack`. Every element takes at least one byte, so
the length of the input is fuel enough. -/
def tupleUnpack (b : List Nat) : Except Err (List TupleElement) :=
  unpackLoop (b.length + 1) b

/-- The function `types.ValueToVersionstamp`. -/
def ValueToVersionstamp (value : List Nat) : Except Err Versionstamp :=
  match tupleUnpack value with
  | .error (.panic msg) => .error (.panic msg)
  | .error _ => .error .ErrInvalidVersion
  | .ok [] => .error .ErrInvalidVersion
  | .ok (.versionstamp v :: _) => .ok v
  | .ok (_ :: _) => .error .ErrInvalidVersion

/-- The function `types.MustValueToVersionstamp`. -/
def MustValueToVersionstamp (value : List Nat) : Except Err Versionstamp :=
  match ValueToVersionstamp value with
  | .error (.panic msg) => .error (.panic msg)
  | .error _ => .error (.panic "invalid versionstamp tuple")
  | .ok v => .ok v

/-- The string type `types.VersionKey`. -/
abbrev VersionKey := String

/-- The constant `types.RoomsVersionKey`. -/
def RoomsVersionKey : VersionKey := "r"

/-- The map type `types.VersionMap`. -/
abbrev VersionMap := List (VersionKey × Versionstamp)

/-- The library's `msgpack.Marshal` on a `map[string][]byte`. -/
def msgpackMarshal (rawMap : List (String × List Nat)) : Msgpack := .rawMap rawMap

/-- The library's `msgpack.Unmarshal` into a `map[string][]byte`. -/
def msgpackUnmarshal : Msgpack → Except Err (List (String × List Nat))
  | .rawMap entries => .ok entries
  | .invalid => .error (.other "msgpack: invalid code")

/-- The method `VersionMap.MarshalMsgpack`. -/
def VersionMap.MarshalMsgpack (vm : VersionMap) : Except Err Msgpack :=
  .ok (msgpackMarshal
    (vm.foldl (fun rawMap e => mapPut rawMap e.1 (VersionstampToValue e.2)) []))

/-- The loop `for k, v := range rawMap` of `VersionMap.UnmarshalMsgpack`. -/
def unmarshalVersions : List (String × List Nat) → VersionMap → Except Err VersionMap
  | [], vMap => .ok vMap
  | (k, v) :: rest, vMap =>
    match ValueToVersionstamp v with
    | .error e => .error e
    | .ok version => unmarshalVersions rest (mapPut vMap k version)

/-- The method `VersionMap.UnmarshalMsgpack` on the map `vm`, nil or not. -/
def VersionMap.UnmarshalMsgpack (vm : VersionMap) (b : Msgpack) : Except Err VersionMap :=
  match msgpackUnmarshal b with
  | .error e => .error e
  | .ok rawMap => unmarshalVersions rawMap vm

/-! ## Initial sync (`rooms_sync_init.go`) -/

/-- The constant `event.ReceiptTypeRead` of mautrix. -/
def ReceiptTypeRead : String := "m.read"

/-- The method `ReceiptsDirectory.KeyValueToReceipt`. -/
def KeyValueToReceipt (kv : (RoomID × String × String × UserID) × (EventID × List Nat)) :
    Receipt :=
  ⟨kv.1.1, kv.1.2.1, kv.1.2.2.1, kv.1.2.2.2, kv.2.1, kv.2.2⟩

/-- The code points of a string. Packed tuple strings sort as their UTF-8
bytes do, which is the order of their code points. -/
def stringCodes (s : String) : List Nat := s.data.map Char.toNat

/-- Key order inside `byRoomTypeThread.Sub(room, type)`: by thread, then user. -/
def receiptKeyLe (a b : (RoomID × String × String × UserID) × (EventID × List Nat)) : Bool :=
  match bytesCompare (stringCodes a.1.2.2.1) (stringCodes b.1.2.2.1) with
  | .lt => true
  | .gt => false
  | .eq => bytesCompare (stringCodes a.1.2.2.2) (stringCodes b.1.2.2.2) != .gt

/-- The method `ReceiptsDirectory.TxnGetCurrentReceiptsForRoom`: every entry
of the receipts directory under `(roomID, rType)`, in key order. -/
def TxnGetCurrentReceiptsForRoom (db : Store) (roomID : RoomID) (rType : String) :
    Except Err (List Receipt) :=
  .ok (((db.receipts.filter (fun kv => decide (kv.1.1 = roomID ∧ kv.1.2.1 = rType))).insertionSort
    (fun a b => receiptKeyLe a b = true)).map KeyValueToReceipt)

/-- The loops `evs = append(evs, eventsProvider.MustGet(evID))`; `MustGet`
panics on an event that is not stored. -/
def mustGetAll (MustGet : EventID → Option Event) : List EventID → Except Err (List Event)
  | [] => .ok []
  | evID :: rest =>
    match MustGet evID with
    | none => .error (.panic "event not found")
    | some ev =>
      match mustGetAll MustGet rest with
      | .error e => .error e
      | .ok evs => .ok (ev :: evs)

/-- The method `GetCurrentRoomStateEvents`. `SortEventList` stands for
`util.SortEventList`, which sorts the slice in place. -/
def GetCurrentRoomStateEvents (r : RoomsDatabase) (SortEventList : List Event → List Event)
    (roomID : RoomID) : Except Err (List Event) :=
  match r.events.TxnLookupCurrentRoomStateMap roomID with
  | .error e => .error e
  | .ok stateMap =>
    match r.events.TxnLookupCurrentRoomMemberStateMap roomID with
    | .error e => .error e
    | .ok memberMap =>
      match mustGetAll r.events.Get
          (stateMap.map (fun e => e.2) ++ memberMap.map (fun e => e.2)) with
      | .error e => .error e
      | .ok evs => .ok (SortEventList evs)

/-- The goroutines of `InitRoomsForUser`, one per membership: an error of
either read makes the goroutine panic. -/
def initRooms (r : RoomsDatabase) (SortEventList : List Event → List Event) (db : Store) :
    Memberships → Except Err (List (MembershipTup × SyncRoom))
  | [] => .ok []
  | (roomID, membershipTup) :: rest =>
    match GetCurrentRoomStateEvents r SortEventList roomID with
    | .error _ => .error (.panic "error in GetCurrentRoomStateEvents")
    | .ok stateEvents =>
      match TxnGetCurrentReceiptsForRoom db roomID ReceiptTypeRead with
      | .error _ => .error (.panic "error in TxnGetCurrentReceiptsForRoom")
      | .ok receipts =>
        match initRooms r SortEventList db rest with
        | .error e => .error e
        | .ok results => .ok ((membershipTup, ⟨stateEvents, [], receipts⟩) :: results)

/-- The method `InitRoomsForUser`. -/
def InitRoomsForUser (r : RoomsDatabase) (SortEventList : List Event → List Event)
    (db : Store) (userID : UserID) :
    Except Err (Versionstamp × List (MembershipTup × SyncRoom)) :=
  match TxnGetLatestWriteVersion db with
  | .error e => .error e
  | .ok latestVersion =>
    match r.users.TxnLookupUserMemberships userID with
    | .error e => .error e
    | .ok memberships =>
      match initRooms r SortEventList db memberships with
      | .error e => .error e
      | .ok allResults =>
        .ok (latestVersion, allResults.foldl (fun m result => mapPut m result.1 result.2) [])

/-! ## Server positions (`rooms/servers.go`) -/

/-- The method `GetServerPositions`; `none` is the nil map it returns for a
server without a stored position. -/
def GetServerPositions (db : Store) (serverName : String) : Except Err (Option VersionMap) :=
  match kvGet db.serverPositions serverName with
  | none => .ok none
  | some b =>
    match VersionMap.UnmarshalMsgpack [] b with
    | .error e => .error e
    | .ok versions => .ok (some versions)

/-- The method `UpdateServerPositions`: the error it returns, if any, and the
store afterwards. `checkUpdateLock` is a `func(fdb.Transaction)` without a
result, so it fails by a panic inside the closure, which leaves the closure
before `txn.Set` and the transaction without commit. -/
def UpdateServerPositions (db : Store) (commitVersion : List Nat) (nowNanos : Nat)
    (serverName : String) (versions : VersionMap)
    (checkUpdateLock : Store → Except Err Unit) : Option Err × Store :=
  match VersionMap.MarshalMsgpack versions with
  | .error e => (some e, db)
  | .ok data =>
    let fn : Except Err (Unit × List Mutation) :=
      match checkUpdateLock db with
      | .error e => .error e
      | .ok _ => .ok ((), [Mutation.setServerPosition serverName data])
    match DoWriteTransaction db commitVersion nowNanos fn with
    | .error e => (some e, db)
    | .ok (_, db') => (none, db')

/-! ## Federation sender (`workers/federation_sender.go`) -/

/-- A call `sendEventsToServer` makes to a collaborator, in the order made. -/
inductive SenderCall where
  /-- The call `fs.sendTransactionToServer(serverName, log, version, evs)`. -/
  | send (version : Versionstamp) (evs : List Event)
  /-- The call `fs.db.Rooms.UpdateServerPositions(ctx, serverName, versions, ...)`. -/
  | update (versions : VersionMap)
  deriving DecidableEq, Repr

/-- How a run of `sendEventsToServer` ended. -/
inductive SenderEnd where
  /-- The function returned. -/
  | returned
  /-- A panic of the sync left the function. -/
  | panicked (msg : String)
  /-- The run was cut after the commits it was given. -/
  | cut
  deriving DecidableEq, Repr

/-- A run of `sendEventsToServer`: the value of `sent`, the store afterwards
and the calls made. -/
structure SenderRun where
  sent : Bool
  db : Store
  calls : List SenderCall
  ending : SenderEnd
  deriving DecidableEq, Repr

/-- The loop `for { ... }` of `sendEventsToServer`. Every position update takes
its commit version and clock reading from `commits`; `sendTransactionToServer`
is the network send and `now` the clock reading of the syncs. The call
`lock.Refresh()` that opens every round has no result the loop looks at. -/
def sendEventsLoop (r : RoomsDatabase)
    (sendTransactionToServer : String → Versionstamp → List Event → Except Err Unit)
    (checkUpdateLock : Store → Except Err Unit) (now : Int) (serverName : String) :
    List (List Nat × Nat) → Store → VersionMap → Bool → List SenderCall → SenderRun
  | commits, db, serverVersions, sent, calls =>
    let roomsVersion := (kvGet serverVersions RoomsVersionKey).getD ZeroVersionstamp
    match SyncRoomsForServer r db now serverName ⟨roomsVersion, 50⟩ with
    | .error (.panic msg) => ⟨sent, db, calls, .panicked msg⟩
    | .error _ => ⟨sent, db, calls, .returned⟩
    | .ok (nextVersion, events) =>
      if nextVersion = roomsVersion then ⟨sent, db, calls, .returned⟩
      else
        let allEvs := events.flatMap (fun evs => evs.2.StateEvents ++ evs.2.TimelineEvents)
        let sendResult : Except Err Unit :=
          if allEvs.length > 0 then sendTransactionToServer serverName roomsVersion allEvs
          else .ok ()
        let calls := if allEvs.length > 0 then calls ++ [.send roomsVersion allEvs] else calls
        match sendResult with
        | .error _ => ⟨true, db, calls, .returned⟩
        | .ok _ =>
          let serverVersions := mapPut serverVersions RoomsVersionKey nextVersion
          match commits with
          | [] => ⟨true, db, calls, .cut⟩
          | (commitVersion, nowNanos) :: rest =>
            match UpdateServerPositions db commitVersion nowNanos serverName serverVersions
                checkUpdateLock with
            | (some _, db') => ⟨true, db', calls ++ [.update serverVersions], .returned⟩
            | (none, db') =>
              sendEventsLoop r sendTransactionToServer checkUpdateLock now serverName rest db'
                serverVersions true (calls ++ [.update serverVersions])

/-- The method `sendEventsToServer`. -/
def sendEventsToServer (r : RoomsDatabase)
    (sendTransactionToServer : String → Versionstamp → List Event → Except Err Unit)
    (checkUpdateLock : Store → Except Err Unit) (now : Int) (serverName : String)
    (commits : List (List Nat × Nat)) (db : Store) : SenderRun :=
  match GetServerPositions db serverName with
  | .error _ => ⟨false, db, [], .returned⟩
  | .ok serverVersions =>
    sendEventsLoop r sendTransactionToServer checkUpdateLock now serverName commits db
      (serverVersions.getD []) false []

/-! ## The sync response (`types/sync.go`) -/

/-- The constant `event.MembershipLeave` of mautrix. -/
def MembershipLeave : Membership := "leave"

/-- The constant `event.MembershipInvite` of mautrix. -/
def MembershipInvite : Membership := "invite"

/-- The constant `event.MembershipKnock` of mautrix. -/
def MembershipKnock : Membership := "knock"

/-- The struct `syncRooms`: four Go maps from room id to room. -/
structure syncRooms where
  Join : List (RoomID × SyncRoom)
  Leave : List (RoomID × SyncRoom)
  Invite : List (RoomID × SyncRoom)
  Knock : List (RoomID × SyncRoom)
  deriving DecidableEq, Repr

/-- The struct `syncDeviceLists`. -/
structure syncDeviceLists where
  Changed : List UserID
  Left : List UserID
  deriving DecidableEq, Repr

/-- The struct `Sync`; `none` is a nil pointer. -/
structure Sync where
  NextBatch : String
  Rooms : Option syncRooms
  DeviceLists : Option syncDeviceLists
  AccountData : List Event
  deriving DecidableEq, Repr

/-- The body of the loop of `NewSyncFromRooms`: the `switch` on the membership. -/
def addSyncRoom (rooms : syncRooms) (e : MembershipTup × SyncRoom) : syncRooms :=
  if e.1.Membership = MembershipJoin then
    { rooms with Join := mapPut rooms.Join e.1.RoomID e.2 }
  else if e.1.Membership = MembershipLeave then
    { rooms with Leave := mapPut rooms.Leave e.1.RoomID e.2 }
  else if e.1.Membership = MembershipInvite then
    { rooms with Invite := mapPut rooms.Invite e.1.RoomID e.2 }
  else if e.1.Membership = MembershipKnock then
    { rooms with Knock := mapPut rooms.Knock e.1.RoomID e.2 }
  else rooms

/-- The function `NewSyncFromRooms`: only `Rooms` is set, `DeviceLists` stays
the nil pointer and `AccountData` the nil slice. -/
def NewSyncFromRooms (rooms : List (MembershipTup × SyncRoom)) : Sync :=
  { NextBatch := "",
    Rooms := some (rooms.foldl addSyncRoom ⟨[], [], [], []⟩),
    DeviceLists := none,
    AccountData := [] }

/-- The method `Sync.IsEmpty`: the conjunction is evaluated left to right and
stops at the first false operand; reading a field through a nil pointer panics. -/
def Sync.IsEmpty (s : Sync) : Except Err Bool :=
  if s.AccountData.length ≠ 0 then .ok false
  else
    match s.Rooms with
    | none => .error (.panic "invalid memory address or nil pointer dereference")
    | some rooms =>
      if rooms.Join.length ≠ 0 then .ok false
      else if rooms.Leave.length ≠ 0 then .ok false
      else if rooms.Invite.length ≠ 0 then .ok false
      else if rooms.Knock.length ≠ 0 then .ok false
      else
        match s.DeviceLists with
        | none => .error (.panic "invalid memory address or nil pointer dereference")
        | some deviceLists =>
          .ok (decide (deviceLists.Changed.length = 0) && decide (deviceLists.Left.length = 0))

/-- The method `Sync.prepareForJSON` on the maps. `allRooms := s.Rooms.Join`
names the map `Join` itself, a Go map being a reference, so the three loops
write into `Join`. The call `room.prepareForJSON()` changes fields of the
rooms, which this model leaves as they are. -/
def Sync.prepareForJSON (s : Sync) : Except Err Sync :=
  match s.Rooms with
  | none => .error (.panic "invalid memory address or nil pointer dereference")
  | some rooms =>
    let allRooms := rooms.Join
    let allRooms := rooms.Leave.foldl (fun m e => mapPut m e.1 e.2) allRooms
    let allRooms := rooms.Invite.foldl (fun m e => mapPut m e.1 e.2) allRooms
    let allRooms := rooms.Knock.foldl (fun m e => mapPut m e.1 e.2) allRooms
    if allRooms.length = 0 then .ok { s with Rooms := none }
    else .ok { s with Rooms := some { rooms with Join := allRooms } }

/-- The room ids under the four keys of `rooms` in the JSON of a sync; a map
that is empty, and `rooms` when nil, is left out of the JSON. -/
structure SyncRoomsJSON where
  join : List RoomID
  leave : List RoomID
  invite : List RoomID
  knock : List RoomID
  deriving DecidableEq, Repr

/-- The method `Sync.MarshalJSON`, by the room ids it writes under `rooms`. -/
def Sync.MarshalJSON (s : Sync) : Except Err SyncRoomsJSON :=
  match s.prepareForJSON with
  | .error e => .error e
  | .ok prepared =>
    match prepared.Rooms with
    | none => .ok ⟨[], [], [], []⟩
    | some rooms =>
      .ok ⟨rooms.Join.map (fun e => e.1), rooms.Leave.map (fun e => e.1),
        rooms.Invite.map (fun e => e.1), rooms.Knock.map (fun e => e.1)⟩

/-! ## The sender loop (`workers/federation_sender.go`) -/

/-- The closure `trySend` of `sendEventsToServerLoop` on the counter `noSends`,
given what `sendEventsToServer` reported. -/
def trySend (sent : Bool) (noSends : Nat) : Nat :=
  if sent then 0 else noSends + 1

/-- The loop `for { select ... }` of `sendEventsToServerLoop` without
cancellation: every round is woken by the channel or the timer, calls
`trySend` and returns when `noSends >= 10`. `polls` holds what the coming
calls of `sendEventsToServer` report; the result is the number of calls made
and the counter at the return, or `none` while the loop is still running
after all of `polls`. -/
def sendEventsToServerLoopRounds : List Bool → Nat → Nat → Option (Nat × Nat)
  | [], _, _ => none
  | sent :: rest, noSends, calls =>
    let noSends := trySend sent noSends
    if noSends ≥ 10 then some (calls + 1, noSends)
    else sendEventsToServerLoopRounds rest noSends (calls + 1)

/-- The method `sendEventsToServerLoop`: one call of `trySend`, then the loop. -/
def sendEventsToServerLoop (polls : List Bool) : Option (Nat × Nat) :=
  match polls with
  | [] => none
  | sent :: rest => sendEventsToServerLoopRounds rest (trySend sent 0) 1

/-! ## Accounts (`databases/accounts`) -/

/-- A device id (`id.DeviceID`). -/
abbrev DeviceID := String

/-- The struct `types.UserDevice`. -/
structure UserDevice where
  UserID : UserID
  DeviceID : DeviceID
  deriving DecidableEq, Repr

/-- The struct `types.User`; `CreatedAt` is an instant in microseconds. -/
structure User where
  Username : String
  ServerName : String
  Email : String
  CreatedAt : Int
  deriving DecidableEq, Repr

/-- The bytes `msgpack.Marshal` gives for a `User`, kept as the fields the
struct tags name: `em` and `ct`. `Username` and `ServerName` carry the tag
`msgpack:"-"` and are not encoded. -/
structure UserBytes where
  em : String
  ct : Int
  deriving DecidableEq, Repr

/-- The method `User.ToMsgpack`. -/
def User.ToMsgpack (u : User) : UserBytes := ⟨u.Email, u.CreatedAt⟩

/-- The function `MustNewUserFromBytes`. -/
def MustNewUserFromBytes (b : UserBytes) (username serverName : String) : User :=
  ⟨username, serverName, b.em, b.ct⟩

/-- The method `User.UserID`. -/
def User.UserID (u : User) : UserID := "@" ++ u.Username ++ ":" ++ u.ServerName

/-- The struct `types.Device`. -/
structure Device where
  ID : DeviceID
  DisplayName : String
  deriving DecidableEq, Repr

/-- The struct `AuthTokenTup`; `Expires` is an instant in microseconds. -/
structure AuthTokenTup where
  UserID : UserID
  DeviceID : DeviceID
  Expires : Int
  deriving DecidableEq, Repr

/-- The struct `RefreshTokenTup`. -/
structure RefreshTokenTup where
  UserID : UserID
  DeviceID : DeviceID
  deriving DecidableEq, Repr

/-- The one element tuple of a key of `authTokens` or `refreshTokens`. The
tuple layer packs a Go `string` with type code `0x02` and a `[]byte` with type
code `0x01`, so the two never give the same key. -/
inductive TokenKey where
  | string (token : String)
  | bytes (b : List Nat)
  deriving DecidableEq, Repr

/-- The contents of the accounts database: the users, tokens and devices
directories and the time index of the write harness. -/
structure AccountsStore where
  byUsername : List (String × UserBytes)
  byVersion : List (Versionstamp × String)
  userPasswordHashes : List (String × List Nat)
  authTokens : List (TokenKey × AuthTokenTup)
  authTokensByDeviceID : List ((UserID × DeviceID × String) × List Nat)
  refreshTokens : List (TokenKey × RefreshTokenTup)
  refreshTokensByDeviceID : List ((UserID × DeviceID × String) × List Nat)
  byUserDeviceID : List ((UserID × DeviceID) × Device)
  ttv : List (Nat × Versionstamp)
  deriving DecidableEq, Repr

/-- The method `TxnGetAuthTokenTup`. -/
def TxnGetAuthTokenTup (db : AccountsStore) (token : String) : Option AuthTokenTup :=
  kvGet db.authTokens (.string token)

/-- The method `TxnCreateAuthToken`; `token` is the random string generated,
`now` the clock in microseconds and `expires` the duration in microseconds. -/
def TxnCreateAuthToken (db : AccountsStore) (token : String) (now : Int) (userID : UserID)
    (deviceID : DeviceID) (expires : Int) : AccountsStore × String :=
  let expireTs : Int := if expires > 0 then now + expires else 0
  let db := { db with
    authTokensByDeviceID := kvSet db.authTokensByDeviceID (userID, deviceID, token) [] }
  ({ db with authTokens := kvSet db.authTokens (.string token) ⟨userID, deviceID, expireTs⟩ },
    token)

/-- The method `TxnCreateRefreshToken`. -/
def TxnCreateRefreshToken (db : AccountsStore) (token : String) (userID : UserID)
    (deviceID : DeviceID) : AccountsStore × String :=
  let db := { db with
    refreshTokensByDeviceID := kvSet db.refreshTokensByDeviceID (userID, deviceID, token) [] }
  ({ db with refreshTokens := kvSet db.refreshTokens (.string token) ⟨userID, deviceID⟩ },
    token)

/-- The method `TxnClearUserDeviceTokens`. Both loops clear the index entry
`kv.Key` and the key `Pack(tuple.Tuple{kv.Value})` of the token directory,
where `kv.Value` is the value of the index entry, a `[]byte`. -/
def TxnClearUserDeviceTokens (db : AccountsStore) (userID : UserID) (deviceID : DeviceID) :
    AccountsStore :=
  let db := (db.refreshTokensByDeviceID.filter
      (fun kv => decide (kv.1.1 = userID ∧ kv.1.2.1 = deviceID))).foldl
    (fun db kv =>
      let db := { db with refreshTokens := kvClear db.refreshTokens (.bytes kv.2) }
      { db with refreshTokensByDeviceID := kvClear db.refreshTokensByDeviceID kv.1 }) db
  (db.authTokensByDeviceID.filter
      (fun kv => decide (kv.1.1 = userID ∧ kv.1.2.1 = deviceID))).foldl
    (fun db kv =>
      let db := { db with authTokens := kvClear db.authTokens (.bytes kv.2) }
      { db with authTokensByDeviceID := kvClear db.authTokensByDeviceID kv.1 }) db

/-- The method `TxnCreateNewTokensForUserDevice`; `newRefreshToken` and
`newAccessToken` are the random strings the two creations generate. -/
def TxnCreateNewTokensForUserDevice (db : AccountsStore) (newRefreshToken newAccessToken : String)
    (now : Int) (userID : UserID) (deviceID : DeviceID) (withRefreshToken : Bool)
    (accessTokenExpire : Int) : AccountsStore × String × String :=
  let db := TxnClearUserDeviceTokens db userID deviceID
  let withRefresh : AccountsStore × Int × String :=
    if withRefreshToken then
      let created := TxnCreateRefreshToken db newRefreshToken userID deviceID
      (created.1, accessTokenExpire, created.2)
    else (db, 0, "")
  let created := TxnCreateAuthToken withRefresh.1 newAccessToken now userID deviceID
    withRefresh.2.1
  (created.1, created.2, withRefresh.2.2)

/-- The method `GetUserDeviceForAuthToken`; `now` is the clock in microseconds. -/
def GetUserDeviceForAuthToken (db : AccountsStore) (now : Int) (token : String) :
    Except Err UserDevice :=
  match TxnGetAuthTokenTup db token with
  | none => .error .ErrUserNotFound
  | some authToken =>
    if authToken.Expires ≠ 0 ∧ authToken.Expires < now then .error .ErrTokenExpired
    else .ok ⟨authToken.UserID, authToken.DeviceID⟩

/-- The method `UsersDirectory.TxnGetLocalUser` of the accounts database. -/
def TxnGetLocalUser (db : AccountsStore) (username serverName : String) : Except Err User :=
  match kvGet db.byUsername username with
  | none => .error .ErrUserNotFound
  | some b => .ok (MustNewUserFromBytes b username serverName)

/-- The method `TxnSetLocalUserPasswordHash`. -/
def TxnSetLocalUserPasswordHash (db : AccountsStore) (username : String) (hash : List Nat) :
    AccountsStore :=
  { db with userPasswordHashes := kvSet db.userPasswordHashes username hash }

/-- The method `TxnCreateUser`. The version index entry is written with
`txn.Set` under the key packed with the incomplete versionstamp. -/
def TxnCreateUser (db : AccountsStore) (user : User) (hashedPassword : Option (List Nat)) :
    Except Err AccountsStore :=
  match kvGet db.byUsername user.Username with
  | some _ => .error .ErrUserAlreadyExists
  | none =>
    let db := { db with byUsername := kvSet db.byUsername user.Username user.ToMsgpack }
    let db := { db with
      byVersion := kvSet db.byVersion (IncompleteVersionstamp 0) user.Username }
    match hashedPassword with
    | some hash => .ok (TxnSetLocalUserPasswordHash db user.Username hash)
    | none => .ok db

/-- The method `TxnGetOrCreateDevice`. -/
def TxnGetOrCreateDevice (db : AccountsStore) (userID : UserID) (deviceID : DeviceID)
    (initialDisplayName : String) : Except Err (Device × AccountsStore) :=
  match kvGet db.byUserDeviceID (userID, deviceID) with
  | none =>
    let device : Device := ⟨deviceID, initialDisplayName⟩
    .ok (device, { db with byUserDeviceID := kvSet db.byUserDeviceID (userID, deviceID) device })
  | some stored => .ok ({ stored with ID := deviceID }, db)

/-- The function `util.DoWriteTransaction` on the accounts database, around a
closure that reads and writes the transaction's view `db`: the closure's
error leaves the database as it was, otherwise the writes and the time index
entry are committed. -/
def DoAccountsWriteTransaction {α : Type} (db : AccountsStore) (commitVersion : List Nat)
    (nowNanos : Nat) (fn : AccountsStore → Except Err (α × AccountsStore)) :
    Except Err α × AccountsStore :=
  match fn db with
  | .error e => (.error e, db)
  | .ok (res, db') =>
    (.ok res, { db' with ttv := kvSet db'.ttv nowNanos (Versionstamp.mk commitVersion 65534) })

/-- The struct `authResp`. -/
structure authResp where
  DeviceID : DeviceID
  AccessToken : String
  RefreshToken : String
  deriving DecidableEq, Repr

/-- What `RegisterWithPassword` takes from outside the database: the server
name and token lifetime of the configuration, the clock, the random strings,
the result of `bcrypt.GenerateFromPassword`, and the commit of its write
transaction. -/
structure RegisterEnv where
  ServerName : String
  RefreshAccessTokenExpire : Int
  now : Int
  randomDeviceID : DeviceID
  newRefreshToken : String
  newAccessToken : String
  hashedPassword : Except Err (List Nat)
  commitVersion : List Nat
  nowNanos : Nat

/-- The method `RegisterWithPassword`: the response, the error, and the
database afterwards. -/
def RegisterWithPassword (env : RegisterEnv) (db : AccountsStore) (username : String)
    (withRefreshToken : Bool) (deviceID : DeviceID) (initialDeviceDisplayName : String) :
    (authResp × Option Err) × AccountsStore :=
  let deviceID := if deviceID = "" then env.randomDeviceID else deviceID
  let resp : authResp := ⟨deviceID, "", ""⟩
  match env.hashedPassword with
  | .error e => ((resp, some e), db)
  | .ok hashedPassword =>
    let txn := DoAccountsWriteTransaction db env.commitVersion env.nowNanos (fun db =>
      let user : User := ⟨username, env.ServerName, "", env.now⟩
      match TxnCreateUser db user (some hashedPassword) with
      | .error e => .error e
      | .ok db =>
        let userID := user.UserID
        let created := TxnCreateNewTokensForUserDevice db env.newRefreshToken
          env.newAccessToken env.now userID deviceID withRefreshToken
          env.RefreshAccessTokenExpire
        match TxnGetOrCreateDevice created.1 userID deviceID initialDeviceDisplayName with
        | .error e => .error e
        | .ok (_, db) => .ok ({ resp with AccessToken := created.2.1,
                                          RefreshToken := created.2.2 }, db))
    match txn with
    | (.error e, db') => ((resp, some e), db')
    | (.ok resp', db') => ((resp', none), db')

/-! ## Media (`types/media.go`) -/

/-- The struct `types.Media`. The two times are instants, counted from the
zero `time.Time`, so that `0` is the time `IsZero` holds for. -/
structure Media where
  ServerName : String
  MediaID : String
  StoreKey : String
  StorePath : String
  Size : Int
  ContentType : String
  Sender : UserID
  CreatedAt : Int
  UploadedAt : Int
  deriving DecidableEq, Repr

/-- A value of a field in the msgpack map of a struct. -/
inductive MsgpackField where
  | str (s : String)
  | int (n : Int)
  | time (instant : Int)
  deriving DecidableEq, Repr

/-- The library's `msgpack.Marshal` on a `Media`, as the map it encodes: one
entry per struct tag, in field order. The fields tagged `msgpack:"-"` are
left out, and so is a field tagged `omitempty` that holds its zero value. -/
def Media.MarshalMsgpack (m : Media) : List (String × MsgpackField) :=
  [("sk", .str m.StoreKey), ("sp", .str m.StorePath)] ++
  (if m.Size = 0 then [] else [("sz", .int m.Size)]) ++
  (if m.ContentType = "" then [] else [("ty", .str m.ContentType)]) ++
  [("snd", .str m.Sender), ("ct", .time m.CreatedAt)] ++
  (if m.UploadedAt = 0 then [] else [("ut", .time m.UploadedAt)])

/-- The library's decoding of one map entry into the field its key names: an
unknown key is skipped, a value of another kind is an error. -/
def Media.decodeField (m : Media) (entry : String × MsgpackField) : Except Err Media :=
  match entry with
  | ("sk", .str s) => .ok { m with StoreKey := s }
  | ("sp", .str s) => .ok { m with StorePath := s }
  | ("sz", .int n) => .ok { m with Size := n }
  | ("ty", .str s) => .ok { m with ContentType := s }
  | ("snd", .str s) => .ok { m with Sender := s }
  | ("ct", .time t) => .ok { m with CreatedAt := t }
  | ("ut", .time t) => .ok { m with UploadedAt := t }
  | (key, _) =>
    if key ∈ ["sk", "sp", "sz", "ty", "snd", "ct", "ut"] then
      .error (.other "msgpack: invalid code decoding field")
    else .ok m

/-- The library's `msgpack.Unmarshal` into a `Media`. -/
def Media.UnmarshalMsgpack : List (String × MsgpackField) → Media → Except Err Media
  | [], m => .ok m
  | entry :: rest, m =>
    match m.decodeField entry with
    | .error e => .error e
    | .ok m' => Media.UnmarshalMsgpack rest m'

/-- The function `NewMediaFromBytes`: the bytes are decoded into `var m Media`
and the two key parts are set. -/
def NewMediaFromBytes (b : List (String × MsgpackField)) (serverName mediaID : String) :
    Except Err Media :=
  match Media.UnmarshalMsgpack b ⟨"", "", "", "", 0, "", "", 0, 0⟩ with
  | .error e => .error e
  | .ok m => .ok { m with ServerName := serverName, MediaID := mediaID }

/-- The function `NewMedia`; `now` is the clock reading. -/
def NewMedia (now : Int) (serverName mediaID storeKey : String) (sender : UserID) : Media :=
  { ServerName := serverName, MediaID := mediaID, StoreKey := storeKey,
    StorePath := serverName ++ "/" ++ mediaID, Size := 0, ContentType := "",
    Sender := sender, CreatedAt := now, UploadedAt := 0 }

/-! ## Sample data -/

/-- The commit version number `n`. -/
def sampleCommit (n : Nat) : List Nat := [0, 0, 0, 0, 0, 0, 0, 0, 0, n]

/-- A read receipt of the local member `@a:s` for the stored event `$a`. -/
def rcA : Receipt := ⟨"!r:s", "m.read", "", "@a:s", "$a", []⟩

/-- A later read receipt of `@a:s`, same room, type and thread, for `$b`. -/
def rcA2 : Receipt := ⟨"!r:s", "m.read", "", "@a:s", "$b", []⟩

/-- A read receipt of the remote member `@b:t` for an event that is not stored. -/
def rcRemote : Receipt := ⟨"!r:s", "m.read", "", "@b:t", "$unknown", []⟩

/-- A read receipt of the local member `@a:s` for an event that is not stored. -/
def rcLocalUnknown : Receipt := ⟨"!r:s", "m.read", "", "@a:s", "$unknown", []⟩

/-- A read receipt of `@c:s`, who is not in the room. -/
def rcStranger : Receipt := ⟨"!r:s", "m.read", "", "@c:s", "$a", []⟩

/-- The store after `@a:s` sent `rcA` in a first transaction committed at
commit 5. -/
def storeAfterFirstReceipt : Store :=
  { receipts := [(("!r:s", "m.read", "", "@a:s"), ("$a", []))],
    superStream := [(("!r:s", ⟨sampleCommit 5, 0⟩), .rc "@a:s" "$a" "" "m.read" [])],
    localSuperStream := [(("!r:s", ⟨sampleCommit 5, 0⟩), .rc "@a:s" "$a" "" "m.read" [])],
    superStreamReceiptVersions := [(("!r:s", "@a:s", "m.read", ""), ⟨sampleCommit 5, 0⟩)],
    ttv := [(50, ⟨sampleCommit 5, 65534⟩)] }

/-- The store after the remote member `@b:t` sent `rcRemote` in a second
transaction, committed at commit 6 on `storeAfterFirstReceipt`. -/
def storeAfterSecondReceipt : Store :=
  { receipts := [(("!r:s", "m.read", "", "@b:t"), ("$unknown", [])),
      (("!r:s", "m.read", "", "@a:s"), ("$a", []))],
    superStream := [(("!r:s", ⟨sampleCommit 6, 0⟩), .rc "@b:t" "$unknown" "" "m.read" []),
      (("!r:s", ⟨sampleCommit 5, 0⟩), .rc "@a:s" "$a" "" "m.read" [])],
    localSuperStream := [(("!r:s", ⟨sampleCommit 5, 0⟩), .rc "@a:s" "$a" "" "m.read" [])],
    superStreamReceiptVersions := [(("!r:s", "@b:t", "m.read", ""), ⟨sampleCommit 6, 0⟩),
      (("!r:s", "@a:s", "m.read", ""), ⟨sampleCommit 5, 0⟩)],
    ttv := [(60, ⟨sampleCommit 6, 65534⟩), (50, ⟨sampleCommit 5, 65534⟩)] }

/-- A complete versionstamp with commit version `n` and user version `uv`. -/
def sampleVersion (n uv : Nat) : Versionstamp := ⟨[0, 0, 0, 0, 0, 0, 0, 0, 0, n], uv⟩

/-- The latest write version left by commit `n`: user version `65534`. -/
def sampleLatest (n : Nat) : Versionstamp := sampleVersion n 65534

/-- The stream item of event `eventID` of room `!r:s` at commit `n`. -/
def sampleEventItem (eventID : EventID) (n : Nat) : SuperStreamItem :=
  valueToSuperStreamItem "!r:s" (sampleVersion n 0) (.ev eventID)

/-- A store whose two super-streams hold the events `$a`, `$b` and `$c` of room
`!r:s` at the commits 1, 2 and 3, stored out of order. -/
def sampleStore : Store :=
  { receipts := [],
    superStream := [(("!r:s", sampleVersion 3 0), .ev "$c"), (("!r:s", sampleVersion 1 0), .ev "$a"),
      (("!q:s", sampleVersion 2 1), .ev "$x"), (("!r:s", sampleVersion 2 0), .ev "$b")],
    localSuperStream := [(("!r:s", sampleVersion 3 0), .ev "$c"),
      (("!r:s", sampleVersion 1 0), .ev "$a"), (("!r:s", sampleVersion 2 0), .ev "$b")],
    superStreamReceiptVersions := [],
    ttv := [(1, sampleLatest 1), (2, sampleLatest 2), (3, sampleLatest 3)] }

/-- The page a range read owes: `kept` is made of entries of room `roomID` of
the stream `s` with `fromVersion ≤ v < toVersion`, in increasing version
order, it has `limit` entries or all of them, and every entry of that range
left out comes after all the kept ones. -/
def IsFirstPage (s : Stream) (roomID : RoomID) (fromVersion toVersion : Versionstamp)
    (limit : Nat) (kept : Stream) : Prop :=
  kept.Pairwise (fun a b => vle a.1.2 b.1.2) ∧
    ((s.map (fun e => e.1)).Nodup → kept.Pairwise (fun a b => vlt a.1.2 b.1.2)) ∧
    (∀ e ∈ kept, e ∈ s ∧ e.1.1 = roomID ∧ vle fromVersion e.1.2 ∧ vlt e.1.2 toVersion) ∧
    kept.length = min limit (s.filter (fun e =>
      decide (e.1.1 = roomID ∧ vle fromVersion e.1.2 ∧ vlt e.1.2 toVersion))).length ∧
    (∀ e ∈ s, e.1.1 = roomID → vle fromVersion e.1.2 → vlt e.1.2 toVersion →
      e ∈ kept ∨ ∀ y ∈ kept, vle y.1.2 e.1.2)

/-- The membership of a user joined to room `!r:s`. -/
def sampleJoin : MembershipTup := ⟨"$join", "!r:s", "join"⟩

/-- A rooms database named `s` in which `@a:s` and the remote `@b:t` are joined
to `!r:s`, nobody changed membership, and the events `$a`, `$b`, `$c` are
stored. -/
def sampleRooms : RoomsDatabase :=
  { ServerName := "s",
    users :=
      { TxnLookupUserMemberships := fun _ => .ok [("!r:s", sampleJoin)],
        TxnLookupUserMembershipChanges := fun _ _ _ => .ok [],
        TxnMustIsUserInRoom := fun userID roomID =>
          decide (roomID = "!r:s" ∧ (userID = "@a:s" ∨ userID = "@b:t")) },
    servers :=
      { TxnLookupServerMemberships := fun _ => .ok [("!r:s", sampleJoin)],
        TxnLookupServerMembershipChanges := fun _ _ _ => .ok [] },
    events :=
      { Get := fun eventID =>
          if eventID ∈ ["$a", "$b", "$c"] then some ⟨eventID, "!r:s", "@a:s", 1000, []⟩
          else none } }

/-- The event ids of the timelines of a sync result, room by room. -/
def timelineIDs (res : Except Err (Versionstamp × List (MembershipTup × SyncRoom))) :
    Except Err (List (List EventID)) :=
  res.map (fun r => r.2.map (fun e => e.2.TimelineEvents.map (fun ev => ev.ID)))

/-- The items `SyncRoomsForUser` keeps before it fetches their events: the
result of `syncRoomItems` with the closures `SyncRoomsForUser` passes. -/
def userSyncItems (r : RoomsDatabase) (db : Store) (latestVersion : Versionstamp)
    (userID : UserID) (options : SyncOptions) :
    Except Err (List (RoomID × MembershipTup) × List SuperStreamItem × Versionstamp) :=
  syncRoomItems options latestVersion
    (r.users.TxnLookupUserMemberships userID)
    (fun fromVersion toVersion =>
      r.users.TxnLookupUserMembershipChanges userID fromVersion toVersion)
    (fun roomID fromVersion toVersion =>
      txnPaginateRoomSuperStream db roomID fromVersion toVersion options.Limit)

/-- The items `SyncRoomsForServer` keeps before it fetches their events. -/
def serverSyncItems (r : RoomsDatabase) (db : Store) (latestVersion : Versionstamp)
    (serverName : String) (options : SyncOptions) :
    Except Err (List (RoomID × MembershipTup) × List SuperStreamItem × Versionstamp) :=
  syncRoomItems options latestVersion
    (r.servers.TxnLookupServerMemberships serverName)
    (fun fromVersion _toVersion =>
      r.servers.TxnLookupServerMembershipChanges serverName fromVersion ZeroVersionstamp)
    (fun roomID fromVersion toVersion =>
      txnPaginateRoomLocalSuperStream db roomID fromVersion toVersion options.Limit)

/-- The membership of `@b:s` after it left room `!r:s`. -/
def sampleLeave : MembershipTup := ⟨"$leave", "!r:s", "leave"⟩

/-- The rooms database of the scenario "sync window after leave": `@b:s` joined
`!r:s` at commit 1 and left it at commit 3, so its current membership is the
leave and its change log holds the join and the leave. -/
def leaveRooms : RoomsDatabase :=
  { ServerName := "s",
    users :=
      { TxnLookupUserMemberships := fun _ => .ok [("!r:s", sampleLeave)],
        TxnLookupUserMembershipChanges := fun _ _ _ =>
          .ok [⟨sampleJoin, sampleVersion 1 0⟩, ⟨sampleLeave, sampleVersion 3 0⟩],
        TxnMustIsUserInRoom := fun _ _ => false },
    servers :=
      { TxnLookupServerMemberships := fun _ => .ok [],
        TxnLookupServerMembershipChanges := fun _ _ _ => .ok [] },
    events := { Get := fun eventID => some ⟨eventID, "!r:s", "@a:s", 1000, []⟩ } }

/-- The store of the scenario: the stream of `!r:s` holds the join at commit 1,
the message `$m2` at commit 2, the leave at commit 3 and the message `$m3` of
another user at commit 4. -/
def leaveStore : Store :=
  { receipts := [],
    superStream := [(("!r:s", sampleVersion 1 0), .ev "$join"),
      (("!r:s", sampleVersion 2 0), .ev "$m2"), (("!r:s", sampleVersion 3 0), .ev "$leave"),
      (("!r:s", sampleVersion 4 0), .ev "$m3")],
    localSuperStream := [],
    superStreamReceiptVersions := [],
    ttv := [(1, sampleLatest 1), (2, sampleLatest 2), (3, sampleLatest 3), (4, sampleLatest 4)] }

/-- The event `ev` is the delivery of an event item of `items`: the stored
event of that item with the unsigned map the sync gives it, the key `age`
with `now` minus the origin timestamp and the key `hs.order` with the base64
form of `VersionstampToValue` of the item's version. -/
def DeliveredFrom (MustGet : EventID → Option Event) (now : Int)
    (items : List SuperStreamItem) (ev : Event) : Prop :=
  ∃ item ∈ items, ∃ evIDTup orig,
    item.Type_ = .SuperStreamEvent ∧ item.EventIDTup = some evIDTup ∧
    MustGet evIDTup.EventID = some orig ∧
    ev = { orig with Unsigned :=
      [("age", .int (now - orig.Timestamp)),
       ("hs.order", .base64 (VersionstampToValue item.Version))] }

/-- The unsigned maps of the timeline events of a sync result, room by room. -/
def timelineUnsigned (res : Except Err (Versionstamp × List (MembershipTup × SyncRoom))) :
    Except Err (List (List (List (String × UnsignedValue)))) :=
  res.map (fun r => r.2.map (fun e => e.2.TimelineEvents.map (fun ev => ev.Unsigned)))

/-- The rooms the sync of the sample store from commit 1 returns at time 2000. -/
def sampleDelivered : List (MembershipTup × SyncRoom) :=
  [(sampleJoin,
    { StateEvents := [],
      TimelineEvents :=
        [⟨"$b", "!r:s", "@a:s", 1000, [("age", .int 1000),
            ("hs.order", .base64 [0x33, 0, 0, 0, 0, 0, 0, 0, 0, 0, 2, 0, 0])]⟩,
         ⟨"$c", "!r:s", "@a:s", 1000, [("age", .int 1000),
            ("hs.order", .base64 [0x33, 0, 0, 0, 0, 0, 0, 0, 0, 0, 3, 0, 0])]⟩],
      Receipts := [] })]

/-- A membership change lookup over the change log `log` that honours the
range it is asked for, begin inclusive and end exclusive, with the zero
versionstamp as "no upper bound" as in `types.GetVersionRange`. -/
def lookupChangesIn (log : MembershipChanges) (fromVersion toVersion : Versionstamp) :
    Except Err MembershipChanges :=
  .ok (log.filter (fun c => decide (vle fromVersion c.Version) &&
    (decide (toVersion = ZeroVersionstamp) || decide (vlt c.Version toVersion))))

/-- A rooms database in which `@b:t` and its server `t` are joined to `!r:s`
and leave it at commit 4; both change lookups read the same log. -/
def lateRooms : RoomsDatabase :=
  { ServerName := "s",
    users :=
      { TxnLookupUserMemberships := fun _ => .ok [("!r:s", sampleJoin)],
        TxnLookupUserMembershipChanges := fun _ =>
          lookupChangesIn [⟨sampleLeave, sampleVersion 4 0⟩],
        TxnMustIsUserInRoom := fun _ _ => true },
    servers :=
      { TxnLookupServerMemberships := fun _ => .ok [("!r:s", sampleJoin)],
        TxnLookupServerMembershipChanges := fun _ =>
          lookupChangesIn [⟨sampleLeave, sampleVersion 4 0⟩] },
    events := { Get := fun eventID => some ⟨eventID, "!r:s", "@a:s", 1000, []⟩ } }

/-- The store as the reads after the first transaction find it: the latest
version was snapshotted at commit 2, then `$late` was written at commit 3 and
the leave at commit 4. -/
def lateStore : Store :=
  { receipts := [],
    superStream := [(("!r:s", sampleVersion 1 0), .ev "$a"),
      (("!r:s", sampleVersion 3 0), .ev "$late")],
    localSuperStream := [(("!r:s", sampleVersion 1 0), .ev "$a"),
      (("!r:s", sampleVersion 3 0), .ev "$late")],
    superStreamReceiptVersions := [],
    ttv := [(1, sampleLatest 1), (2, sampleLatest 2), (3, sampleLatest 3), (4, sampleLatest 4)] }

/-- The versions of the items a sync keeps. -/
def keptVersions
    (res : Except Err (List (RoomID × MembershipTup) × List SuperStreamItem × Versionstamp)) :
    Except Err (List Versionstamp) :=
  res.map (fun r => r.2.1.map (fun item => item.Version))

/-- The membership changes `syncRoomEvents` works with: those of the second
read, or none when that read failed. -/
def changesOrNone (res : Except Err MembershipChanges) : MembershipChanges :=
  match res with
  | .ok changes => changes
  | .error _ => []

/-- A read of `syncRoomEvents` whose failure stops the sync: the memberships
read fails, or the pagination of one of the ranges fails, or an event of a kept
item is not stored when the last transaction fetches it. -/
def SyncReadFails (options : SyncOptions) (latestVersion : Versionstamp)
    (getCurrentMemberships : Except Err Memberships)
    (getMembershipChanges : Versionstamp → Versionstamp → Except Err MembershipChanges)
    (paginateRoomSuperStream :
      RoomID → Versionstamp → Versionstamp → Except Err (List SuperStreamItem))
    (MustGet : EventID → Option Event) : Prop :=
  (∃ e, getCurrentMemberships = .error e) ∨
  (∃ memberships, getCurrentMemberships = .ok memberships ∧
    ∃ r ∈ membershipsWithRanges (bumpUserVersion options.From) latestVersion memberships
        (changesOrNone (getMembershipChanges (bumpUserVersion options.From) latestVersion)),
      ∃ e, paginateRoomSuperStream r.1.RoomID r.2.from_ r.2.to_ = .error e) ∨
  (∃ roomIDToMembership items nextVersion,
    syncRoomItems options latestVersion getCurrentMemberships getMembershipChanges
      paginateRoomSuperStream = .ok (roomIDToMembership, items, nextVersion) ∧
    ∃ item ∈ items, ∃ evIDTup, item.Type_ = .SuperStreamEvent ∧
      item.EventIDTup = some evIDTup ∧ MustGet evIDTup.EventID = none)

/-- The state of `roomID` the initial sync owes: the stored events of its
general state map and of its member state map. -/
def IsCurrentState (r : RoomsDatabase) (roomID : RoomID) (evs : List Event) : Prop :=
  ∃ stateMap memberMap,
    r.events.TxnLookupCurrentRoomStateMap roomID = .ok stateMap ∧
    r.events.TxnLookupCurrentRoomMemberStateMap roomID = .ok memberMap ∧
    evs.length = stateMap.length + memberMap.length ∧
    ∀ ev, ev ∈ evs ↔
      ∃ evID ∈ stateMap.map (fun e => e.2) ++ memberMap.map (fun e => e.2),
        r.events.Get evID = some ev

/-- The state maps of `roomID` can be read and every event they name is stored. -/
def StateReadable (r : RoomsDatabase) (roomID : RoomID) : Prop :=
  ∃ stateMap memberMap,
    r.events.TxnLookupCurrentRoomStateMap roomID = .ok stateMap ∧
    r.events.TxnLookupCurrentRoomMemberStateMap roomID = .ok memberMap ∧
    ∀ evID ∈ stateMap.map (fun e => e.2) ++ memberMap.map (fun e => e.2),
      ∃ ev, r.events.Get evID = some ev

/-- A rooms database in which `@a:s` is joined to `!r:s`, whose current state
is the create event `$a` and the member event `$b`. -/
def initRoomsSample : RoomsDatabase :=
  { ServerName := "s",
    users :=
      { TxnLookupUserMemberships := fun _ => .ok [("!r:s", sampleJoin)],
        TxnLookupUserMembershipChanges := fun _ _ _ => .ok [],
        TxnMustIsUserInRoom := fun _ _ => true },
    servers :=
      { TxnLookupServerMemberships := fun _ => .ok [("!r:s", sampleJoin)],
        TxnLookupServerMembershipChanges := fun _ _ _ => .ok [] },
    events :=
      { Get := fun eventID => some ⟨eventID, "!r:s", "@a:s", 1000, []⟩,
        TxnLookupCurrentRoomStateMap := fun _ => .ok [("m.room.create", "$a")],
        TxnLookupCurrentRoomMemberStateMap := fun _ => .ok [("@a:s", "$b")] } }

/-- The position `sendEventsToServer` syncs from, given the stored positions:
the entry of `RoomsVersionKey`, or the zero versionstamp. -/
def storedRoomsVersion (positions : Option VersionMap) : Versionstamp :=
  (kvGet (positions.getD []) RoomsVersionKey).getD ZeroVersionstamp

/-- The batch `sendEventsToServer` makes of the rooms of a sync: the state
events and the timeline events of every room. -/
def batchOf (events : List (MembershipTup × SyncRoom)) : List Event :=
  events.flatMap (fun evs => evs.2.StateEvents ++ evs.2.TimelineEvents)

/-- The rooms the server sync of the sample store returns to server `t`, which
has no stored position. -/
def sampleServerEvents : List (MembershipTup × SyncRoom) :=
  match SyncRoomsForServer sampleRooms sampleStore 2000 "t" ⟨ZeroVersionstamp, 50⟩ with
  | .ok (_, events) => events
  | .error _ => []

/-- A network send that fails. -/
def failingSend : String → Versionstamp → List Event → Except Err Unit :=
  fun _ _ _ => .error (.other "connection refused")

/-- A lock check that fails: the lock is owned by another process. -/
def lockOwnedByOther : Store → Except Err Unit :=
  fun _ => .error (.other "lock owned by another process")

/-- The `(room, version)` keys of the stream items a sync keeps. -/
def keptKeys
    (res : Except Err (List (RoomID × MembershipTup) × List SuperStreamItem × Versionstamp)) :
    Except Err (List (RoomID × Versionstamp)) :=
  res.map (fun r => r.2.1.map (fun item =>
    (match item.EventIDTup, item.Receipt with
      | some evIDTup, _ => evIDTup.RoomID
      | none, some rc => rc.RoomID
      | none, none => "", item.Version)))

/-- The number of consecutive calls that reported no send at the end of the
calls `polls`. -/
def consecutiveNoSends (polls : List Bool) : Nat :=
  (polls.reverse.takeWhile (fun sent => !sent)).length

/-- The accounts database before any write. -/
def emptyAccounts : AccountsStore := ⟨[], [], [], [], [], [], [], [], []⟩

/-- The accounts database after `@a:s` logged in twice on device `DEV`: the
first login got the tokens `R1` and `A1`, the second `R2` and `A2`. -/
def accountsAfterTwoLogins : AccountsStore :=
  (TxnCreateNewTokensForUserDevice
    (TxnCreateNewTokensForUserDevice emptyAccounts "R1" "A1" 1000 "@a:s" "DEV" true 0).1
    "R2" "A2" 2000 "@a:s" "DEV" true 0).1

/-- The surroundings of a registration on server `s`. -/
def sampleRegisterEnv : RegisterEnv :=
  { ServerName := "s", RefreshAccessTokenExpire := 0, now := 5000, randomDeviceID := "RANDOM",
    newRefreshToken := "R9", newAccessToken := "A9", hashedPassword := .ok [36, 50, 97],
    commitVersion := sampleCommit 7, nowNanos := 7 }

/-- An accounts database in which the user `alice` is registered. -/
def accountsWithAlice : AccountsStore :=
  { emptyAccounts with
    byUsername := [("alice", ⟨"", 1000⟩)],
    userPasswordHashes := [("alice", [36, 50, 98])] }

/-- The commits the store hands out are new: every clock reading is above the
keys of the time index so far (`bound`), and every commit version is a
complete transaction version that differs from the latest write version
before it (`latest`). -/
def FreshCommits : Nat → Versionstamp → List (List Nat × Nat) → Prop
  | _, _, [] => True
  | bound, latest, (commitVersion, nowNanos) :: rest =>
    bound < nowNanos ∧ commitVersion ≠ incompleteVersion ∧
      Versionstamp.mk commitVersion 65534 ≠ latest ∧
      FreshCommits nowNanos (Versionstamp.mk commitVersion 65534) rest

/-- The page of room `roomID` a sync reads from the super-stream `s` over the
versions from `fromVersion` up to `toVersion`: the decoded entries of the
range read. -/
def roomPage (s : Stream) (fromVersion toVersion : Versionstamp) (limit : Nat)
    (roomID : RoomID) : List SuperStreamItem :=
  (txnGetRange s (completeVersionRange fromVersion toVersion roomID) limit).map
    (fun kv => valueToSuperStreamItem roomID kv.1.2 kv.2)

/-- The room `room` of a sync result holds the stream item `item`: the stored
event of an event item, with the unsigned map the sync gives it, is in the
timeline of the room; the receipt of a receipt item is among its receipts. -/
def ItemDelivered (MustGet : EventID → Option Event) (now : Int) (item : SuperStreamItem)
    (room : SyncRoom) : Prop :=
  match item.Type_ with
  | .SuperStreamReceipt =>
    match item.Receipt with
    | some rc => rc ∈ room.Receipts
    | none => False
  | .SuperStreamEvent =>
    match item.EventIDTup with
    | some evIDTup =>
      match MustGet evIDTup.EventID with
      | some orig =>
        { orig with Unsigned :=
          [("age", .int (now - orig.Timestamp)),
           ("hs.order", .base64 (VersionstampToValue item.Version))] } ∈ room.TimelineEvents
      | none => False
    | none => False

/-- The event a stream value names is stored; a receipt value needs none. -/
def valueStored (MustGet : EventID → Option Event) : StreamValue → Bool
  | .ev eventID => (MustGet eventID).isSome
  | .rc _ _ _ _ _ => true

/-- The room an item is filed under: that of its event, or of its receipt. -/
def itemRoomID (item : SuperStreamItem) : RoomID :=
  match item.Type_ with
  | .SuperStreamReceipt => (item.Receipt.map (fun rc => rc.RoomID)).getD ""
  | .SuperStreamEvent => (item.EventIDTup.map (fun t => t.RoomID)).getD ""

/-! # Properties -/

/-! ## The order of versionstamps -/

theorem bytesCompare_refl (a : List Nat) : bytesCompare a a = .eq := by
  induction a with
  | nil => rfl
  | cons x xs ih => simp [bytesCompare, ih]

theorem bytesCompare_eq_iff (a b : List Nat) : bytesCompare a b = .eq ↔ a = b := by
  induction a generalizing b with
  | nil => cases b <;> simp [bytesCompare]
  | cons x xs ih =>
    cases b with
    | nil => simp [bytesCompare]
    | cons y ys =>
      simp only [bytesCompare]
      split_ifs with h1 h2
      · simp; intro h; omega
      · simp; intro h; omega
      · have hxy : x = y := by omega
        simp [ih, hxy]

theorem bytesCompare_gt_iff (a b : List Nat) :
    bytesCompare a b = .gt ↔ bytesCompare b a = .lt := by
  induction a generalizing b with
  | nil => cases b <;> simp [bytesCompare]
  | cons x xs ih =>
    cases b with
    | nil => simp [bytesCompare]
    | cons y ys =>
      simp only [bytesCompare]
      split_ifs <;> first | omega | simp | exact ih ys

theorem bytesCompare_lt_trans (a b c : List Nat)
    (hab : bytesCompare a b = .lt) (hbc : bytesCompare b c = .lt) :
    bytesCompare a c = .lt := by
  induction a generalizing b c with
  | nil =>
    cases c with
    | nil => cases b <;> simp [bytesCompare] at hab hbc
    | cons z zs => rfl
  | cons x xs ih =>
    cases b with
    | nil => simp [bytesCompare] at hab
    | cons y ys =>
      cases c with
      | nil => simp [bytesCompare] at hbc
      | cons z zs =>
        simp only [bytesCompare] at hab hbc ⊢
        split_ifs at hab hbc ⊢ <;> first | omega | rfl | exact ih ys zs hab hbc

theorem Versionstamp.Bytes_injective (a b : Versionstamp) (h : a.Bytes = b.Bytes) :
    a = b := by
  unfold Versionstamp.Bytes at h
  have h' := List.append_inj' h rfl
  obtain ⟨htv, huv⟩ := h'
  simp at huv
  cases a; cases b
  simp at htv huv ⊢
  refine ⟨htv, ?_⟩
  omega

theorem versionCompare_eq_iff (a b : Versionstamp) : versionCompare a b = .eq ↔ a = b := by
  unfold versionCompare
  rw [bytesCompare_eq_iff]
  exact ⟨Versionstamp.Bytes_injective a b, fun h => by rw [h]⟩

theorem vle_refl (a : Versionstamp) : vle a a := by
  simp [vle, versionCompare, bytesCompare_refl]

theorem vle_total (a b : Versionstamp) : vle a b ∨ vle b a := by
  unfold vle versionCompare
  by_cases h : bytesCompare a.Bytes b.Bytes = .gt
  · right
    rw [bytesCompare_gt_iff] at h
    rw [h]; decide
  · left; exact h

theorem vlt_trans {a b c : Versionstamp} (hab : vlt a b) (hbc : vlt b c) : vlt a c :=
  bytesCompare_lt_trans _ _ _ hab hbc

theorem vle_iff (a b : Versionstamp) : vle a b ↔ vlt a b ∨ a = b := by
  unfold vle vlt
  rw [← versionCompare_eq_iff]
  cases versionCompare a b <;> simp

theorem vle_trans {a b c : Versionstamp} (hab : vle a b) (hbc : vle b c) : vle a c := by
  rw [vle_iff] at hab hbc ⊢
  rcases hab with hab | rfl
  · rcases hbc with hbc | rfl
    · exact Or.inl (vlt_trans hab hbc)
    · exact Or.inl hab
  · exact hbc

theorem vlt_irrefl (a : Versionstamp) : ¬ vlt a a := by
  simp [vlt, versionCompare, bytesCompare_refl]

theorem vlt_of_vle_of_ne {a b : Versionstamp} (h : vle a b) (hne : a ≠ b) : vlt a b := by
  rw [vle_iff] at h
  rcases h with h | h
  · exact h
  · exact absurd h hne

theorem vlt_asymm {a b : Versionstamp} (h : vlt a b) : ¬ vlt b a := by
  intro h'
  exact vlt_irrefl a (vlt_trans h h')

theorem not_vle_of_vlt {a b : Versionstamp} (h : vlt a b) : ¬ vle b a := by
  intro h'
  rw [vle_iff] at h'
  rcases h' with h' | h'
  · exact vlt_asymm h h'
  · subst h'; exact vlt_irrefl _ h

theorem vlt_of_vlt_of_vle {a b c : Versionstamp} (hab : vlt a b) (hbc : vle b c) : vlt a c := by
  rw [vle_iff] at hbc
  rcases hbc with hbc | rfl
  · exact vlt_trans hab hbc
  · exact hab

theorem vlt_of_vle_of_vlt {a b c : Versionstamp} (hab : vle a b) (hbc : vlt b c) : vlt a c := by
  rw [vle_iff] at hab
  rcases hab with hab | rfl
  · exact vlt_trans hab hbc
  · exact hbc

theorem MinInt_pair (a b : Nat) : MinInt a [b] = min a b := by
  simp only [MinInt, List.foldl]
  split_ifs <;> omega

/-! ## Merge, sort and truncate (`syncRoomEvents`, lines 163 to 180) -/

theorem SortVersioners_perm (l : List SuperStreamItem) : (SortVersioners l).Perm l :=
  List.perm_insertionSort _ l

theorem SortVersioners_sorted (l : List SuperStreamItem) :
    (SortVersioners l).Pairwise (fun a b => vle a.Version b.Version) := by
  have htotal : IsTotal SuperStreamItem (fun a b => vle a.GetVersion b.GetVersion) :=
    ⟨fun a b => vle_total _ _⟩
  have htrans : IsTrans SuperStreamItem (fun a b => vle a.GetVersion b.GetVersion) :=
    ⟨fun _ _ _ h1 h2 => vle_trans h1 h2⟩
  exact List.sorted_insertionSort (fun a b => vle a.GetVersion b.GetVersion) l

theorem SortVersioners_strict (l : List SuperStreamItem)
    (hdistinct : (l.map (fun i => i.Version)).Nodup) :
    (SortVersioners l).Pairwise (fun a b => vlt a.Version b.Version) := by
  have hnodup : ((SortVersioners l).map (fun i => i.Version)).Nodup :=
    ((SortVersioners_perm l).map _).nodup_iff.mpr hdistinct
  have hne : (SortVersioners l).Pairwise (fun a b => a.Version ≠ b.Version) :=
    List.pairwise_map.mp hnodup
  exact ((SortVersioners_sorted l).and hne).imp (fun h => vlt_of_vle_of_ne h.1 h.2)

/-- Claim C1, as amended. For every list of `n` paginated items with pairwise
distinct versions and every limit of at least one, the truncation step of
`syncRoomEvents` keeps exactly the `min(limit, n)` items of smallest version,
in increasing version order: the kept items are items of the input, strictly
increasing, and every item that is not kept has a greater version than every
kept one. The next position is the version of the last kept item when the
batch is full (`limit ≤ n`) and the snapshotted latest version when it is not
(`n < limit`). -/
theorem selectItems_keeps_smallest (limit : Nat) (latestVersion : Versionstamp)
    (allItems : List SuperStreamItem) (hlimit : 1 ≤ limit)
    (hdistinct : (allItems.map (fun i => i.Version)).Nodup) :
    ∃ items next, selectItems limit latestVersion allItems = .ok (items, next) ∧
      items.length = min limit allItems.length ∧
      items.Pairwise (fun a b => vlt a.Version b.Version) ∧
      (∀ x ∈ items, x ∈ allItems) ∧
      (∀ x ∈ allItems, x ∉ items → ∀ y ∈ items, vlt y.Version x.Version) ∧
      (limit ≤ allItems.length → items.getLast?.map (fun i => i.Version) = some next) ∧
      (allItems.length < limit → next = latestVersion) := by
  have hperm := SortVersioners_perm allItems
  have hstrict := SortVersioners_strict allItems hdistinct
  have hlen : (SortVersioners allItems).length = allItems.length := hperm.length_eq
  set sorted := SortVersioners allItems with hsorted
  set items := sorted.take (min limit allItems.length) with hitems
  have hitemsLen : items.length = min limit allItems.length := by
    simp [hitems, hlen]
  have hsplit : sorted = items ++ sorted.drop (min limit allItems.length) :=
    (List.take_append_drop _ _).symm
  have hpw : items.Pairwise (fun a b => vlt a.Version b.Version) := by
    rw [hsplit] at hstrict
    exact (List.pairwise_append.mp hstrict).1
  have hmem : ∀ x ∈ items, x ∈ allItems := fun x hx =>
    hperm.subset (List.mem_of_mem_take hx)
  have hrest : ∀ x ∈ allItems, x ∉ items → ∀ y ∈ items, vlt y.Version x.Version := by
    intro x hx hnot y hy
    have hxs : x ∈ sorted := hperm.symm.subset hx
    rw [hsplit] at hxs hstrict
    rcases List.mem_append.mp hxs with h | h
    · exact absurd h hnot
    · exact (List.pairwise_append.mp hstrict).2.2 y hy x h
  have hsel : selectItems limit latestVersion allItems =
      if items.length = limit then
        match items.getLast? with
        | some last => .ok (items, last.Version)
        | none => .error (.panic "index out of range [-1]")
      else .ok (items, latestVersion) := by
    simp only [selectItems, MinInt_pair, ← hsorted, hlen, ← hitems]
  by_cases hfull : limit ≤ allItems.length
  · have hl : items.length = limit := by rw [hitemsLen]; omega
    have hne : items ≠ [] := by
      intro h; rw [h] at hl; simp at hl; omega
    obtain ⟨last, hlast⟩ : ∃ last, items.getLast? = some last := by
      cases h : items.getLast? with
      | none => exact absurd (List.getLast?_eq_none_iff.mp h) hne
      | some last => exact ⟨last, rfl⟩
    refine ⟨items, last.Version, ?_, hitemsLen, hpw, hmem, hrest, ?_, ?_⟩
    · rw [hsel, if_pos hl, hlast]
    · intro _; rw [hlast]; rfl
    · intro h; omega
  · have hl : items.length ≠ limit := by rw [hitemsLen]; omega
    refine ⟨items, latestVersion, ?_, hitemsLen, hpw, hmem, hrest, ?_, ?_⟩
    · rw [hsel, if_neg hl]
    · intro h; omega
    · intro _; rfl

/-- Witness of `selectItems_keeps_smallest`: three items and a limit of two. -/
theorem selectItems_keeps_smallest_witness :
    ∃ items next, selectItems 2 (sampleLatest 9)
        [sampleEventItem "$c" 3, sampleEventItem "$a" 1, sampleEventItem "$b" 2] =
          .ok (items, next) ∧
      items.length = min 2 3 ∧
      items.Pairwise (fun a b => vlt a.Version b.Version) ∧
      (∀ x ∈ items, x ∈ [sampleEventItem "$c" 3, sampleEventItem "$a" 1,
        sampleEventItem "$b" 2]) ∧
      (∀ x ∈ [sampleEventItem "$c" 3, sampleEventItem "$a" 1, sampleEventItem "$b" 2],
        x ∉ items → ∀ y ∈ items, vlt y.Version x.Version) ∧
      (2 ≤ 3 → items.getLast?.map (fun i => i.Version) = some next) ∧
      (3 < 2 → next = sampleLatest 9) :=
  selectItems_keeps_smallest 2 (sampleLatest 9)
    [sampleEventItem "$c" 3, sampleEventItem "$a" 1, sampleEventItem "$b" 2]
    (by decide) (by decide)

/-- Claim C1 as stated fails when the number of items equals the limit: with
one item and a limit of one nothing is dropped, yet the next position is the
version of that item and not the snapshotted latest version. -/
theorem selectItems_full_batch_not_latest :
    selectItems 1 (sampleLatest 9) [sampleEventItem "$a" 1] =
        .ok ([sampleEventItem "$a" 1], sampleVersion 1 0) ∧
      [sampleEventItem "$a" 1].length ≤ 1 ∧
      sampleVersion 1 0 ≠ sampleLatest 9 := by
  decide

/-! ## Pagination of a super-stream -/

theorem GetVersionRange_complete (fromVersion toVersion : Versionstamp) (roomID : RoomID)
    (hfrom : fromVersion.TransactionVersion ≠ incompleteVersion)
    (hto : toVersion.TransactionVersion ≠ incompleteVersion) :
    GetVersionRange fromVersion toVersion roomID =
      .ok (completeVersionRange fromVersion toVersion roomID) := by
  unfold GetVersionRange completeVersionRange packVersionEdge
  by_cases h1 : fromVersion = ZeroVersionstamp <;> by_cases h2 : toVersion = ZeroVersionstamp <;>
    simp [h1, h2, hfrom, hto]

theorem GetVersionRange_incomplete (fromVersion toVersion : Versionstamp) (roomID : RoomID)
    (h : fromVersion.TransactionVersion = incompleteVersion ∨
      toVersion.TransactionVersion = incompleteVersion) :
    GetVersionRange fromVersion toVersion roomID =
      .error (.panic "Incomplete Versionstamp included in vanilla tuple pack") := by
  have hz : ∀ v : Versionstamp, v.TransactionVersion = incompleteVersion →
      v ≠ ZeroVersionstamp := by
    intro v hv hzero
    rw [hzero] at hv
    exact absurd hv (by decide)
  unfold GetVersionRange packVersionEdge
  by_cases h1 : fromVersion.TransactionVersion = incompleteVersion
  · simp [h1, hz fromVersion h1]
  · have h2 : toVersion.TransactionVersion = incompleteVersion := by
      rcases h with h | h
      · exact absurd h h1
      · exact h
    by_cases hzf : fromVersion = ZeroVersionstamp <;> simp [h1, h2, hz toVersion h2, hzf]

theorem GetVersionRange_eq_ok (fromVersion toVersion : Versionstamp) (roomID : RoomID)
    (rng : KeyRange) (h : GetVersionRange fromVersion toVersion roomID = .ok rng) :
    rng = completeVersionRange fromVersion toVersion roomID := by
  by_cases hc : fromVersion.TransactionVersion = incompleteVersion ∨
      toVersion.TransactionVersion = incompleteVersion
  · rw [GetVersionRange_incomplete _ _ _ hc] at h
    cases h
  · rw [not_or] at hc
    rw [GetVersionRange_complete _ _ _ hc.1 hc.2] at h
    simp only [Except.ok.injEq] at h
    exact h.symm

theorem txnPaginateRoomSuperStream_complete (db : Store) (roomID : RoomID)
    (fromVersion toVersion : Versionstamp) (limit : Nat)
    (hfrom : fromVersion.TransactionVersion ≠ incompleteVersion)
    (hto : toVersion.TransactionVersion ≠ incompleteVersion) :
    txnPaginateRoomSuperStream db roomID fromVersion toVersion limit =
      .ok ((txnGetRange db.superStream (completeVersionRange fromVersion toVersion roomID)
        limit).map (fun kv => valueToSuperStreamItem roomID kv.1.2 kv.2)) := by
  simp only [txnPaginateRoomSuperStream, rangeForSuperStream,
    GetVersionRange_complete _ _ _ hfrom hto, keyToSuperStreamVersion]

theorem txnPaginateRoomLocalSuperStream_complete (db : Store) (roomID : RoomID)
    (fromVersion toVersion : Versionstamp) (limit : Nat)
    (hfrom : fromVersion.TransactionVersion ≠ incompleteVersion)
    (hto : toVersion.TransactionVersion ≠ incompleteVersion) :
    txnPaginateRoomLocalSuperStream db roomID fromVersion toVersion limit =
      .ok ((txnGetRange db.localSuperStream (completeVersionRange fromVersion toVersion roomID)
        limit).map (fun kv => valueToSuperStreamItem roomID kv.1.2 kv.2)) := by
  simp only [txnPaginateRoomLocalSuperStream, rangeForLocalSuperStream,
    GetVersionRange_complete _ _ _ hfrom hto, keyToLocalSuperStreamVersion]

theorem txnPaginate_incomplete (db : Store) (roomID : RoomID)
    (fromVersion toVersion : Versionstamp) (limit : Nat)
    (h : fromVersion.TransactionVersion = incompleteVersion ∨
      toVersion.TransactionVersion = incompleteVersion) :
    txnPaginateRoomSuperStream db roomID fromVersion toVersion limit =
        .error (.panic "Incomplete Versionstamp included in vanilla tuple pack") ∧
      txnPaginateRoomLocalSuperStream db roomID fromVersion toVersion limit =
        .error (.panic "Incomplete Versionstamp included in vanilla tuple pack") := by
  simp only [txnPaginateRoomSuperStream, rangeForSuperStream, txnPaginateRoomLocalSuperStream,
    rangeForLocalSuperStream, GetVersionRange_incomplete _ _ _ h, and_self]

theorem txnPaginateRoomSuperStream_eq_ok (db : Store) (roomID : RoomID)
    (fromVersion toVersion : Versionstamp) (limit : Nat) (items : List SuperStreamItem)
    (h : txnPaginateRoomSuperStream db roomID fromVersion toVersion limit = .ok items) :
    items = (txnGetRange db.superStream (completeVersionRange fromVersion toVersion roomID)
      limit).map (fun kv => valueToSuperStreamItem roomID kv.1.2 kv.2) := by
  by_cases hc : fromVersion.TransactionVersion = incompleteVersion ∨
      toVersion.TransactionVersion = incompleteVersion
  · rw [(txnPaginate_incomplete db roomID _ _ limit hc).1] at h
    cases h
  · rw [not_or] at hc
    rw [txnPaginateRoomSuperStream_complete db roomID _ _ limit hc.1 hc.2] at h
    simp only [Except.ok.injEq] at h
    exact h.symm

theorem txnPaginateRoomLocalSuperStream_eq_ok (db : Store) (roomID : RoomID)
    (fromVersion toVersion : Versionstamp) (limit : Nat) (items : List SuperStreamItem)
    (h : txnPaginateRoomLocalSuperStream db roomID fromVersion toVersion limit = .ok items) :
    items = (txnGetRange db.localSuperStream (completeVersionRange fromVersion toVersion roomID)
      limit).map (fun kv => valueToSuperStreamItem roomID kv.1.2 kv.2) := by
  by_cases hc : fromVersion.TransactionVersion = incompleteVersion ∨
      toVersion.TransactionVersion = incompleteVersion
  · rw [(txnPaginate_incomplete db roomID _ _ limit hc).2] at h
    cases h
  · rw [not_or] at hc
    rw [txnPaginateRoomLocalSuperStream_complete db roomID _ _ limit hc.1 hc.2] at h
    simp only [Except.ok.injEq] at h
    exact h.symm

theorem KeyRange.contains_iff (roomID : RoomID) (fromVersion toVersion : Versionstamp)
    (hfrom : fromVersion ≠ ZeroVersionstamp) (hto : toVersion ≠ ZeroVersionstamp)
    (key : RoomID × Versionstamp) :
    (completeVersionRange fromVersion toVersion roomID).contains key = true ↔
      key.1 = roomID ∧ vle fromVersion key.2 ∧ vlt key.2 toVersion := by
  simp [KeyRange.contains, completeVersionRange, hfrom, hto, RangeEdge.bytes, versionElementBytes,
    bytesCompare, vle, vlt, versionCompare, and_assoc]

theorem txnGetRange_spec (s : Stream) (roomID : RoomID) (fromVersion toVersion : Versionstamp)
    (limit : Nat) (hfrom : fromVersion ≠ ZeroVersionstamp) (hto : toVersion ≠ ZeroVersionstamp)
    (hlimit : 1 ≤ limit) :
    let kept := txnGetRange s (completeVersionRange fromVersion toVersion roomID) limit
    kept.Pairwise (fun a b => vle a.1.2 b.1.2) ∧
      ((s.map (fun e => e.1)).Nodup → kept.Pairwise (fun a b => vlt a.1.2 b.1.2)) ∧
      (∀ e ∈ kept, e ∈ s ∧ e.1.1 = roomID ∧ vle fromVersion e.1.2 ∧ vlt e.1.2 toVersion) ∧
      kept.length = min limit (s.filter (fun e =>
        decide (e.1.1 = roomID ∧ vle fromVersion e.1.2 ∧ vlt e.1.2 toVersion))).length ∧
      (∀ e ∈ s, e.1.1 = roomID → vle fromVersion e.1.2 → vlt e.1.2 toVersion →
        e ∈ kept ∨ ∀ y ∈ kept, vle y.1.2 e.1.2) := by
  intro kept
  set rng := completeVersionRange fromVersion toVersion roomID with hrng
  set F := s.filter (fun e => rng.contains e.1) with hF
  set hits := F.insertionSort (fun a b => vle a.1.2 b.1.2) with hhits
  have hkept : kept = hits.take limit := by
    show txnGetRange s rng limit = _
    unfold txnGetRange
    have : limit ≠ 0 := by omega
    simp [this, ← hF, ← hhits]
  have htotal : IsTotal ((RoomID × Versionstamp) × StreamValue)
      (fun a b => vle a.1.2 b.1.2) := ⟨fun a b => vle_total _ _⟩
  have htrans : IsTrans ((RoomID × Versionstamp) × StreamValue)
      (fun a b => vle a.1.2 b.1.2) := ⟨fun _ _ _ h1 h2 => vle_trans h1 h2⟩
  have hsorted : hits.Pairwise (fun a b => vle a.1.2 b.1.2) :=
    List.sorted_insertionSort
      (fun (a b : (RoomID × Versionstamp) × StreamValue) => vle a.1.2 b.1.2) F
  have hperm : hits.Perm F := List.perm_insertionSort _ F
  have hFeq : F = s.filter (fun e =>
      decide (e.1.1 = roomID ∧ vle fromVersion e.1.2 ∧ vlt e.1.2 toVersion)) := by
    rw [hF]
    apply List.filter_congr
    intro e _
    rw [Bool.eq_iff_iff, hrng, KeyRange.contains_iff roomID fromVersion toVersion hfrom hto]
    simp
  have hFmem : ∀ e, e ∈ F ↔
      e ∈ s ∧ e.1.1 = roomID ∧ vle fromVersion e.1.2 ∧ vlt e.1.2 toVersion := by
    intro e
    rw [hFeq, List.mem_filter]
    simp
  have hsplit : hits = kept ++ hits.drop limit := by
    rw [hkept]; exact (List.take_append_drop _ _).symm
  have hsub : kept.Sublist hits := by rw [hkept]; exact List.take_sublist _ _
  refine ⟨hsorted.sublist hsub, ?_, ?_, ?_, ?_⟩
  · intro hnodup
    have hFnodup : (F.map (fun e => e.1)).Nodup :=
      hnodup.sublist ((List.filter_sublist _).map _)
    have hhitsNodup : (hits.map (fun e => e.1)).Nodup := (hperm.map _).nodup_iff.mpr hFnodup
    have hne : hits.Pairwise (fun a b => a.1 ≠ b.1) := List.pairwise_map.mp hhitsNodup
    have hboth := hsorted.and hne
    have hstrict : hits.Pairwise (fun a b => vlt a.1.2 b.1.2) := by
      refine hboth.imp_of_mem ?_
      intro a b ha hb hab
      have har := ((hFmem a).mp (hperm.subset ha)).2.1
      have hbr := ((hFmem b).mp (hperm.subset hb)).2.1
      apply vlt_of_vle_of_ne hab.1
      intro hv
      apply hab.2
      exact Prod.ext (har.trans hbr.symm) hv
    exact hstrict.sublist hsub
  · intro e he
    exact (hFmem e).mp (hperm.subset (hsub.subset he))
  · rw [hkept, List.length_take, hperm.length_eq, hFeq]
  · intro e hes hr hf ht
    have heF : e ∈ F := (hFmem e).mpr ⟨hes, hr, hf, ht⟩
    have heh : e ∈ hits := hperm.symm.subset heF
    rw [hsplit] at heh hsorted
    rcases List.mem_append.mp heh with h | h
    · exact Or.inl h
    · exact Or.inr (fun y hy => (List.pairwise_append.mp hsorted).2.2 y hy e h)

/-- Claim C2, as amended. For every store, every room, every pair of non-zero
versionstamps and every limit of at least one: when both versionstamps are
complete, `txnPaginateRoomSuperStream` returns the decoded entries of the
first page of the room's super-stream over the versions
`fromVersion ≤ v < toVersion`: inclusive at `fromVersion`, exclusive at
`toVersion`, in increasing version order, at most `limit` items, the earliest
ones, and `txnPaginateRoomLocalSuperStream` does the same over the local
super-stream; when one of them is incomplete, `Pack` panics inside
`GetVersionRange` and neither function returns. -/
theorem txnPaginate_first_page (db : Store) (roomID : RoomID)
    (fromVersion toVersion : Versionstamp) (limit : Nat)
    (hfrom : fromVersion ≠ ZeroVersionstamp) (hto : toVersion ≠ ZeroVersionstamp)
    (hlimit : 1 ≤ limit) :
    (fromVersion.TransactionVersion ≠ incompleteVersion →
      toVersion.TransactionVersion ≠ incompleteVersion →
      (∃ kept : Stream,
        txnPaginateRoomSuperStream db roomID fromVersion toVersion limit =
          .ok (kept.map (fun kv => valueToSuperStreamItem roomID kv.1.2 kv.2)) ∧
        IsFirstPage db.superStream roomID fromVersion toVersion limit kept) ∧
      (∃ kept : Stream,
        txnPaginateRoomLocalSuperStream db roomID fromVersion toVersion limit =
          .ok (kept.map (fun kv => valueToSuperStreamItem roomID kv.1.2 kv.2)) ∧
        IsFirstPage db.localSuperStream roomID fromVersion toVersion limit kept)) ∧
    (fromVersion.TransactionVersion = incompleteVersion ∨
        toVersion.TransactionVersion = incompleteVersion →
      txnPaginateRoomSuperStream db roomID fromVersion toVersion limit =
          .error (.panic "Incomplete Versionstamp included in vanilla tuple pack") ∧
        txnPaginateRoomLocalSuperStream db roomID fromVersion toVersion limit =
          .error (.panic "Incomplete Versionstamp included in vanilla tuple pack")) :=
  ⟨fun hfc htc =>
    ⟨⟨_, txnPaginateRoomSuperStream_complete db roomID fromVersion toVersion limit hfc htc,
        txnGetRange_spec db.superStream roomID fromVersion toVersion limit hfrom hto hlimit⟩,
     ⟨_, txnPaginateRoomLocalSuperStream_complete db roomID fromVersion toVersion limit hfc htc,
        txnGetRange_spec db.localSuperStream roomID fromVersion toVersion limit hfrom hto
          hlimit⟩⟩,
   txnPaginate_incomplete db roomID fromVersion toVersion limit⟩

/-- Witness of `txnPaginate_first_page`: the sample store read from commit 1 to
commit 3 with a limit of ten, and read up to an incomplete versionstamp. -/
theorem txnPaginate_first_page_witness :
    ((∃ kept : Stream,
      txnPaginateRoomSuperStream sampleStore "!r:s" (sampleVersion 1 0) (sampleVersion 3 0) 10 =
        .ok (kept.map (fun kv => valueToSuperStreamItem "!r:s" kv.1.2 kv.2)) ∧
      IsFirstPage sampleStore.superStream "!r:s" (sampleVersion 1 0) (sampleVersion 3 0) 10
        kept) ∧
    (∃ kept : Stream,
      txnPaginateRoomLocalSuperStream sampleStore "!r:s" (sampleVersion 1 0)
          (sampleVersion 3 0) 10 =
        .ok (kept.map (fun kv => valueToSuperStreamItem "!r:s" kv.1.2 kv.2)) ∧
      IsFirstPage sampleStore.localSuperStream "!r:s" (sampleVersion 1 0) (sampleVersion 3 0)
        10 kept)) ∧
    (txnPaginateRoomSuperStream sampleStore "!r:s" (sampleVersion 1 0)
        (IncompleteVersionstamp 0) 10 =
        .error (.panic "Incomplete Versionstamp included in vanilla tuple pack") ∧
      txnPaginateRoomLocalSuperStream sampleStore "!r:s" (sampleVersion 1 0)
        (IncompleteVersionstamp 0) 10 =
        .error (.panic "Incomplete Versionstamp included in vanilla tuple pack")) :=
  ⟨(txnPaginate_first_page sampleStore "!r:s" (sampleVersion 1 0) (sampleVersion 3 0) 10
      (by decide) (by decide) (by decide)).1 (by decide) (by decide),
    (txnPaginate_first_page sampleStore "!r:s" (sampleVersion 1 0) (IncompleteVersionstamp 0) 10
      (by decide) (by decide) (by decide)).2 (Or.inr rfl)⟩

/-- Claim C2 as stated fails on both ends of the range: read from the version
of `$a` to the version of `$c`, both pagination functions return `$a`, which
is stored exactly at `fromVersion`, and do not return `$c`, which is stored
exactly at `toVersion`. -/
theorem txnPaginate_from_inclusive_to_exclusive :
    txnPaginateRoomSuperStream sampleStore "!r:s" (sampleVersion 1 0) (sampleVersion 3 0) 10 =
        .ok [sampleEventItem "$a" 1, sampleEventItem "$b" 2] ∧
      txnPaginateRoomLocalSuperStream sampleStore "!r:s" (sampleVersion 1 0)
          (sampleVersion 3 0) 10 =
        .ok [sampleEventItem "$a" 1, sampleEventItem "$b" 2] ∧
      sampleVersion 1 0 ≠ ZeroVersionstamp ∧ sampleVersion 3 0 ≠ ZeroVersionstamp ∧
      (("!r:s", sampleVersion 1 0), StreamValue.ev "$a") ∈ sampleStore.superStream ∧
      (("!r:s", sampleVersion 3 0), StreamValue.ev "$c") ∈ sampleStore.superStream := by
  decide

/-! ## The bump of the `from` position -/

theorem bytesCompare_append (p1 p2 s1 s2 : List Nat) (hlen : p1.length = p2.length) :
    bytesCompare (p1 ++ s1) (p2 ++ s2) =
      match bytesCompare p1 p2 with
      | .eq => bytesCompare s1 s2
      | o => o := by
  induction p1 generalizing p2 with
  | nil =>
    cases p2 with
    | nil => simp [bytesCompare]
    | cons y ys => simp at hlen
  | cons x xs ih =>
    cases p2 with
    | nil => simp at hlen
    | cons y ys =>
      simp only [List.length_cons, Nat.add_right_cancel_iff] at hlen
      simp only [List.cons_append, bytesCompare]
      split_ifs
      · rfl
      · rfl
      · exact ih ys hlen

theorem bytesCompare_uint16 (a b : Nat) :
    bytesCompare [a / 256, a % 256] [b / 256, b % 256] = .lt ↔ a < b := by
  simp only [bytesCompare]
  split_ifs <;> simp <;> omega

theorem vlt_iff_of_length {a b : Versionstamp}
    (hlen : a.TransactionVersion.length = b.TransactionVersion.length) :
    vlt a b ↔ bytesCompare a.TransactionVersion b.TransactionVersion = .lt ∨
      (a.TransactionVersion = b.TransactionVersion ∧ a.UserVersion < b.UserVersion) := by
  unfold vlt versionCompare Versionstamp.Bytes
  rw [bytesCompare_append _ _ _ _ hlen]
  cases h : bytesCompare a.TransactionVersion b.TransactionVersion with
  | lt => simp
  | gt =>
    simp
    intro heq
    rw [heq, bytesCompare_refl] at h
    exact absurd h (by decide)
  | eq =>
    have heq := (bytesCompare_eq_iff _ _).mp h
    simp [bytesCompare_uint16, heq]

theorem vlt_bumpUserVersion (v : Versionstamp) (huv : v.UserVersion < 65535) :
    vlt v (bumpUserVersion v) := by
  rw [vlt_iff_of_length (by simp [bumpUserVersion])]
  right
  simp only [bumpUserVersion, true_and]
  omega

theorem bumpUserVersion_least (v w : Versionstamp) (huv : v.UserVersion < 65535)
    (hlen : w.TransactionVersion.length = v.TransactionVersion.length) (h : vlt v w) :
    vle (bumpUserVersion v) w := by
  rw [vlt_iff_of_length hlen.symm] at h
  rw [vle_iff]
  rcases h with h | ⟨htv, hlt⟩
  · left
    rw [vlt_iff_of_length (by simp [bumpUserVersion, hlen])]
    left
    simpa [bumpUserVersion] using h
  · by_cases heq : v.UserVersion + 1 = w.UserVersion
    · right
      cases w
      simp only [bumpUserVersion] at htv heq ⊢
      simp only [Versionstamp.mk.injEq]
      refine ⟨htv, ?_⟩
      omega
    · left
      rw [vlt_iff_of_length (by simp [bumpUserVersion, hlen])]
      right
      simp only [bumpUserVersion]
      refine ⟨htv, ?_⟩
      omega

theorem bumpUserVersion_ne_zero (v : Versionstamp) (huv : v.UserVersion < 65535) :
    bumpUserVersion v ≠ ZeroVersionstamp := by
  intro h
  have := congrArg Versionstamp.UserVersion h
  simp [bumpUserVersion, ZeroVersionstamp] at this
  omega

theorem ne_zero_of_vle_bump (v w : Versionstamp) (huv : v.UserVersion < 65535)
    (hlen : v.TransactionVersion.length = 10) (h : vle (bumpUserVersion v) w) :
    w ≠ ZeroVersionstamp := by
  intro hw
  subst hw
  have hlt : vlt ZeroVersionstamp (bumpUserVersion v) := by
    have h0 : ZeroVersionstamp.TransactionVersion.length =
        (bumpUserVersion v).TransactionVersion.length := by
      simp [bumpUserVersion, ZeroVersionstamp, hlen]
    by_cases hz : ZeroVersionstamp.TransactionVersion = (bumpUserVersion v).TransactionVersion
    · rw [vlt_iff_of_length h0]
      right
      refine ⟨hz, ?_⟩
      simp [bumpUserVersion, ZeroVersionstamp]
      omega
    · have hne : ZeroVersionstamp ≠ bumpUserVersion v := fun h => hz (by rw [← h])
      have h' := h
      rw [vle_iff] at h'
      rcases h' with h' | h'
      · rw [vlt_iff_of_length h0.symm] at h'
        rcases h' with h' | ⟨h', hlt'⟩
        · exfalso
          have hall : ∀ l : List Nat, bytesCompare l (List.replicate l.length 0) ≠ .lt := by
            intro l
            induction l with
            | nil => simp [bytesCompare]
            | cons x xs ih =>
              simp only [List.length_cons, List.replicate_succ, bytesCompare]
              split_ifs <;> first | omega | exact ih | simp
          have hrep : ZeroVersionstamp.TransactionVersion =
              List.replicate (bumpUserVersion v).TransactionVersion.length 0 := by
            rw [← h0]; rfl
          rw [hrep] at h'
          exact hall _ h'
        · exact absurd h'.symm hz
      · exact absurd h'.symm hne
  exact not_vle_of_vlt hlt h

/-! ## Association lists -/

theorem kvGet_some_mem {κ ν : Type} [DecidableEq κ] (m : List (κ × ν)) (k : κ) (v : ν)
    (h : kvGet m k = some v) : (k, v) ∈ m := by
  unfold kvGet at h
  cases hf : m.find? (fun e => decide (e.1 = k)) with
  | none => rw [hf] at h; simp at h
  | some e =>
    rw [hf] at h
    simp only [Option.map_some', Option.some.injEq] at h
    have hmem := List.mem_of_find?_eq_some hf
    have hk := List.find?_some hf
    simp only [decide_eq_true_eq] at hk
    rw [← hk, ← h]
    exact hmem

theorem mem_mapPut {κ ν : Type} [DecidableEq κ] (m : List (κ × ν)) (k : κ) (v : ν)
    (e : κ × ν) (h : e ∈ mapPut m k v) : e ∈ m ∨ e = (k, v) := by
  unfold mapPut at h
  split_ifs at h
  · rw [List.mem_map] at h
    obtain ⟨a, ha, hae⟩ := h
    split_ifs at hae
    · exact Or.inr hae.symm
    · exact Or.inl (hae ▸ ha)
  · rw [List.mem_append] at h
    rcases h with h | h
    · exact Or.inl h
    · exact Or.inr (by simpa using h)

/-! ## The version ranges of `syncRoomEvents` -/

theorem initialRanges_from (from_ latestVersion : Versionstamp) (memberships : Memberships) :
    ∀ e ∈ initialRanges from_ latestVersion memberships, e.2.from_ = from_ := by
  unfold initialRanges
  have hgen : ∀ (l : Memberships) (acc : List (MembershipTup × versionRange)),
      (∀ e ∈ acc, e.2.from_ = from_) →
      ∀ e ∈ l.foldl (fun m e => mapPut m e.2 ⟨from_, latestVersion⟩) acc,
        e.2.from_ = from_ := by
    intro l
    induction l with
    | nil => intro acc hacc; simpa using hacc
    | cons x xs ih =>
      intro acc hacc
      simp only [List.foldl_cons]
      apply ih
      intro e he
      rcases mem_mapPut _ _ _ _ he with h | h
      · exact hacc e h
      · rw [h]
  exact hgen memberships [] (by simp)

theorem membershipsWithRanges_from (from_ latestVersion : Versionstamp)
    (memberships : Memberships) (membershipChanges : MembershipChanges) :
    ∀ e ∈ membershipsWithRanges from_ latestVersion memberships membershipChanges,
      e.2.from_ = from_ ∨ ∃ c ∈ membershipChanges, e.2.from_ = c.Version := by
  unfold membershipsWithRanges
  have hgen : ∀ (l : MembershipChanges) (acc : List (MembershipTup × versionRange)),
      (∀ c ∈ l, c ∈ membershipChanges) →
      (∀ e ∈ acc, e.2.from_ = from_ ∨ ∃ c ∈ membershipChanges, e.2.from_ = c.Version) →
      ∀ e ∈ l.foldl (applyMembershipChange from_ latestVersion) acc,
        e.2.from_ = from_ ∨ ∃ c ∈ membershipChanges, e.2.from_ = c.Version := by
    intro l
    induction l with
    | nil => intro acc _ hacc; simpa using hacc
    | cons x xs ih =>
      intro acc hsub hacc
      simp only [List.foldl_cons]
      apply ih _ (fun c hc => hsub c (List.mem_cons_of_mem _ hc))
      intro e he
      have hx : x ∈ membershipChanges := hsub x (List.mem_cons_self _ _)
      have hr : (match kvGet acc x.MembershipTup with
          | some r => r
          | none => (⟨from_, latestVersion⟩ : versionRange)).from_ = from_ ∨
          ∃ c ∈ membershipChanges, (match kvGet acc x.MembershipTup with
          | some r => r
          | none => (⟨from_, latestVersion⟩ : versionRange)).from_ = c.Version := by
        cases hg : kvGet acc x.MembershipTup with
        | none => exact Or.inl rfl
        | some r => exact hacc _ (kvGet_some_mem _ _ _ hg)
      unfold applyMembershipChange at he
      simp only at he
      split_ifs at he
      · rcases mem_mapPut _ _ _ _ he with h | h
        · exact hacc e h
        · right; exact ⟨x, hx, by rw [h]⟩
      · rcases mem_mapPut _ _ _ _ he with h | h
        · exact hacc e h
        · rw [h]; exact hr
  exact hgen membershipChanges _ (fun _ h => h) (fun e he =>
    Or.inl (initialRanges_from from_ latestVersion memberships e he))

theorem paginateAll_mem
    (paginate : RoomID → Versionstamp → Versionstamp → Except Err (List SuperStreamItem))
    (ranges : List (MembershipTup × versionRange))
    (results : List (MembershipTup × List SuperStreamItem))
    (h : paginateAll paginate ranges = .ok results) :
    ∀ res ∈ results, ∃ r, (res.1, r) ∈ ranges ∧
      paginate res.1.RoomID r.from_ r.to_ = .ok res.2 := by
  induction ranges generalizing results with
  | nil =>
    simp only [paginateAll, Except.ok.injEq] at h
    subst h
    simp
  | cons x xs ih =>
    obtain ⟨tup, vr⟩ := x
    simp only [paginateAll] at h
    cases hp : paginate tup.RoomID vr.from_ vr.to_ with
    | error e => rw [hp] at h; simp at h
    | ok items =>
      rw [hp] at h
      cases hrest : paginateAll paginate xs with
      | error e => rw [hrest] at h; simp at h
      | ok rs =>
        rw [hrest] at h
        simp only [Except.ok.injEq] at h
        subst h
        intro res hres
        rcases List.mem_cons.mp hres with h1 | h1
        · subst h1
          exact ⟨vr, List.mem_cons_self _ _, hp⟩
        · obtain ⟨r, hr, hpr⟩ := ih rs hrest res h1
          exact ⟨r, List.mem_cons_of_mem _ hr, hpr⟩

theorem selectItems_subset (limit : Nat) (latestVersion next : Versionstamp)
    (allItems items : List SuperStreamItem)
    (h : selectItems limit latestVersion allItems = .ok (items, next)) :
    ∀ x ∈ items, x ∈ allItems := by
  have hsub : ∀ x ∈ (SortVersioners allItems).take
      (MinInt limit [(SortVersioners allItems).length]), x ∈ allItems := fun x hx =>
    (SortVersioners_perm allItems).subset (List.mem_of_mem_take hx)
  unfold selectItems at h
  simp only at h
  split_ifs at h
  · split at h
    · simp only [Except.ok.injEq, Prod.mk.injEq] at h
      rw [← h.1]; exact hsub
    · simp at h
  · simp only [Except.ok.injEq, Prod.mk.injEq] at h
    rw [← h.1]; exact hsub

theorem syncRoomItems_lower_bound (options : SyncOptions) (latestVersion : Versionstamp)
    (getCurrentMemberships : Except Err Memberships)
    (getMembershipChanges : Versionstamp → Versionstamp → Except Err MembershipChanges)
    (paginate : RoomID → Versionstamp → Versionstamp → Except Err (List SuperStreamItem))
    (huv : options.From.UserVersion < 65535)
    (hlen : options.From.TransactionVersion.length = 10)
    (hchanges : ∀ fromVersion toVersion changes,
      getMembershipChanges fromVersion toVersion = .ok changes →
        ∀ c ∈ changes, vle fromVersion c.Version)
    (hpaginate : ∀ roomID fromVersion toVersion items,
      paginate roomID fromVersion toVersion = .ok items → fromVersion ≠ ZeroVersionstamp →
        ∀ x ∈ items, vle fromVersion x.Version)
    (roomIDToMembership : List (RoomID × MembershipTup)) (items : List SuperStreamItem)
    (next : Versionstamp)
    (h : syncRoomItems options latestVersion getCurrentMemberships getMembershipChanges
      paginate = .ok (roomIDToMembership, items, next)) :
    ∀ x ∈ items, vlt options.From x.Version := by
  unfold syncRoomItems at h
  simp only at h
  cases hm : getCurrentMemberships with
  | error e => rw [hm] at h; simp at h
  | ok memberships =>
    rw [hm] at h
    simp only at h
    set from_ := bumpUserVersion options.From with hfrom
    set changes : MembershipChanges := (match getMembershipChanges from_ latestVersion with
      | .ok changes => changes
      | .error _ => []) with hchg
    have hchgBound : ∀ c ∈ changes, vle from_ c.Version := by
      intro c hc
      cases hg : getMembershipChanges from_ latestVersion with
      | error e => rw [hchg, hg] at hc; simp at hc
      | ok cs =>
        rw [hchg, hg] at hc
        exact hchanges _ _ _ hg c hc
    cases hp : paginateAll paginate (membershipsWithRanges from_ latestVersion memberships
        changes) with
    | error e => rw [hp] at h; simp at h
    | ok allResults =>
      rw [hp] at h
      simp only at h
      cases hs : selectItems options.Limit latestVersion
          (allResults.map (fun memAndEvs => memAndEvs.2)).flatten with
      | error e => rw [hs] at h; simp at h
      | ok sel =>
        obtain ⟨items', next'⟩ := sel
        rw [hs] at h
        simp only [Except.ok.injEq, Prod.mk.injEq] at h
        obtain ⟨-, hitems, -⟩ := h
        subst hitems
        intro x hx
        have hxall := selectItems_subset _ _ _ _ _ hs x hx
        rw [List.mem_flatten] at hxall
        obtain ⟨l, hl, hxl⟩ := hxall
        rw [List.mem_map] at hl
        obtain ⟨res, hres, hresl⟩ := hl
        subst hresl
        obtain ⟨r, hr, hpr⟩ := paginateAll_mem _ _ _ hp res hres
        have hrfrom := membershipsWithRanges_from from_ latestVersion memberships changes _ hr
        simp only at hrfrom
        have hlow : vle from_ r.from_ := by
          rcases hrfrom with h1 | ⟨c, hc, h1⟩
          · rw [h1]; exact vle_refl _
          · rw [h1]; exact hchgBound c hc
        have hnz : r.from_ ≠ ZeroVersionstamp := ne_zero_of_vle_bump _ _ huv hlen hlow
        have hx' := hpaginate _ _ _ _ hpr hnz x hxl
        exact vlt_of_vlt_of_vle (vlt_bumpUserVersion _ huv) (vle_trans hlow hx')

theorem txnGetRange_lower (s : Stream) (roomID : RoomID) (fromVersion toVersion : Versionstamp)
    (limit : Nat) (hfrom : fromVersion ≠ ZeroVersionstamp) :
    ∀ e ∈ txnGetRange s (completeVersionRange fromVersion toVersion roomID) limit,
      vle fromVersion e.1.2 := by
  intro e he
  have hhits : e ∈ (s.filter (fun e =>
      (completeVersionRange fromVersion toVersion roomID).contains e.1)).insertionSort
        (fun a b => vle a.1.2 b.1.2) := by
    unfold txnGetRange at he
    simp only at he
    split_ifs at he
    · exact he
    · exact List.mem_of_mem_take he
  have hF := (List.perm_insertionSort _ _).subset hhits
  rw [List.mem_filter] at hF
  have hc := hF.2
  simp only [KeyRange.contains, completeVersionRange, hfrom, if_false, RangeEdge.bytes,
    versionElementBytes, Bool.and_eq_true, decide_eq_true_eq] at hc
  have hb := hc.1.2
  simp only [bytesCompare, lt_self_iff_false, if_false] at hb
  exact hb

theorem syncRoomEvents_items (options : SyncOptions) (latestVersion : Versionstamp)
    (getCurrentMemberships : Except Err Memberships)
    (getMembershipChanges : Versionstamp → Versionstamp → Except Err MembershipChanges)
    (paginate : RoomID → Versionstamp → Versionstamp → Except Err (List SuperStreamItem))
    (MustGet : EventID → Option Event) (now : Int) (next : Versionstamp)
    (rooms : List (MembershipTup × SyncRoom))
    (h : syncRoomEvents options latestVersion getCurrentMemberships getMembershipChanges
      paginate MustGet now = .ok (next, rooms)) :
    ∃ roomIDToMembership items,
      syncRoomItems options latestVersion getCurrentMemberships getMembershipChanges
        paginate = .ok (roomIDToMembership, items, next) ∧
      assembleRooms MustGet now roomIDToMembership items [] = .ok rooms := by
  unfold syncRoomEvents at h
  cases hi : syncRoomItems options latestVersion getCurrentMemberships getMembershipChanges
      paginate with
  | error e => rw [hi] at h; simp at h
  | ok res =>
    obtain ⟨rm, items, nextVersion⟩ := res
    rw [hi] at h
    simp only at h
    cases ha : assembleRooms MustGet now rm items [] with
    | error e => rw [ha] at h; simp at h
    | ok rooms' =>
      rw [ha] at h
      simp only [Except.ok.injEq, Prod.mk.injEq] at h
      obtain ⟨h1, h2⟩ := h
      exact ⟨rm, items, by rw [h1], by rw [ha, h2]⟩

/-- Claim C3, as amended. For every `from` versionstamp whose user version is
at most 65534, the bump `From.UserVersion += 1` yields the immediate successor
of `from` in versionstamp order, and, the membership-change lookups returning
only changes at or after the version they are asked from, every item that
`SyncRoomsForUser` or `SyncRoomsForServer` returns has a version strictly
greater than `from`. -/
theorem sync_items_after_from (r : RoomsDatabase) (db : Store) (now : Int) (userID : UserID)
    (serverName : String) (options : SyncOptions)
    (huv : options.From.UserVersion ≤ 65534)
    (hlen : options.From.TransactionVersion.length = 10)
    (hUser : ∀ fromVersion toVersion changes,
      r.users.TxnLookupUserMembershipChanges userID fromVersion toVersion = .ok changes →
        ∀ c ∈ changes, vle fromVersion c.Version)
    (hServer : ∀ fromVersion toVersion changes,
      r.servers.TxnLookupServerMembershipChanges serverName fromVersion toVersion =
        .ok changes → ∀ c ∈ changes, vle fromVersion c.Version) :
    (vlt options.From (bumpUserVersion options.From) ∧
      ∀ w : Versionstamp, w.TransactionVersion.length = 10 → vlt options.From w →
        vle (bumpUserVersion options.From) w) ∧
    (∀ next rooms, SyncRoomsForUser r db now userID options = .ok (next, rooms) →
      ∃ latestVersion roomIDToMembership items,
        TxnGetLatestWriteVersion db = .ok latestVersion ∧
        userSyncItems r db latestVersion userID options =
          .ok (roomIDToMembership, items, next) ∧
        assembleRooms r.events.Get now roomIDToMembership items [] = .ok rooms ∧
        ∀ x ∈ items, vlt options.From x.Version) ∧
    (∀ next rooms, SyncRoomsForServer r db now serverName options = .ok (next, rooms) →
      ∃ latestVersion roomIDToMembership items,
        TxnGetLatestWriteVersion db = .ok latestVersion ∧
        serverSyncItems r db latestVersion serverName options =
          .ok (roomIDToMembership, items, next) ∧
        assembleRooms r.events.Get now roomIDToMembership items [] = .ok rooms ∧
        ∀ x ∈ items, vlt options.From x.Version) := by
  have huv' : options.From.UserVersion < 65535 := by omega
  refine ⟨⟨vlt_bumpUserVersion _ huv', fun w hw h =>
    bumpUserVersion_least _ w huv' (by rw [hw, hlen]) h⟩, ?_, ?_⟩
  · intro next rooms h
    unfold SyncRoomsForUser at h
    cases hl : TxnGetLatestWriteVersion db with
    | error e => rw [hl] at h; simp at h
    | ok latestVersion =>
      rw [hl] at h
      simp only at h
      obtain ⟨rm, items, hitems, hasm⟩ := syncRoomEvents_items _ _ _ _ _ _ _ _ _ h
      refine ⟨latestVersion, rm, items, rfl, hitems, hasm, ?_⟩
      refine syncRoomItems_lower_bound _ _ _ _ _ huv' hlen ?_ ?_ rm items next hitems
      · intro f t changes hc
        exact hUser f t changes hc
      · intro roomID f t its hp hf x hx
        have hp := txnPaginateRoomSuperStream_eq_ok db roomID f t options.Limit its hp
        subst hp
        rw [List.mem_map] at hx
        obtain ⟨kv, hkv, rfl⟩ := hx
        have := txnGetRange_lower _ roomID f t options.Limit hf kv hkv
        cases hv : kv.2 <;> simpa [valueToSuperStreamItem, hv] using this
  · intro next rooms h
    unfold SyncRoomsForServer at h
    cases hl : TxnGetLatestWriteVersion db with
    | error e => rw [hl] at h; simp at h
    | ok latestVersion =>
      rw [hl] at h
      simp only at h
      obtain ⟨rm, items, hitems, hasm⟩ := syncRoomEvents_items _ _ _ _ _ _ _ _ _ h
      refine ⟨latestVersion, rm, items, rfl, hitems, hasm, ?_⟩
      refine syncRoomItems_lower_bound _ _ _ _ _ huv' hlen ?_ ?_ rm items next hitems
      · intro f t changes hc
        exact hServer f ZeroVersionstamp changes hc
      · intro roomID f t its hp hf x hx
        have hp := txnPaginateRoomLocalSuperStream_eq_ok db roomID f t options.Limit its hp
        subst hp
        rw [List.mem_map] at hx
        obtain ⟨kv, hkv, rfl⟩ := hx
        have := txnGetRange_lower _ roomID f t options.Limit hf kv hkv
        cases hv : kv.2 <;> simpa [valueToSuperStreamItem, hv] using this

/-- Witness of `sync_items_after_from`: the sample database synced from commit
1; the sync returns the events of the commits 2 and 3. -/
theorem sync_items_after_from_witness :
    ((sampleVersion 1 0).UserVersion ≤ 65534 ∧
      (sampleVersion 1 0).TransactionVersion.length = 10 ∧
      timelineIDs (SyncRoomsForUser sampleRooms sampleStore 2000 "@a:s"
        ⟨sampleVersion 1 0, 10⟩) = .ok [["$b", "$c"]]) ∧
    ((vlt (sampleVersion 1 0) (bumpUserVersion (sampleVersion 1 0)) ∧
      ∀ w : Versionstamp, w.TransactionVersion.length = 10 → vlt (sampleVersion 1 0) w →
        vle (bumpUserVersion (sampleVersion 1 0)) w) ∧
    (∀ next rooms, SyncRoomsForUser sampleRooms sampleStore 2000 "@a:s"
        ⟨sampleVersion 1 0, 10⟩ = .ok (next, rooms) →
      ∃ latestVersion roomIDToMembership items,
        TxnGetLatestWriteVersion sampleStore = .ok latestVersion ∧
        userSyncItems sampleRooms sampleStore latestVersion "@a:s" ⟨sampleVersion 1 0, 10⟩ =
          .ok (roomIDToMembership, items, next) ∧
        assembleRooms sampleRooms.events.Get 2000 roomIDToMembership items [] = .ok rooms ∧
        ∀ x ∈ items, vlt (sampleVersion 1 0) x.Version) ∧
    (∀ next rooms, SyncRoomsForServer sampleRooms sampleStore 2000 "t"
        ⟨sampleVersion 1 0, 10⟩ = .ok (next, rooms) →
      ∃ latestVersion roomIDToMembership items,
        TxnGetLatestWriteVersion sampleStore = .ok latestVersion ∧
        serverSyncItems sampleRooms sampleStore latestVersion "t" ⟨sampleVersion 1 0, 10⟩ =
          .ok (roomIDToMembership, items, next) ∧
        assembleRooms sampleRooms.events.Get 2000 roomIDToMembership items [] = .ok rooms ∧
        ∀ x ∈ items, vlt (sampleVersion 1 0) x.Version)) :=
  ⟨by decide,
   sync_items_after_from sampleRooms sampleStore 2000 "@a:s" "t" ⟨sampleVersion 1 0, 10⟩
    (by decide) (by decide)
    (by
      intro f t changes h c hc
      simp only [sampleRooms, Except.ok.injEq] at h
      subst h
      simp at hc)
    (by
      intro f t changes h c hc
      simp only [sampleRooms, Except.ok.injEq] at h
      subst h
      simp at hc)⟩

/-- Claim C3 as stated fails at user version 65535: the `uint16` bump wraps to
user version 0, which sorts before `from`, and the sync started from
`(commit 2, 65535)` returns the event `$b` stored at `(commit 2, 0)`, a
version below `from`. -/
theorem sync_from_bump_wraps :
    (sampleVersion 2 65535).UserVersion ≤ 65535 ∧
      bumpUserVersion (sampleVersion 2 65535) = sampleVersion 2 0 ∧
      vlt (bumpUserVersion (sampleVersion 2 65535)) (sampleVersion 2 65535) ∧
      userSyncItems sampleRooms sampleStore (sampleLatest 3) "@a:s"
          ⟨sampleVersion 2 65535, 10⟩ =
        .ok ([("!r:s", sampleJoin)], [sampleEventItem "$b" 2, sampleEventItem "$c" 3],
          sampleLatest 3) ∧
      timelineIDs (SyncRoomsForUser sampleRooms sampleStore 2000 "@a:s"
        ⟨sampleVersion 2 65535, 10⟩) = .ok [["$b", "$c"]] ∧
      vlt (sampleEventItem "$b" 2).Version (sampleVersion 2 65535) := by
  decide

/-! ## The sync window after a leave -/

/-- Claim C4 fails on the code. In the scenario "sync window after leave" the
ranges of `syncRoomEvents` are keyed by the whole `MembershipTup`, so the join
of the change log opens a second range `(v1, V*)` for room `!r:s` that the
leave never closes: the sync of `@b:s` from before the join returns `$m3`,
stored at commit 4 after the leave at commit 3, and returns `$join` and `$m2`
twice. -/
theorem sync_after_leave_returns_later_message :
    membershipsWithRanges (bumpUserVersion (sampleLatest 0)) (sampleLatest 4)
        [("!r:s", sampleLeave)]
        [⟨sampleJoin, sampleVersion 1 0⟩, ⟨sampleLeave, sampleVersion 3 0⟩] =
      [(sampleLeave, ⟨bumpUserVersion (sampleLatest 0), sampleVersion 3 0⟩),
       (sampleJoin, ⟨sampleVersion 1 0, sampleLatest 4⟩)] ∧
    timelineIDs (SyncRoomsForUser leaveRooms leaveStore 2000 "@b:s" ⟨sampleLatest 0, 10⟩) =
      .ok [["$join", "$join", "$m2", "$m2", "$leave", "$m3"]] ∧
    vlt (sampleVersion 3 0) (sampleVersion 4 0) := by
  decide

/-! ## Key-value directories -/

theorem kvGet_kvSet_self {κ ν : Type} [DecidableEq κ] (l : List (κ × ν)) (k : κ) (v : ν) :
    kvGet (kvSet l k v) k = some v := by
  simp [kvGet, kvSet]

theorem kvGet_kvClear_ne {κ ν : Type} [DecidableEq κ] (l : List (κ × ν)) (k k' : κ)
    (h : k' ≠ k) : kvGet (kvClear l k) k' = kvGet l k' := by
  unfold kvGet kvClear
  induction l with
  | nil => rfl
  | cons x xs ih =>
    by_cases hx : x.1 = k
    · have hx' : ¬ x.1 = k' := fun h' => h (h'.symm.trans hx)
      rw [List.filter_cons, List.find?_cons]
      simp only [hx, decide_True, Bool.not_true, Bool.false_eq_true, if_false]
      rw [← hx] at ih ⊢
      simp only [hx', decide_False]
      exact ih
    · simp only [List.filter_cons, hx, decide_False, Bool.not_false, if_true, List.find?_cons]
      by_cases hx' : x.1 = k'
      · simp [hx']
      · simp only [hx', decide_False]
        exact ih

theorem kvGet_kvSet_ne {κ ν : Type} [DecidableEq κ] (l : List (κ × ν)) (k k' : κ) (v : ν)
    (h : k' ≠ k) : kvGet (kvSet l k v) k' = kvGet l k' := by
  have hk : ¬ k = k' := fun h' => h h'.symm
  have := kvGet_kvClear_ne l k k' h
  unfold kvGet at this ⊢
  simp only [kvSet, List.find?_cons, hk, decide_False]
  exact this

theorem mem_kvSet {κ ν : Type} [DecidableEq κ] (l : List (κ × ν)) (k : κ) (v : ν)
    (e : κ × ν) : e ∈ kvSet l k v ↔ e = (k, v) ∨ (e ∈ l ∧ e.1 ≠ k) := by
  simp [kvSet, kvClear, List.mem_filter]

theorem nodup_keys_kvSet {κ ν : Type} [DecidableEq κ] (l : List (κ × ν)) (k : κ) (v : ν)
    (h : (l.map (fun e => e.1)).Nodup) : ((kvSet l k v).map (fun e => e.1)).Nodup := by
  simp only [kvSet, kvClear, List.map_cons, List.nodup_cons]
  constructor
  · intro hmem
    rw [List.mem_map] at hmem
    obtain ⟨e, he, hek⟩ := hmem
    rw [List.mem_filter] at he
    simp [hek] at he
  · exact h.sublist ((List.filter_sublist _).map _)

theorem length_le_one_of_same_key {κ ν : Type} (l : List (κ × ν)) (k : κ)
    (hnodup : (l.map (fun e => e.1)).Nodup) (hkey : ∀ e ∈ l, e.1 = k) : l.length ≤ 1 := by
  match l, hnodup, hkey with
  | [], _, _ => simp
  | [_], _, _ => simp
  | a :: b :: rest, hnodup, hkey =>
    exfalso
    have ha := hkey a (by simp)
    have hb := hkey b (by simp)
    simp only [List.map_cons, List.nodup_cons, List.mem_cons] at hnodup
    exact hnodup.1 (Or.inl (ha.trans hb.symm))

/-! ## The loop of `SendReceipts` -/

theorem any_setReceiptVersion_iff (mutations : List Mutation) (key : ReceiptVersionKey) :
    mutations.any (fun m =>
      match m with
      | .setReceiptVersion k _ => decide (k = key)
      | _ => false) = true ↔ key ∈ receiptVersionKeys mutations := by
  unfold receiptVersionKeys
  induction mutations with
  | nil => simp
  | cons m ms ih =>
    rw [List.any_cons, Bool.or_eq_true, ih, List.filterMap_cons]
    cases m <;> simp [eq_comm]

theorem receiptVersionKeys_append (a b : List Mutation) :
    receiptVersionKeys (a ++ b) = receiptVersionKeys a ++ receiptVersionKeys b := by
  simp [receiptVersionKeys, List.filterMap_append]

theorem receiptVersionKeys_setReceipt (key : RoomID × String × String × UserID)
    (value : EventID × List Nat) : receiptVersionKeys [.setReceipt key value] = [] := rfl

theorem receiptVersionKeys_setVersionstampedKey (isLocal : Bool) (key : StreamKey)
    (value : StreamValue) :
    receiptVersionKeys [.setVersionstampedKey isLocal key value] = [] := rfl

theorem receiptVersionKeys_receiptMutations (serverName : String) (db : Store)
    (e : Nat × Receipt) :
    receiptVersionKeys (receiptMutations serverName db e) =
      [keyForSuperStreamReceiptVersion e.2] := by
  unfold receiptMutations receiptVersionKeys
  cases kvGet db.superStreamReceiptVersions (keyForSuperStreamReceiptVersion e.2) <;>
    by_cases h : Homeserver e.2.UserID = serverName <;> simp [h]

theorem keyForSuperStreamRoom_incomplete (roomID : RoomID) (u : Nat) :
    keyForSuperStreamRoom roomID (IncompleteVersionstamp u) =
      .ok (.versionstamped roomID (IncompleteVersionstamp u)) := by
  simp [keyForSuperStreamRoom, PackWithVersionstamp, IncompleteVersionstamp]

theorem keyForLocalSuperStreamRoom_incomplete (roomID : RoomID) (u : Nat) :
    keyForLocalSuperStreamRoom roomID (IncompleteVersionstamp u) =
      .ok (.versionstamped roomID (IncompleteVersionstamp u)) := by
  simp [keyForLocalSuperStreamRoom, PackWithVersionstamp, IncompleteVersionstamp]

theorem keyForSuperStreamRoom_complete (roomID : RoomID) (v : Versionstamp)
    (h : v.TransactionVersion ≠ incompleteVersion) :
    keyForSuperStreamRoom roomID v =
      .error (.panic "No incomplete versionstamp included in tuple pack with versionstamp") := by
  simp [keyForSuperStreamRoom, PackWithVersionstamp, h]

theorem keyForSuperStreamRoom_of_incomplete (roomID : RoomID) (v : Versionstamp)
    (h : v.TransactionVersion = incompleteVersion) :
    keyForSuperStreamRoom roomID v = .ok (.versionstamped roomID v) ∧
      keyForLocalSuperStreamRoom roomID v = .ok (.versionstamped roomID v) := by
  simp [keyForSuperStreamRoom, keyForLocalSuperStreamRoom, PackWithVersionstamp, h]

/-- The outcome of `txnAddReceiptToSuperStream` for the `i`-th receipt of a
batch, after the receipts directory write was buffered. -/
theorem txnAddReceiptToSuperStream_eq (serverName : String) (db : Store)
    (mutations : List Mutation) (i : Nat) (rc : Receipt) :
    txnAddReceiptToSuperStream serverName db
        (mutations ++ [.setReceipt (KeyValueForReceipt rc).1 (KeyValueForReceipt rc).2]) rc
        (IncompleteVersionstamp (i % 65536)) =
      if keyForSuperStreamReceiptVersion rc ∈ receiptVersionKeys mutations then
        .error (.fdb 1036)
      else
        match kvGet db.superStreamReceiptVersions (keyForSuperStreamReceiptVersion rc) with
        | none => .ok (mutations ++ receiptMutations serverName db (i, rc))
        | some v =>
          if v.TransactionVersion = incompleteVersion then
            .ok (mutations ++ receiptMutations serverName db (i, rc))
          else
            .error (.panic
              "No incomplete versionstamp included in tuple pack with versionstamp") := by
  unfold txnAddReceiptToSuperStream
  simp only [keyForSuperStreamRoom_incomplete, keyForLocalSuperStreamRoom_incomplete]
  by_cases hl : Homeserver rc.UserID = serverName
  · simp only [hl, if_true]
    unfold txnGetReceiptVersion
    by_cases hk : keyForSuperStreamReceiptVersion rc ∈ receiptVersionKeys mutations
    · have hany := (any_setReceiptVersion_iff
        (mutations ++ [Mutation.setReceipt (KeyValueForReceipt rc).1 (KeyValueForReceipt rc).2] ++
          [Mutation.setVersionstampedKey false
            (StreamKey.versionstamped rc.RoomID (IncompleteVersionstamp (i % 65536)))
            (receiptStreamValue rc)] ++
          [Mutation.setVersionstampedKey true
            (StreamKey.versionstamped rc.RoomID (IncompleteVersionstamp (i % 65536)))
            (receiptStreamValue rc)])
        (keyForSuperStreamReceiptVersion rc)).mpr (by
          simp [receiptVersionKeys_append, hk])
      simp only [hany, if_true, hk]
    · have hany : ¬ (mutations ++
          [Mutation.setReceipt (KeyValueForReceipt rc).1 (KeyValueForReceipt rc).2] ++
          [Mutation.setVersionstampedKey false
            (StreamKey.versionstamped rc.RoomID (IncompleteVersionstamp (i % 65536)))
            (receiptStreamValue rc)] ++
          [Mutation.setVersionstampedKey true
            (StreamKey.versionstamped rc.RoomID (IncompleteVersionstamp (i % 65536)))
            (receiptStreamValue rc)]).any (fun m =>
            match m with
            | .setReceiptVersion k _ => decide (k = keyForSuperStreamReceiptVersion rc)
            | _ => false) = true := by
        rw [any_setReceiptVersion_iff]
        simp only [receiptVersionKeys_append, receiptVersionKeys_setReceipt,
          receiptVersionKeys_setVersionstampedKey, List.append_nil]
        exact hk
      simp only [hany, if_false, hk]
      cases hg : kvGet db.superStreamReceiptVersions (keyForSuperStreamReceiptVersion rc) with
      | none => simp [receiptMutations, hl, hg]
      | some v =>
        by_cases hv : v.TransactionVersion = incompleteVersion
        · simp [receiptMutations, hl, hg, hv, keyForSuperStreamRoom_of_incomplete rc.RoomID v hv]
        · simp [hv, keyForSuperStreamRoom_complete rc.RoomID v hv]
  · simp only [hl, if_false]
    unfold txnGetReceiptVersion
    by_cases hk : keyForSuperStreamReceiptVersion rc ∈ receiptVersionKeys mutations
    · have hany := (any_setReceiptVersion_iff
        (mutations ++ [Mutation.setReceipt (KeyValueForReceipt rc).1 (KeyValueForReceipt rc).2] ++
          [Mutation.setVersionstampedKey false
            (StreamKey.versionstamped rc.RoomID (IncompleteVersionstamp (i % 65536)))
            (receiptStreamValue rc)])
        (keyForSuperStreamReceiptVersion rc)).mpr (by
          simp [receiptVersionKeys_append, hk])
      simp only [hany, if_true, hk]
    · have hany : ¬ (mutations ++
          [Mutation.setReceipt (KeyValueForReceipt rc).1 (KeyValueForReceipt rc).2] ++
          [Mutation.setVersionstampedKey false
            (StreamKey.versionstamped rc.RoomID (IncompleteVersionstamp (i % 65536)))
            (receiptStreamValue rc)]).any (fun m =>
            match m with
            | .setReceiptVersion k _ => decide (k = keyForSuperStreamReceiptVersion rc)
            | _ => false) = true := by
        rw [any_setReceiptVersion_iff]
        simp only [receiptVersionKeys_append, receiptVersionKeys_setReceipt,
          receiptVersionKeys_setVersionstampedKey, List.append_nil]
        exact hk
      simp only [hany, if_false, hk]
      cases hg : kvGet db.superStreamReceiptVersions (keyForSuperStreamReceiptVersion rc) with
      | none => simp [receiptMutations, hl, hg]
      | some v =>
        by_cases hv : v.TransactionVersion = incompleteVersion
        · simp [receiptMutations, hl, hg, hv, keyForSuperStreamRoom_of_incomplete rc.RoomID v hv]
        · simp [hv, keyForSuperStreamRoom_complete rc.RoomID v hv]

theorem WritesSucceed_cons_reject (r : RoomsDatabase) (db : Store)
    (written : List ReceiptVersionKey) (rc : Receipt) (rest : List Receipt)
    (h : (rejectionOf r rc).isNone = false) :
    WritesSucceed r db written (rc :: rest) ↔ WritesSucceed r db written rest := by
  simp [WritesSucceed, List.filter_cons, h]

theorem WritesSucceed_cons_accept (r : RoomsDatabase) (db : Store)
    (written : List ReceiptVersionKey) (rc : Receipt) (rest : List Receipt)
    (h : (rejectionOf r rc).isNone = true) :
    WritesSucceed r db written (rc :: rest) ↔
      keyForSuperStreamReceiptVersion rc ∉ written ∧
      (∀ v, kvGet db.superStreamReceiptVersions (keyForSuperStreamReceiptVersion rc) = some v →
        v.TransactionVersion = incompleteVersion) ∧
      WritesSucceed r db (written ++ [keyForSuperStreamReceiptVersion rc]) rest := by
  simp only [WritesSucceed, List.filter_cons, h, if_true, List.map_cons, List.nodup_cons,
    List.mem_cons, forall_eq_or_imp]
  constructor
  · rintro ⟨⟨h1, h2⟩, ⟨h3, h4⟩, h5, h6⟩
    refine ⟨h3, h5, h2, fun k hk hmem => ?_, h6⟩
    rcases List.mem_append.mp hmem with hw | hw
    · exact h4 k hk hw
    · rw [List.mem_singleton] at hw
      exact h1 (hw ▸ hk)
  · rintro ⟨h3, h5, h2, h4, h6⟩
    refine ⟨⟨?_, h2⟩, ⟨h3, fun k hk hw => h4 k hk (List.mem_append_left _ hw)⟩, h5, h6⟩
    intro hk
    exact h4 _ hk (List.mem_append_right _ (List.mem_singleton.mpr rfl))

theorem sendReceiptsSpec_nil (r : RoomsDatabase) (db : Store) (i : Nat) (st : SendState) :
    sendReceiptsSpec r db i [] st = st := by
  simp [sendReceiptsSpec, acceptedWithIndex]

theorem sendReceiptsSpec_cons_reject (r : RoomsDatabase) (db : Store) (i : Nat)
    (rc : Receipt) (rest : List Receipt) (st : SendState) (e : Err)
    (h : rejectionOf r rc = some e) :
    sendReceiptsSpec r db i (rc :: rest) st =
      sendReceiptsSpec r db (i + 1) rest
        { st with rejectedReceipts := st.rejectedReceipts ++ [⟨rc, e⟩] } := by
  simp [sendReceiptsSpec, acceptedWithIndex, List.enumFrom_cons, List.filter_cons, h]

theorem sendReceiptsSpec_cons_accept (r : RoomsDatabase) (db : Store) (i : Nat)
    (rc : Receipt) (rest : List Receipt) (st : SendState)
    (h : rejectionOf r rc = none) :
    sendReceiptsSpec r db i (rc :: rest) st =
      sendReceiptsSpec r db (i + 1) rest
        { st with mutations := st.mutations ++ receiptMutations r.ServerName db (i, rc),
                  allowedReceipts := st.allowedReceipts ++ [rc] } := by
  simp [sendReceiptsSpec, acceptedWithIndex, List.enumFrom_cons, List.filter_cons, h]

/-- The loop of `SendReceipts` succeeds exactly when every receipt carries the
room id and the writes of the accepted ones succeed, and then ends in the
state of `sendReceiptsSpec`. -/
theorem sendReceiptsLoop_ok_iff (r : RoomsDatabase) (db : Store) (roomID : RoomID)
    (rcs : List Receipt) (i : Nat) (st st' : SendState) :
    sendReceiptsLoop r db roomID i rcs st = .ok st' ↔
      (∀ rc ∈ rcs, rc.RoomID = roomID) ∧
      WritesSucceed r db (receiptVersionKeys st.mutations) rcs ∧
      st' = sendReceiptsSpec r db i rcs st := by
  induction rcs generalizing i st with
  | nil =>
    simp only [sendReceiptsLoop, Except.ok.injEq, sendReceiptsSpec_nil]
    constructor
    · intro h
      exact ⟨by simp, by simp [WritesSucceed], h.symm⟩
    · intro h
      exact h.2.2.symm
  | cons rc rest ih =>
    rw [sendReceiptsLoop]
    by_cases hroom : rc.RoomID = roomID
    · simp only [hroom, ne_eq, not_true_eq_false, if_false, List.mem_cons, forall_eq_or_imp,
        true_and]
      cases hmem : r.users.TxnMustIsUserInRoom rc.UserID roomID with
      | false =>
        have hrej : rejectionOf r rc = some .ErrUserNotInRoom := by
          simp [rejectionOf, hroom, hmem]
        simp only [Bool.not_false, if_true]
        rw [ih, WritesSucceed_cons_reject r db _ rc rest (by simp [hrej]),
          sendReceiptsSpec_cons_reject r db i rc rest st _ hrej]
      | true =>
        simp only [Bool.not_true, Bool.false_eq_true, if_false]
        by_cases hunk : Homeserver rc.UserID = r.ServerName ∧ (r.events.Get rc.EventID).isNone
        · have hrej : rejectionOf r rc = some .ErrEventNotFound := by
            simp [rejectionOf, hroom, hmem, hunk]
          simp only [hunk, and_self, if_true]
          rw [ih, WritesSucceed_cons_reject r db _ rc rest (by simp [hrej]),
            sendReceiptsSpec_cons_reject r db i rc rest st _ hrej]
        · have hacc : rejectionOf r rc = none := by
            simp only [rejectionOf, hroom, hmem, Bool.true_eq_false, if_false]
            rw [if_neg hunk]
          rw [if_neg hunk]
          rw [txnAddReceiptToSuperStream_eq,
            WritesSucceed_cons_accept r db _ rc rest (by simp [hacc]),
            sendReceiptsSpec_cons_accept r db i rc rest st hacc]
          by_cases hk : keyForSuperStreamReceiptVersion rc ∈ receiptVersionKeys st.mutations
          · simp [hk]
          · simp only [hk, if_false, not_false_eq_true, true_and]
            cases hg : kvGet db.superStreamReceiptVersions
                (keyForSuperStreamReceiptVersion rc) with
            | none =>
              simp only [reduceCtorEq, false_implies, implies_true, true_and]
              rw [ih]
              simp only [receiptVersionKeys_append, receiptVersionKeys_receiptMutations]
            | some v =>
              by_cases hv : v.TransactionVersion = incompleteVersion
              · simp only [hv, if_true, Option.some.injEq]
                rw [ih]
                simp only [receiptVersionKeys_append, receiptVersionKeys_receiptMutations]
                constructor
                · rintro ⟨h1, h2, h3⟩
                  exact ⟨h1, ⟨fun w hw => hw ▸ hv, h2⟩, h3⟩
                · rintro ⟨h1, ⟨_, h2⟩, h3⟩
                  exact ⟨h1, h2, h3⟩
              · simp only [hv, if_false, Option.some.injEq, reduceCtorEq, false_iff]
                rintro ⟨_, ⟨h, _⟩, _⟩
                exact hv (h v rfl)
    · simp only [ne_eq, hroom, not_false_eq_true, if_true, reduceCtorEq, List.mem_cons,
        forall_eq_or_imp, false_and, and_false]

/-! ## The commit of a batch -/

theorem commit_append (commitVersion : List Nat) (db : Store) (a b : List Mutation) :
    commit commitVersion db (a ++ b) = commit commitVersion (commit commitVersion db a) b := by
  simp [commit, List.foldl_append]

theorem commit_receiptMutations (serverName : String) (commitVersion : List Nat)
    (db x : Store) (e : Nat × Receipt) :
    commit commitVersion x (receiptMutations serverName db e) =
      storeAfterReceipt serverName commitVersion x e := by
  unfold receiptMutations storeAfterReceipt
  cases kvGet db.superStreamReceiptVersions (keyForSuperStreamReceiptVersion e.2) <;>
    by_cases h : Homeserver e.2.UserID = serverName <;>
    simp [h, commit, applyMutation, commitStreamKey, clearStreamKey, IncompleteVersionstamp]

theorem commit_flatten (serverName : String) (commitVersion : List Nat) (db x : Store)
    (l : List (Nat × Receipt)) :
    commit commitVersion x ((l.map (receiptMutations serverName db)).flatten) =
      l.foldl (storeAfterReceipt serverName commitVersion) x := by
  induction l generalizing x with
  | nil => simp [commit]
  | cons e es ih =>
    simp only [List.map_cons, List.flatten_cons, commit_append, commit_receiptMutations,
      List.foldl_cons]
    exact ih _

/-- The method `SendReceipts` returns a result exactly when every receipt carries the
room id and the writes of the accepted receipts succeed; the result, the
store and the published change are then the ones of the specification. -/
theorem SendReceipts_ok_iff (r : RoomsDatabase) (db : Store) (commitVersion : List Nat)
    (nowNanos : Nat) (roomID : RoomID) (rcs : List Receipt) (res : SendReceiptsResults)
    (db' : Store) (change : Change) :
    SendReceipts r db commitVersion nowNanos roomID rcs = .ok (res, db', change) ↔
      (∀ rc ∈ rcs, rc.RoomID = roomID) ∧ WritesSucceed r db [] rcs ∧
      res = resultsOfBatch r rcs ∧
      db' = storeAfterBatch r commitVersion nowNanos db rcs ∧
      change = ⟨[], [], []⟩ := by
  unfold SendReceipts DoWriteTransaction sendReceiptsTxn
  cases hloop : sendReceiptsLoop r db roomID 0 rcs ⟨[], [], []⟩ with
  | error e =>
    simp only [reduceCtorEq, false_iff]
    rintro ⟨h1, h2, -⟩
    have := (sendReceiptsLoop_ok_iff r db roomID rcs 0 ⟨[], [], []⟩
      (sendReceiptsSpec r db 0 rcs ⟨[], [], []⟩)).mpr ⟨h1, h2, rfl⟩
    rw [hloop] at this
    exact absurd this (by simp)
  | ok st =>
    obtain ⟨h1, h2, h3⟩ := (sendReceiptsLoop_ok_iff r db roomID rcs 0 ⟨[], [], []⟩ st).mp hloop
    have h2' : WritesSucceed r db [] rcs := h2
    subst h3
    simp only [Except.ok.injEq, Prod.mk.injEq]
    have hdb : commit commitVersion db
        ((sendReceiptsSpec r db 0 rcs ⟨[], [], []⟩).mutations ++
          [Mutation.setTimeToVersion nowNanos (IncompleteVersionstamp (65536 - 1 - 1))]) =
        storeAfterBatch r commitVersion nowNanos db rcs := by
      rw [commit_append]
      simp only [sendReceiptsSpec, List.nil_append, commit_flatten]
      simp [commit, applyMutation, storeAfterBatch, IncompleteVersionstamp]
    rw [hdb]
    have hres : SendReceiptsResults.mk ⟨[], [], []⟩
        (sendReceiptsSpec r db 0 rcs ⟨[], [], []⟩).allowedReceipts
        (sendReceiptsSpec r db 0 rcs ⟨[], [], []⟩).rejectedReceipts =
          resultsOfBatch r rcs := by
      simp [sendReceiptsSpec, resultsOfBatch]
    rw [hres]
    constructor
    · rintro ⟨hr, hd, hc⟩
      exact ⟨h1, h2', hr.symm, hd.symm, hc.symm⟩
    · rintro ⟨_, _, hr, hd, hc⟩
      exact ⟨hr.symm, hd.symm, hc.symm⟩

/-! ## Acceptance and rejection of receipts -/

theorem rejectionOf_eq_some_iff (r : RoomsDatabase) (rc : Receipt) (e : Err) :
    rejectionOf r rc = some e ↔
      (e = .ErrUserNotInRoom ∧ r.users.TxnMustIsUserInRoom rc.UserID rc.RoomID = false) ∨
      (e = .ErrEventNotFound ∧ r.users.TxnMustIsUserInRoom rc.UserID rc.RoomID = true ∧
        Homeserver rc.UserID = r.ServerName ∧ r.events.Get rc.EventID = none) := by
  unfold rejectionOf
  cases hm : r.users.TxnMustIsUserInRoom rc.UserID rc.RoomID with
  | false => simp [eq_comm]
  | true =>
    by_cases hu : Homeserver rc.UserID = r.ServerName ∧ (r.events.Get rc.EventID).isNone
    · have hu' := hu
      rw [Option.isNone_iff_eq_none] at hu'
      simp [hu, hu'.1, hu'.2, eq_comm]
    · have hu' := hu
      rw [Option.isNone_iff_eq_none] at hu'
      simp only [Bool.true_eq_false, if_false, hu, reduceCtorEq, and_false, true_and,
        false_or, false_iff, not_and]
      intro _ h1 h2
      exact hu' ⟨h1, h2⟩

theorem rejectionOf_isNone_iff (r : RoomsDatabase) (rc : Receipt) :
    (rejectionOf r rc).isNone = true ↔
      r.users.TxnMustIsUserInRoom rc.UserID rc.RoomID = true ∧
      ¬ (Homeserver rc.UserID = r.ServerName ∧ r.events.Get rc.EventID = none) := by
  unfold rejectionOf
  cases hm : r.users.TxnMustIsUserInRoom rc.UserID rc.RoomID with
  | false => simp
  | true =>
    by_cases hu : Homeserver rc.UserID = r.ServerName ∧ (r.events.Get rc.EventID).isNone
    · have hu' := hu
      rw [Option.isNone_iff_eq_none] at hu'
      simp [hu, hu'.1, hu'.2]
    · have hu' := hu
      rw [Option.isNone_iff_eq_none] at hu'
      simp only [Bool.true_eq_false, if_false, hu, Option.isNone_none, true_and, true_iff]
      exact hu'

theorem mem_rejected_iff (r : RoomsDatabase) (rcs : List Receipt) (rc : Receipt) (e : Err) :
    (⟨rc, e⟩ : RejectedReceipt) ∈ (resultsOfBatch r rcs).Rejected ↔
      rc ∈ rcs ∧ rejectionOf r rc = some e := by
  simp only [resultsOfBatch, List.mem_filterMap, Option.map_eq_some', RejectedReceipt.mk.injEq]
  constructor
  · rintro ⟨a, ha, e', he', h1, h2⟩
    subst h1 h2
    exact ⟨ha, he'⟩
  · rintro ⟨h1, h2⟩
    exact ⟨rc, h1, e, h2, rfl, rfl⟩

/-- Claim C8. For every receipt of a batch that `SendReceipts` processed: it
is rejected with `ErrUserNotInRoom` if and only if its user is not a current
member of the room; it is rejected with `ErrEventNotFound` if and only if its
user is a member, the user's homeserver is the local server and the
referenced event is not known; it is accepted if and only if neither holds. A
receipt of a remote member that references an unknown event is accepted. -/
theorem SendReceipts_classifies (r : RoomsDatabase) (db : Store) (commitVersion : List Nat)
    (nowNanos : Nat) (roomID : RoomID) (rcs : List Receipt) (res : SendReceiptsResults)
    (db' : Store) (change : Change)
    (h : SendReceipts r db commitVersion nowNanos roomID rcs = .ok (res, db', change)) :
    ∀ rc ∈ rcs,
      ((⟨rc, .ErrUserNotInRoom⟩ : RejectedReceipt) ∈ res.Rejected ↔
        r.users.TxnMustIsUserInRoom rc.UserID rc.RoomID = false) ∧
      ((⟨rc, .ErrEventNotFound⟩ : RejectedReceipt) ∈ res.Rejected ↔
        r.users.TxnMustIsUserInRoom rc.UserID rc.RoomID = true ∧
          Homeserver rc.UserID = r.ServerName ∧ r.events.Get rc.EventID = none) ∧
      (rc ∈ res.Allowed ↔
        r.users.TxnMustIsUserInRoom rc.UserID rc.RoomID = true ∧
          ¬ (Homeserver rc.UserID = r.ServerName ∧ r.events.Get rc.EventID = none)) ∧
      (∀ e, (⟨rc, e⟩ : RejectedReceipt) ∈ res.Rejected →
        e = .ErrUserNotInRoom ∨ e = .ErrEventNotFound) ∧
      (r.users.TxnMustIsUserInRoom rc.UserID rc.RoomID = true →
        Homeserver rc.UserID ≠ r.ServerName → rc ∈ res.Allowed) := by
  obtain ⟨-, -, hres, -, -⟩ := (SendReceipts_ok_iff r db commitVersion nowNanos roomID rcs res
    db' change).mp h
  subst hres
  intro rc hrc
  have hallowed : rc ∈ (resultsOfBatch r rcs).Allowed ↔
      r.users.TxnMustIsUserInRoom rc.UserID rc.RoomID = true ∧
        ¬ (Homeserver rc.UserID = r.ServerName ∧ r.events.Get rc.EventID = none) := by
    simp only [resultsOfBatch, List.mem_filter, hrc, true_and]
    exact rejectionOf_isNone_iff r rc
  refine ⟨?_, ?_, hallowed, ?_, ?_⟩
  · rw [mem_rejected_iff, rejectionOf_eq_some_iff]
    simp [hrc]
  · rw [mem_rejected_iff, rejectionOf_eq_some_iff]
    simp [hrc]
  · intro e he
    rw [mem_rejected_iff, rejectionOf_eq_some_iff] at he
    rcases he.2 with h1 | h1
    · exact Or.inl h1.1
    · exact Or.inr h1.1
  · intro hm hremote
    exact hallowed.mpr ⟨hm, fun h' => hremote h'.1⟩

/-- Witness of `SendReceipts_classifies`: a batch with a stranger, a local
member, a local member naming an unknown event, and a remote member naming
an unknown event, who is accepted. -/
theorem SendReceipts_classifies_witness :
    (∃ db', SendReceipts sampleRooms emptyStore (sampleCommit 5) 50 "!r:s"
        [rcStranger, rcA, rcLocalUnknown, rcRemote] =
      .ok (⟨⟨[], [], []⟩, [rcA, rcRemote],
        [⟨rcStranger, .ErrUserNotInRoom⟩, ⟨rcLocalUnknown, .ErrEventNotFound⟩]⟩, db',
        ⟨[], [], []⟩)) ∧
    sampleRooms.users.TxnMustIsUserInRoom rcRemote.UserID rcRemote.RoomID = true ∧
    Homeserver rcRemote.UserID ≠ sampleRooms.ServerName ∧
    sampleRooms.events.Get rcRemote.EventID = none ∧
    rcRemote ∈ [rcA, rcRemote] :=
  ⟨⟨_, rfl⟩, by decide, by decide, by decide,
    (SendReceipts_classifies sampleRooms emptyStore (sampleCommit 5) 50 "!r:s"
      [rcStranger, rcA, rcLocalUnknown, rcRemote]
      ⟨⟨[], [], []⟩, [rcA, rcRemote],
        [⟨rcStranger, .ErrUserNotInRoom⟩, ⟨rcLocalUnknown, .ErrEventNotFound⟩]⟩ _ _ rfl
      rcRemote (by decide)).2.2.2.2 (by decide) (by decide)⟩

/-! ## Allowed and rejected partition the batch -/

theorem acceptedWithIndex_snd (r : RoomsDatabase) (i : Nat) (rcs : List Receipt) :
    (acceptedWithIndex r i rcs).map (fun e => e.2) =
      rcs.filter (fun rc => (rejectionOf r rc).isNone) := by
  induction rcs generalizing i with
  | nil => simp [acceptedWithIndex]
  | cons rc rest ih =>
    have ih' := ih (i + 1)
    unfold acceptedWithIndex at ih' ⊢
    simp only [List.enumFrom_cons, List.filter_cons]
    cases h : (rejectionOf r rc).isNone with
    | true => simp [ih']
    | false => simp [ih']

theorem rejected_receipts_eq (r : RoomsDatabase) (rcs : List Receipt) :
    (resultsOfBatch r rcs).Rejected.map (fun x => x.ReceiptTup) =
      rcs.filter (fun rc => !(rejectionOf r rc).isNone) := by
  simp only [resultsOfBatch]
  induction rcs with
  | nil => simp
  | cons rc rest ih =>
    cases h : rejectionOf r rc with
    | none => simp [List.filterMap_cons, List.filter_cons, h, ih]
    | some e => simp [List.filterMap_cons, List.filter_cons, h, ih]

theorem WritesSucceed_filter (r : RoomsDatabase) (db : Store)
    (written : List ReceiptVersionKey) (rcs : List Receipt) :
    WritesSucceed r db written (rcs.filter (fun rc => (rejectionOf r rc).isNone)) ↔
      WritesSucceed r db written rcs := by
  simp [WritesSucceed, List.filter_filter]

theorem SendReceipts_isOk_iff (r : RoomsDatabase) (db : Store) (commitVersion : List Nat)
    (nowNanos : Nat) (roomID : RoomID) (rcs : List Receipt)
    (hroom : ∀ rc ∈ rcs, rc.RoomID = roomID) :
    (∃ out, SendReceipts r db commitVersion nowNanos roomID rcs = .ok out) ↔
      WritesSucceed r db [] rcs := by
  constructor
  · rintro ⟨⟨res, db', change⟩, h⟩
    exact ((SendReceipts_ok_iff r db commitVersion nowNanos roomID rcs res db' change).mp h).2.1
  · intro h
    exact ⟨_, (SendReceipts_ok_iff r db commitVersion nowNanos roomID rcs _ _ _).mpr
      ⟨hroom, h, rfl, rfl, rfl⟩⟩

/-- Claim C9. For every batch whose receipts all carry the given room id, the
result of `SendReceipts` splits the input: `Allowed` is the accepted receipts
and `Rejected` the other ones, both in input order, every input receipt is in
exactly one of the two, and the lengths add up to the length of the input.
The store after the commit is the store before it with the writes of exactly
the allowed receipts (receipts directory, super-stream, local mirror, version
pointer) and the time index entry. A rejected receipt does not make
`SendReceipts` fail or keep the allowed ones from being written:
`SendReceipts` returns a result for the batch exactly when it returns one for
the batch without its rejected receipts, which is exactly when the writes of
the accepted receipts succeed. -/
theorem SendReceipts_partitions (r : RoomsDatabase) (db : Store) (commitVersion : List Nat)
    (nowNanos : Nat) (roomID : RoomID) (rcs : List Receipt)
    (hroom : ∀ rc ∈ rcs, rc.RoomID = roomID) :
    (∀ res db' change,
      SendReceipts r db commitVersion nowNanos roomID rcs = .ok (res, db', change) →
        res.Allowed = rcs.filter (fun rc => (rejectionOf r rc).isNone) ∧
        res.Rejected.map (fun x => x.ReceiptTup) =
          rcs.filter (fun rc => !(rejectionOf r rc).isNone) ∧
        (∀ rc ∈ rcs, (rc ∈ res.Allowed ∧ rc ∉ res.Rejected.map (fun x => x.ReceiptTup)) ∨
          (rc ∉ res.Allowed ∧ rc ∈ res.Rejected.map (fun x => x.ReceiptTup))) ∧
        res.Allowed.length + res.Rejected.length = rcs.length ∧
        (acceptedWithIndex r 0 rcs).map (fun e => e.2) = res.Allowed ∧
        db' = storeAfterBatch r commitVersion nowNanos db rcs) ∧
    ((∃ out, SendReceipts r db commitVersion nowNanos roomID rcs = .ok out) ↔
      (∃ out, SendReceipts r db commitVersion nowNanos roomID
        (rcs.filter (fun rc => (rejectionOf r rc).isNone)) = .ok out)) ∧
    ((∃ out, SendReceipts r db commitVersion nowNanos roomID rcs = .ok out) ↔
      WritesSucceed r db [] rcs) := by
  refine ⟨?_, ?_, SendReceipts_isOk_iff r db commitVersion nowNanos roomID rcs hroom⟩
  · intro res db' change h
    obtain ⟨-, -, hres, hdb, -⟩ := (SendReceipts_ok_iff r db commitVersion nowNanos roomID rcs
      res db' change).mp h
    subst hres
    have hA : (resultsOfBatch r rcs).Allowed =
        rcs.filter (fun rc => (rejectionOf r rc).isNone) := rfl
    have hR := rejected_receipts_eq r rcs
    refine ⟨hA, hR, ?_, ?_, ?_, hdb⟩
    · intro rc hrc
      rw [hA, hR]
      simp only [List.mem_filter, hrc, true_and]
      cases (rejectionOf r rc).isNone <;> simp
    · have hlen : (resultsOfBatch r rcs).Rejected.length =
          ((resultsOfBatch r rcs).Rejected.map (fun x => x.ReceiptTup)).length := by simp
      rw [hlen, hR, hA]
      have := List.length_eq_length_filter_add (l := rcs)
        (fun rc => (rejectionOf r rc).isNone)
      omega
    · rw [hA]; exact acceptedWithIndex_snd r 0 rcs
  · rw [SendReceipts_isOk_iff r db commitVersion nowNanos roomID rcs hroom,
      SendReceipts_isOk_iff r db commitVersion nowNanos roomID _
        (fun rc hrc => hroom rc (List.mem_of_mem_filter hrc)),
      WritesSucceed_filter]

/-- Witness of `SendReceipts_partitions`: a batch of four receipts, two of
them rejected, is committed with the writes of the two allowed ones. -/
theorem SendReceipts_partitions_witness :
    (∀ rc ∈ [rcStranger, rcA, rcLocalUnknown, rcRemote], rc.RoomID = "!r:s") ∧
    SendReceipts sampleRooms emptyStore (sampleCommit 5) 50 "!r:s"
        [rcStranger, rcA, rcLocalUnknown, rcRemote] =
      .ok (⟨⟨[], [], []⟩, [rcA, rcRemote],
        [⟨rcStranger, .ErrUserNotInRoom⟩, ⟨rcLocalUnknown, .ErrEventNotFound⟩]⟩,
        storeAfterBatch sampleRooms (sampleCommit 5) 50 emptyStore
          [rcStranger, rcA, rcLocalUnknown, rcRemote],
        ⟨[], [], []⟩) ∧
    ((∃ out, SendReceipts sampleRooms emptyStore (sampleCommit 5) 50 "!r:s"
        [rcStranger, rcA, rcLocalUnknown, rcRemote] = .ok out) ↔
      (∃ out, SendReceipts sampleRooms emptyStore (sampleCommit 5) 50 "!r:s"
        ([rcStranger, rcA, rcLocalUnknown, rcRemote].filter
          (fun rc => (rejectionOf sampleRooms rc).isNone)) = .ok out)) :=
  ⟨by decide, rfl,
    (SendReceipts_partitions sampleRooms emptyStore (sampleCommit 5) 50 "!r:s"
      [rcStranger, rcA, rcLocalUnknown, rcRemote] (by decide)).2.1⟩

/-! ## The change published after a batch -/

/-- Claim C10 fails on the code. The field `change` of the result is never
set, so the change `SendReceipts` hands to the rooms notifier is the zero
value: for every batch that commits, it names neither the user nor the room
of any accepted receipt. -/
theorem SendReceipts_publishes_zero_change (r : RoomsDatabase) (db : Store)
    (commitVersion : List Nat) (nowNanos : Nat) (roomID : RoomID) (rcs : List Receipt)
    (res : SendReceiptsResults) (db' : Store) (change : Change)
    (h : SendReceipts r db commitVersion nowNanos roomID rcs = .ok (res, db', change)) :
    change = ⟨[], [], []⟩ ∧
      ∀ rc ∈ res.Allowed, rc.UserID ∉ change.UserIDs ∧ rc.RoomID ∉ change.RoomIDs := by
  obtain ⟨-, -, -, -, hc⟩ := (SendReceipts_ok_iff r db commitVersion nowNanos roomID rcs res
    db' change).mp h
  subst hc
  exact ⟨rfl, fun rc _ => ⟨by simp, by simp⟩⟩

/-- Witness of `SendReceipts_publishes_zero_change`: the receipt of `@a:s` in
`!r:s` is accepted and committed, and the published change is empty. -/
theorem SendReceipts_publishes_zero_change_witness :
    SendReceipts sampleRooms emptyStore (sampleCommit 5) 50 "!r:s" [rcA] =
      .ok (⟨⟨[], [], []⟩, [rcA], []⟩, storeAfterFirstReceipt, ⟨[], [], []⟩) ∧
    ((⟨[], [], []⟩ : Change) = ⟨[], [], []⟩ ∧
      ∀ rc ∈ [rcA], rc.UserID ∉ (⟨[], [], []⟩ : Change).UserIDs ∧
        rc.RoomID ∉ (⟨[], [], []⟩ : Change).RoomIDs) :=
  ⟨rfl, SendReceipts_publishes_zero_change sampleRooms emptyStore (sampleCommit 5) 50 "!r:s"
    [rcA] ⟨⟨[], [], []⟩, [rcA], []⟩ storeAfterFirstReceipt ⟨[], [], []⟩ rfl⟩

/-! ## Replaying a receipt -/

/-- Claim C6 fails on the code. When the pointer of the key of an accepted
receipt holds a complete versionstamp, `SendReceipts` panics while it builds
the key of the prior stream entry: `keyForSuperStreamRoom` packs the stored
version with `PackWithVersionstamp`, which refuses a complete versionstamp.
Nothing is committed. -/
theorem SendReceipts_replay_panics (r : RoomsDatabase) (db : Store)
    (commitVersion : List Nat) (nowNanos : Nat) (rc : Receipt) (v : Versionstamp)
    (haccepted : rejectionOf r rc = none)
    (hpointer : kvGet db.superStreamReceiptVersions (keyForSuperStreamReceiptVersion rc) =
      some v)
    (hcomplete : v.TransactionVersion ≠ incompleteVersion) :
    SendReceipts r db commitVersion nowNanos rc.RoomID [rc] =
      .error (.panic "No incomplete versionstamp included in tuple pack with versionstamp") := by
  have hm := (rejectionOf_isNone_iff r rc).mp (by simp [haccepted])
  have hunk : ¬ (Homeserver rc.UserID = r.ServerName ∧ (r.events.Get rc.EventID).isNone) := by
    rw [Option.isNone_iff_eq_none]; exact hm.2
  unfold SendReceipts DoWriteTransaction sendReceiptsTxn
  rw [sendReceiptsLoop]
  simp only [ne_eq, not_true_eq_false, if_false, hm.1, Bool.not_true, Bool.false_eq_true]
  rw [if_neg hunk]
  have hadd := txnAddReceiptToSuperStream_eq r.ServerName db [] 0 rc
  simp only [List.nil_append, receiptVersionKeys, List.filterMap_nil, List.not_mem_nil,
    if_false, hpointer, hcomplete] at hadd
  simp only [List.nil_append, hadd]

/-- Witness of `SendReceipts_replay_panics`: `@a:s` sent `rcA` in one
transaction, which left the store `storeAfterFirstReceipt`; sending the
identical receipt again panics. -/
theorem SendReceipts_replay_panics_witness :
    SendReceipts sampleRooms emptyStore (sampleCommit 5) 50 "!r:s" [rcA] =
      .ok (⟨⟨[], [], []⟩, [rcA], []⟩, storeAfterFirstReceipt, ⟨[], [], []⟩) ∧
    SendReceipts sampleRooms storeAfterFirstReceipt (sampleCommit 6) 60 rcA.RoomID [rcA] =
      .error (.panic "No incomplete versionstamp included in tuple pack with versionstamp") :=
  ⟨rfl, SendReceipts_replay_panics sampleRooms storeAfterFirstReceipt (sampleCommit 6) 60 rcA
    ⟨sampleCommit 5, 0⟩ (by decide) (by decide) (by decide)⟩

/-! ## Two receipts of one key in one batch -/

/-- Claim C7 fails on the code. A batch in which two accepted receipts have
the same `(room, user, type, thread)` is never processed: the second receipt
reads the version pointer that the first one set as a versionstamped value in
the same transaction, the store refuses the read, and `SendReceipts` returns
an error without committing any receipt of the batch. -/
theorem SendReceipts_same_key_batch_fails (r : RoomsDatabase) (db : Store)
    (commitVersion : List Nat) (nowNanos : Nat) (roomID : RoomID) (rcs : List Receipt)
    (hsame : ¬ ((rcs.filter (fun rc => (rejectionOf r rc).isNone)).map
      keyForSuperStreamReceiptVersion).Nodup) :
    ∃ e, SendReceipts r db commitVersion nowNanos roomID rcs = .error e := by
  cases h : SendReceipts r db commitVersion nowNanos roomID rcs with
  | error e => exact ⟨e, rfl⟩
  | ok out =>
    obtain ⟨res, db', change⟩ := out
    have := ((SendReceipts_ok_iff r db commitVersion nowNanos roomID rcs res db' change).mp
      h).2.1
    exact absurd this.1 hsame

/-- Witness of `SendReceipts_same_key_batch_fails`: two receipts of `@a:s` for
the same room, type and thread in one batch; the transaction fails with the
error 1036 of the store. -/
theorem SendReceipts_same_key_batch_fails_witness :
    rejectionOf sampleRooms rcA = none ∧ rejectionOf sampleRooms rcA2 = none ∧
    keyForSuperStreamReceiptVersion rcA = keyForSuperStreamReceiptVersion rcA2 ∧
    SendReceipts sampleRooms emptyStore (sampleCommit 5) 50 "!r:s" [rcA, rcA2] =
      .error (.fdb 1036) ∧
    ∃ e, SendReceipts sampleRooms emptyStore (sampleCommit 5) 50 "!r:s" [rcA, rcA2] =
      .error e :=
  ⟨by decide, by decide, by decide, rfl,
    SendReceipts_same_key_batch_fails sampleRooms emptyStore (sampleCommit 5) 50 "!r:s"
      [rcA, rcA2] (by decide)⟩

/-! ## At most one live receipt entry per key -/

theorem StoreInvariant_storeAfterReceipt (serverName : String) (commitVersion : List Nat)
    (db : Store) (e : Nat × Receipt) (hinv : StoreInvariant db)
    (hcv : commitVersion ≠ incompleteVersion)
    (hfresh : kvGet db.superStreamReceiptVersions (keyForSuperStreamReceiptVersion e.2) =
      none) :
    StoreInvariant (storeAfterReceipt serverName commitVersion db e) := by
  obtain ⟨h1, h2, h3, h4, h5⟩ := hinv
  have hstream : ∀ s : Stream,
      (∀ x ∈ s, ∀ userID eventID threadID type data,
        x.2 = .rc userID eventID threadID type data →
          kvGet db.superStreamReceiptVersions (x.1.1, userID, type, threadID) = some x.1.2) →
      ∀ x ∈ kvSet s (e.2.RoomID, ⟨commitVersion, e.1 % 65536⟩) (receiptStreamValue e.2),
        ∀ userID eventID threadID type data,
        x.2 = .rc userID eventID threadID type data →
          kvGet (kvSet db.superStreamReceiptVersions (keyForSuperStreamReceiptVersion e.2)
            ⟨commitVersion, e.1 % 65536⟩) (x.1.1, userID, type, threadID) = some x.1.2 := by
    intro s hs x hx userID eventID threadID type data hval
    rw [mem_kvSet] at hx
    rcases hx with hx | ⟨hx, -⟩
    · subst hx
      simp only [receiptStreamValue, StreamValue.rc.injEq] at hval
      obtain ⟨hu, -, ht, hty, -⟩ := hval
      have hkey : (e.2.RoomID, userID, type, threadID) =
          keyForSuperStreamReceiptVersion e.2 := by
        simp [keyForSuperStreamReceiptVersion, hu, ht, hty]
      simp only [hkey]
      exact kvGet_kvSet_self _ _ _
    · have hold := hs x hx userID eventID threadID type data hval
      have hne : (x.1.1, userID, type, threadID) ≠ keyForSuperStreamReceiptVersion e.2 := by
        intro heq
        rw [heq, hfresh] at hold
        exact absurd hold (by simp)
      rw [kvGet_kvSet_ne _ _ _ _ hne]
      exact hold
  have hold : ∀ s : Stream,
      (∀ x ∈ s, ∀ userID eventID threadID type data,
        x.2 = .rc userID eventID threadID type data →
          kvGet db.superStreamReceiptVersions (x.1.1, userID, type, threadID) = some x.1.2) →
      ∀ x ∈ s, ∀ userID eventID threadID type data,
        x.2 = .rc userID eventID threadID type data →
          kvGet (kvSet db.superStreamReceiptVersions (keyForSuperStreamReceiptVersion e.2)
            ⟨commitVersion, e.1 % 65536⟩) (x.1.1, userID, type, threadID) = some x.1.2 := by
    intro s hs x hx userID eventID threadID type data hval
    have hold := hs x hx userID eventID threadID type data hval
    have hne : (x.1.1, userID, type, threadID) ≠ keyForSuperStreamReceiptVersion e.2 := by
      intro heq
      rw [heq, hfresh] at hold
      exact absurd hold (by simp)
    rw [kvGet_kvSet_ne _ _ _ _ hne]
    exact hold
  refine ⟨hstream db.superStream h1, ?_, nodup_keys_kvSet _ _ _ h3, ?_, ?_⟩
  · show ∀ x ∈ (storeAfterReceipt serverName commitVersion db e).localSuperStream, _
    unfold storeAfterReceipt
    by_cases hl : Homeserver e.2.UserID = serverName
    · simp only [hl, if_true]
      exact hstream db.localSuperStream h2
    · simp only [hl, if_false]
      exact hold db.localSuperStream h2
  · show ((storeAfterReceipt serverName commitVersion db e).localSuperStream.map
      (fun x => x.1)).Nodup
    unfold storeAfterReceipt
    by_cases hl : Homeserver e.2.UserID = serverName
    · simp only [hl, if_true]
      exact nodup_keys_kvSet _ _ _ h4
    · simp only [hl, if_false]
      exact h4
  · intro key v hget
    show v.TransactionVersion ≠ incompleteVersion
    have hget' : kvGet (kvSet db.superStreamReceiptVersions
        (keyForSuperStreamReceiptVersion e.2) ⟨commitVersion, e.1 % 65536⟩) key = some v := hget
    by_cases hk : key = keyForSuperStreamReceiptVersion e.2
    · rw [hk, kvGet_kvSet_self] at hget'
      simp only [Option.some.injEq] at hget'
      rw [← hget']
      exact hcv
    · rw [kvGet_kvSet_ne _ _ _ _ hk] at hget'
      exact h5 key v hget'

theorem StoreInvariant_foldl (serverName : String) (commitVersion : List Nat)
    (hcv : commitVersion ≠ incompleteVersion) (l : List (Nat × Receipt)) :
    ∀ db : Store, StoreInvariant db →
      (l.map (fun e => keyForSuperStreamReceiptVersion e.2)).Nodup →
      (∀ e ∈ l, kvGet db.superStreamReceiptVersions (keyForSuperStreamReceiptVersion e.2) =
        none) →
      StoreInvariant (l.foldl (storeAfterReceipt serverName commitVersion) db) := by
  induction l with
  | nil => intro db h _ _; exact h
  | cons e es ih =>
    intro db hinv hnodup hfresh
    simp only [List.foldl_cons]
    simp only [List.map_cons, List.nodup_cons] at hnodup
    apply ih
    · exact StoreInvariant_storeAfterReceipt serverName commitVersion db e hinv hcv
        (hfresh e (List.mem_cons_self _ _))
    · exact hnodup.2
    · intro e' he'
      have hne : keyForSuperStreamReceiptVersion e'.2 ≠ keyForSuperStreamReceiptVersion e.2 := by
        intro heq
        apply hnodup.1
        rw [← heq]
        exact List.mem_map.mpr ⟨e', he', rfl⟩
      show kvGet (kvSet db.superStreamReceiptVersions (keyForSuperStreamReceiptVersion e.2)
        ⟨commitVersion, e.1 % 65536⟩) (keyForSuperStreamReceiptVersion e'.2) = none
      rw [kvGet_kvSet_ne _ _ _ _ hne]
      exact hfresh e' (List.mem_cons_of_mem _ he')

theorem StoreInvariant_of_reachable (r : RoomsDatabase) (db : Store) (h : Reachable r db) :
    StoreInvariant db := by
  induction h with
  | init =>
    refine ⟨?_, ?_, ?_, ?_, ?_⟩ <;> simp [emptyStore, kvGet]
  | step db db' commitVersion nowNanos roomID rcs res change _ hcv hsend ih =>
    obtain ⟨-, hw, -, hdb, -⟩ := (SendReceipts_ok_iff r db commitVersion nowNanos roomID rcs
      res db' change).mp hsend
    obtain ⟨hnodup, -, hptr⟩ := hw
    have hkeys : (acceptedWithIndex r 0 rcs).map
        (fun e => keyForSuperStreamReceiptVersion e.2) =
        (rcs.filter (fun rc => (rejectionOf r rc).isNone)).map
          keyForSuperStreamReceiptVersion := by
      rw [← acceptedWithIndex_snd r 0 rcs, List.map_map]
      rfl
    have hfold := StoreInvariant_foldl r.ServerName commitVersion hcv
      (acceptedWithIndex r 0 rcs) db ih (by rw [hkeys]; exact hnodup) (by
        intro e he
        have hmem : keyForSuperStreamReceiptVersion e.2 ∈
            (rcs.filter (fun rc => (rejectionOf r rc).isNone)).map
              keyForSuperStreamReceiptVersion := by
          rw [← hkeys]
          exact List.mem_map.mpr ⟨e, he, rfl⟩
        cases hg : kvGet db.superStreamReceiptVersions
            (keyForSuperStreamReceiptVersion e.2) with
        | none => rfl
        | some v => exact absurd (hptr _ hmem v hg) (ih.2.2.2.2 _ v hg))
    rw [hdb]
    exact hfold

theorem mem_receiptEntries (s : Stream) (key : ReceiptVersionKey)
    (e : (RoomID × Versionstamp) × StreamValue) (he : e ∈ receiptEntries s key) :
    e ∈ s ∧ ∃ userID eventID threadID type data,
      e.2 = .rc userID eventID threadID type data ∧ (e.1.1, userID, type, threadID) = key := by
  unfold receiptEntries at he
  rw [List.mem_filter] at he
  refine ⟨he.1, ?_⟩
  have h2 := he.2
  cases hv : e.2 with
  | ev eventID => rw [hv] at h2; simp at h2
  | rc userID eventID threadID type data =>
    rw [hv] at h2
    simp only [decide_eq_true_eq] at h2
    exact ⟨userID, eventID, threadID, type, data, rfl, h2⟩

theorem receiptEntries_unique (s : Stream) (pointers : List (ReceiptVersionKey × Versionstamp))
    (key : ReceiptVersionKey)
    (hpointer : ∀ x ∈ s, ∀ userID eventID threadID type data,
      x.2 = .rc userID eventID threadID type data →
        kvGet pointers (x.1.1, userID, type, threadID) = some x.1.2)
    (hnodup : (s.map (fun e => e.1)).Nodup) :
    (receiptEntries s key).length ≤ 1 ∧
      ∀ e ∈ receiptEntries s key, kvGet pointers key = some e.1.2 := by
  have hat : ∀ e ∈ receiptEntries s key, kvGet pointers key = some e.1.2 ∧ e.1.1 = key.1 := by
    intro e he
    obtain ⟨hes, userID, eventID, threadID, type, data, hval, hkey⟩ :=
      mem_receiptEntries s key e he
    have := hpointer e hes userID eventID threadID type data hval
    rw [hkey] at this
    exact ⟨this, by rw [← hkey]⟩
  refine ⟨?_, fun e he => (hat e he).1⟩
  cases hg : kvGet pointers key with
  | none =>
    cases hl : receiptEntries s key with
    | nil => simp
    | cons e es =>
      have := (hat e (by rw [hl]; exact List.mem_cons_self _ _)).1
      rw [hg] at this
      exact absurd this (by simp)
  | some v0 =>
    apply length_le_one_of_same_key (receiptEntries s key) (key.1, v0)
    · exact hnodup.sublist ((List.filter_sublist _).map _)
    · intro e he
      obtain ⟨h1, h2⟩ := hat e he
      rw [hg] at h1
      simp only [Option.some.injEq] at h1
      exact Prod.ext h2 h1.symm

/-- Claim C5. In every store state reachable from the empty store by
committed `SendReceipts` transactions, for every `(room, user, type, thread)`
the main super-stream holds at most one receipt entry and the local
super-stream holds at most one, and such an entry sits at the version that
`superStreamReceiptVersions` records for the key. The code reaches this
without ever removing an entry: a `SendReceipts` transaction that commits on a
reachable store accepts only receipts whose key has no stored pointer, so
every key is written once in the life of the store. -/
theorem reachable_one_receipt_entry_per_key (r : RoomsDatabase) (db : Store)
    (h : Reachable r db) (key : ReceiptVersionKey) :
    (receiptEntries db.superStream key).length ≤ 1 ∧
    (receiptEntries db.localSuperStream key).length ≤ 1 ∧
    (∀ e ∈ receiptEntries db.superStream key,
      kvGet db.superStreamReceiptVersions key = some e.1.2) ∧
    (∀ e ∈ receiptEntries db.localSuperStream key,
      kvGet db.superStreamReceiptVersions key = some e.1.2) ∧
    (∀ commitVersion nowNanos roomID rcs res db' change,
      SendReceipts r db commitVersion nowNanos roomID rcs = .ok (res, db', change) →
      ∀ rc ∈ res.Allowed,
        kvGet db.superStreamReceiptVersions (keyForSuperStreamReceiptVersion rc) = none) := by
  obtain ⟨h1, h2, h3, h4, h5⟩ := StoreInvariant_of_reachable r db h
  have hmain := receiptEntries_unique db.superStream db.superStreamReceiptVersions key h1 h3
  have hlocal := receiptEntries_unique db.localSuperStream db.superStreamReceiptVersions key
    h2 h4
  refine ⟨hmain.1, hlocal.1, hmain.2, hlocal.2, ?_⟩
  intro commitVersion nowNanos roomID rcs res db' change hsend rc hrc
  obtain ⟨_, hw, hres, _, _⟩ :=
    (SendReceipts_ok_iff r db commitVersion nowNanos roomID rcs res db' change).mp hsend
  obtain ⟨_, _, hstored⟩ := hw
  rw [hres] at hrc
  cases hk : kvGet db.superStreamReceiptVersions (keyForSuperStreamReceiptVersion rc) with
  | none => rfl
  | some v =>
    exact absurd (hstored _ (List.mem_map.mpr ⟨rc, hrc, rfl⟩) v hk) (h5 _ v hk)

/-- Witness of `reachable_one_receipt_entry_per_key`: the store after the
receipt of `@a:s` at commit 5 and the receipt of `@b:t` at commit 6 is
reachable; it holds the one entry of the key of `@a:s` in both streams, and
the one entry of the key of `@b:t` in the main stream only. -/
theorem reachable_one_receipt_entry_per_key_witness :
    Reachable sampleRooms storeAfterSecondReceipt ∧
    receiptEntries storeAfterSecondReceipt.superStream ("!r:s", "@a:s", "m.read", "") =
      [(("!r:s", ⟨sampleCommit 5, 0⟩), .rc "@a:s" "$a" "" "m.read" [])] ∧
    receiptEntries storeAfterSecondReceipt.localSuperStream ("!r:s", "@a:s", "m.read", "") =
      [(("!r:s", ⟨sampleCommit 5, 0⟩), .rc "@a:s" "$a" "" "m.read" [])] ∧
    receiptEntries storeAfterSecondReceipt.superStream ("!r:s", "@b:t", "m.read", "") =
      [(("!r:s", ⟨sampleCommit 6, 0⟩), .rc "@b:t" "$unknown" "" "m.read" [])] ∧
    receiptEntries storeAfterSecondReceipt.localSuperStream ("!r:s", "@b:t", "m.read", "") =
      [] ∧
    ((receiptEntries storeAfterSecondReceipt.superStream
        ("!r:s", "@a:s", "m.read", "")).length ≤ 1 ∧
    (receiptEntries storeAfterSecondReceipt.localSuperStream
        ("!r:s", "@a:s", "m.read", "")).length ≤ 1 ∧
    (∀ e ∈ receiptEntries storeAfterSecondReceipt.superStream ("!r:s", "@a:s", "m.read", ""),
      kvGet storeAfterSecondReceipt.superStreamReceiptVersions
        ("!r:s", "@a:s", "m.read", "") = some e.1.2) ∧
    (∀ e ∈ receiptEntries storeAfterSecondReceipt.localSuperStream
        ("!r:s", "@a:s", "m.read", ""),
      kvGet storeAfterSecondReceipt.superStreamReceiptVersions
        ("!r:s", "@a:s", "m.read", "") = some e.1.2) ∧
    (∀ commitVersion nowNanos roomID rcs res db' change,
      SendReceipts sampleRooms storeAfterSecondReceipt commitVersion nowNanos roomID rcs =
        .ok (res, db', change) →
      ∀ rc ∈ res.Allowed,
        kvGet storeAfterSecondReceipt.superStreamReceiptVersions
          (keyForSuperStreamReceiptVersion rc) = none)) :=
  have hfirst : Reachable sampleRooms storeAfterFirstReceipt :=
    Reachable.step emptyStore storeAfterFirstReceipt (sampleCommit 5) 50 "!r:s" [rcA]
      ⟨⟨[], [], []⟩, [rcA], []⟩ ⟨[], [], []⟩ Reachable.init (by decide) rfl
  have hreach : Reachable sampleRooms storeAfterSecondReceipt :=
    Reachable.step storeAfterFirstReceipt storeAfterSecondReceipt (sampleCommit 6) 60 "!r:s"
      [rcRemote] ⟨⟨[], [], []⟩, [rcRemote], []⟩ ⟨[], [], []⟩ hfirst (by decide) (by decide)
  ⟨hreach, by decide, by decide, by decide, by decide,
    reachable_one_receipt_entry_per_key sampleRooms storeAfterSecondReceipt hreach
      ("!r:s", "@a:s", "m.read", "")⟩

/-! ## Round trip of versionstamp values -/

theorem unpackLoop_offset_suffix (fuel : Nat) :
    unpackLoop (fuel + 4) [1, 0, 0, 0] = .ok [.bytes [], .null, .null] := by
  simp [unpackLoop, decodeBytes, Except.map]

theorem unpackLoop_versionstamp (fuel : Nat) (v : Versionstamp) (suffix : List Nat)
    (hlen : v.TransactionVersion.length = 10) :
    unpackLoop (fuel + 1) (versionElementBytes v ++ suffix) =
      (unpackLoop fuel suffix).map (fun t => .versionstamp v :: t) := by
  have hdrop : (v.Bytes ++ suffix).drop 10 =
      v.UserVersion / 256 :: v.UserVersion % 256 :: suffix := by
    unfold Versionstamp.Bytes
    rw [List.append_assoc, ← hlen, List.drop_left]
    rfl
  have htake : (v.Bytes ++ suffix).take 10 = v.TransactionVersion := by
    unfold Versionstamp.Bytes
    rw [List.append_assoc, ← hlen, List.take_left]
  have huv : v.UserVersion / 256 * 256 + v.UserVersion % 256 = v.UserVersion := by omega
  simp only [versionElementBytes, List.cons_append, unpackLoop]
  simp only [Nat.reduceEqDiff, if_false, if_true, List.append_eq, hdrop, htake, huv]

/-- Claim C14. For every versionstamp, complete or incomplete (the transaction
version being the ten `0xff` sentinel bytes, with any user version),
`ValueToVersionstamp(VersionstampToValue(v))` returns `v` with no error. -/
theorem ValueToVersionstamp_VersionstampToValue (v : Versionstamp) (hv : v.WF) :
    ValueToVersionstamp (VersionstampToValue v) = .ok v := by
  obtain ⟨hlen, -, -⟩ := hv
  have hblen : (versionElementBytes v).length = 13 := by
    simp [versionElementBytes, Versionstamp.Bytes, hlen]
  unfold ValueToVersionstamp tupleUnpack VersionstampToValue
  by_cases hinc : v.TransactionVersion = incompleteVersion
  · simp only [hinc, if_true]
    have hl : (versionElementBytes v ++ [1, 0, 0, 0]).length + 1 = 13 + 4 + 1 := by
      simp [hblen]
    rw [hl, unpackLoop_versionstamp _ v _ hlen, unpackLoop_offset_suffix]
    rfl
  · simp only [hinc, if_false]
    have hl : (versionElementBytes v).length + 1 = 13 + 1 := by simp [hblen]
    have happ : versionElementBytes v = versionElementBytes v ++ [] := by simp
    rw [hl, happ, unpackLoop_versionstamp _ v _ hlen]
    simp [unpackLoop, Except.map]

/-- Witness of `ValueToVersionstamp_VersionstampToValue`: an incomplete
versionstamp, whose value carries the four offset bytes. -/
theorem ValueToVersionstamp_VersionstampToValue_witness :
    (IncompleteVersionstamp 7).WF ∧
    VersionstampToValue (IncompleteVersionstamp 7) =
      [0x33, 0xff, 0xff, 0xff, 0xff, 0xff, 0xff, 0xff, 0xff, 0xff, 0xff, 0, 7, 1, 0, 0, 0] ∧
    ValueToVersionstamp (VersionstampToValue (IncompleteVersionstamp 7)) =
      .ok (IncompleteVersionstamp 7) :=
  ⟨by decide, by decide,
    ValueToVersionstamp_VersionstampToValue (IncompleteVersionstamp 7) (by decide)⟩

/-! ## Round trip of version maps -/

theorem kvGet_none_of_not_mem {κ ν : Type} [DecidableEq κ] (m : List (κ × ν)) (k : κ)
    (h : k ∉ m.map (fun e => e.1)) : kvGet m k = none := by
  unfold kvGet
  rw [Option.map_eq_none', List.find?_eq_none]
  intro e he
  simp only [decide_eq_true_eq]
  intro hk
  exact h (List.mem_map.mpr ⟨e, he, hk⟩)

theorem mapPut_of_not_mem {κ ν : Type} [DecidableEq κ] (m : List (κ × ν)) (k : κ) (v : ν)
    (h : k ∉ m.map (fun e => e.1)) : mapPut m k v = m ++ [(k, v)] := by
  simp [mapPut, kvGet_none_of_not_mem m k h]

theorem foldl_mapPut_fresh {κ ν μ : Type} [DecidableEq κ] (f : ν → μ) (l : List (κ × ν)) :
    ∀ acc : List (κ × μ), (l.map (fun e => e.1)).Nodup →
      (∀ k ∈ l.map (fun e => e.1), k ∉ acc.map (fun e => e.1)) →
      l.foldl (fun m e => mapPut m e.1 (f e.2)) acc = acc ++ l.map (fun e => (e.1, f e.2)) := by
  induction l with
  | nil => intro acc _ _; simp
  | cons x xs ih =>
    intro acc hnodup hfresh
    simp only [List.map_cons, List.nodup_cons] at hnodup
    simp only [List.foldl_cons, List.map_cons]
    rw [mapPut_of_not_mem acc x.1 (f x.2) (hfresh x.1 (by simp)), ih _ hnodup.2]
    · simp
    · intro k hk
      simp only [List.map_append, List.map_cons, List.map_nil, List.mem_append,
        List.mem_singleton, not_or]
      refine ⟨hfresh k (by simp only [List.map_cons]; exact List.mem_cons_of_mem _ hk), ?_⟩
      intro hkx
      exact hnodup.1 (hkx ▸ hk)

theorem unmarshalVersions_roundtrip (l : VersionMap) :
    ∀ acc : VersionMap, (l.map (fun e => e.1)).Nodup →
      (∀ k ∈ l.map (fun e => e.1), k ∉ acc.map (fun e => e.1)) →
      (∀ e ∈ l, e.2.WF) →
      unmarshalVersions (l.map (fun e => (e.1, VersionstampToValue e.2))) acc =
        .ok (acc ++ l) := by
  induction l with
  | nil => intro acc _ _ _; simp [unmarshalVersions]
  | cons x xs ih =>
    intro acc hnodup hfresh hwf
    simp only [List.map_cons, List.nodup_cons] at hnodup
    simp only [List.map_cons, unmarshalVersions,
      ValueToVersionstamp_VersionstampToValue x.2 (hwf x (List.mem_cons_self _ _))]
    rw [mapPut_of_not_mem acc x.1 x.2 (hfresh x.1 (by simp)), ih _ hnodup.2]
    · simp
    · intro k hk
      simp only [List.map_append, List.map_cons, List.map_nil, List.mem_append,
        List.mem_singleton, not_or]
      refine ⟨hfresh k (by simp only [List.map_cons]; exact List.mem_cons_of_mem _ hk), ?_⟩
      intro hkx
      exact hnodup.1 (hkx ▸ hk)
    · intro e he
      exact hwf e (List.mem_cons_of_mem _ he)

/-- Claim C15. For every `VersionMap` (its keys pairwise different, as in a Go
map, and its values well-formed versionstamps, complete or not),
`UnmarshalMsgpack` applied to the bytes of `MarshalMsgpack`, starting from a
nil or empty map, succeeds and yields the same keys, each with the same
versionstamp. -/
theorem VersionMap_msgpack_roundtrip (vm : VersionMap)
    (hkeys : (vm.map (fun e => e.1)).Nodup) (hwf : ∀ e ∈ vm, e.2.WF) :
    ∃ b, vm.MarshalMsgpack = .ok b ∧ VersionMap.UnmarshalMsgpack [] b = .ok vm := by
  refine ⟨_, rfl, ?_⟩
  unfold VersionMap.UnmarshalMsgpack msgpackMarshal msgpackUnmarshal
  simp only
  rw [foldl_mapPut_fresh VersionstampToValue vm [] hkeys (by simp)]
  simp only [List.nil_append]
  rw [unmarshalVersions_roundtrip vm [] hkeys (by simp) hwf]
  simp

/-- Witness of `VersionMap_msgpack_roundtrip`: a map with the rooms position
and an incomplete versionstamp. -/
theorem VersionMap_msgpack_roundtrip_witness :
    ∃ b, VersionMap.MarshalMsgpack
        [("r", ⟨[0, 0, 0, 0, 0, 0, 0, 0, 0, 5], 65534⟩), ("a", IncompleteVersionstamp 2)] =
          .ok b ∧
      VersionMap.UnmarshalMsgpack [] b =
        .ok [("r", ⟨[0, 0, 0, 0, 0, 0, 0, 0, 0, 5], 65534⟩), ("a", IncompleteVersionstamp 2)] :=
  VersionMap_msgpack_roundtrip
    [("r", ⟨[0, 0, 0, 0, 0, 0, 0, 0, 0, 5], 65534⟩), ("a", IncompleteVersionstamp 2)]
    (by decide) (by decide)

/-! ## The unsigned map of delivered events -/

theorem updateSyncRoom_mem (roomIDToMembership : List (RoomID × MembershipTup))
    (rooms : List (MembershipTup × SyncRoom)) (roomID : RoomID) (f : SyncRoom → SyncRoom)
    (e : MembershipTup × SyncRoom) (he : e ∈ updateSyncRoom roomIDToMembership rooms roomID f) :
    e ∈ rooms ∨ (∃ e' ∈ rooms, e.2 = f e'.2) ∨ e.2 = f ⟨[], [], []⟩ := by
  unfold updateSyncRoom at he
  simp only at he
  cases hg : kvGet rooms ((kvGet roomIDToMembership roomID).getD ⟨"", "", ""⟩) with
  | none =>
    rw [hg] at he
    rcases mem_mapPut _ _ _ _ he with h | h
    · exact Or.inl h
    · exact Or.inr (Or.inr (by rw [h]))
  | some room =>
    rw [hg] at he
    rcases mem_mapPut _ _ _ _ he with h | h
    · exact Or.inl h
    · exact Or.inr (Or.inl ⟨_, kvGet_some_mem _ _ _ hg, by rw [h]⟩)

theorem assembleRooms_delivered (MustGet : EventID → Option Event) (now : Int)
    (roomIDToMembership : List (RoomID × MembershipTup)) (all : List SuperStreamItem)
    (rest : List SuperStreamItem) :
    ∀ rooms rooms' : List (MembershipTup × SyncRoom), (∀ x ∈ rest, x ∈ all) →
      (∀ e ∈ rooms, ∀ ev ∈ e.2.TimelineEvents, DeliveredFrom MustGet now all ev) →
      assembleRooms MustGet now roomIDToMembership rest rooms = .ok rooms' →
      ∀ e ∈ rooms', ∀ ev ∈ e.2.TimelineEvents, DeliveredFrom MustGet now all ev := by
  induction rest with
  | nil =>
    intro rooms rooms' _ hP h
    simp only [assembleRooms, Except.ok.injEq] at h
    rw [← h]; exact hP
  | cons item rest ih =>
    intro rooms rooms' hsub hP h
    have hitem : item ∈ all := hsub item (List.mem_cons_self _ _)
    have hsub' : ∀ x ∈ rest, x ∈ all := fun x hx => hsub x (List.mem_cons_of_mem _ hx)
    rw [assembleRooms] at h
    cases hty : item.Type_ with
    | SuperStreamReceipt =>
      rw [hty] at h
      simp only at h
      cases hrc : item.Receipt with
      | none => rw [hrc] at h; simp at h
      | some rc =>
        rw [hrc] at h
        simp only at h
        refine ih _ rooms' hsub' ?_ h
        intro e he ev hev
        rcases updateSyncRoom_mem _ _ _ _ e he with h1 | ⟨e', he', h1⟩ | h1
        · exact hP e h1 ev hev
        · rw [h1] at hev; exact hP e' he' ev hev
        · rw [h1] at hev; simp at hev
    | SuperStreamEvent =>
      rw [hty] at h
      simp only at h
      cases htup : item.EventIDTup with
      | none => rw [htup] at h; simp at h
      | some evIDTup =>
        rw [htup] at h
        simp only at h
        cases hget : MustGet evIDTup.EventID with
        | none => rw [hget] at h; simp at h
        | some orig =>
          rw [hget] at h
          simp only at h
          refine ih _ rooms' hsub' ?_ h
          have hnew : DeliveredFrom MustGet now all
              { orig with Unsigned :=
                [("age", .int (now - orig.Timestamp)),
                 ("hs.order", .base64 (VersionstampToValue item.Version))] } :=
            ⟨item, hitem, evIDTup, orig, hty, htup, hget, rfl⟩
          intro e he ev hev
          rcases updateSyncRoom_mem _ _ _ _ e he with h1 | ⟨e', he', h1⟩ | h1
          · exact hP e h1 ev hev
          · rw [h1] at hev
            simp only [List.mem_append, List.mem_singleton] at hev
            rcases hev with hev | hev
            · exact hP e' he' ev hev
            · rw [hev]; exact hnew
          · rw [h1] at hev
            simp only [List.nil_append, List.mem_singleton] at hev
            rw [hev]; exact hnew

/-- Claim C16, as amended. For every event delivered by `syncRoomEvents`, the
returned event is the stored event of a kept stream item and its unsigned map
has the key `age` with value `now` minus the event's origin timestamp in
milliseconds and the key `hs.order` with value the base64 encoding of
`VersionstampToValue` of the item's version, the packed tuple value: the type
code `0x33` followed by the twelve versionstamp bytes. -/
theorem syncRoomEvents_unsigned (options : SyncOptions) (latestVersion : Versionstamp)
    (getCurrentMemberships : Except Err Memberships)
    (getMembershipChanges : Versionstamp → Versionstamp → Except Err MembershipChanges)
    (paginate : RoomID → Versionstamp → Versionstamp → Except Err (List SuperStreamItem))
    (MustGet : EventID → Option Event) (now : Int) (next : Versionstamp)
    (rooms : List (MembershipTup × SyncRoom))
    (h : syncRoomEvents options latestVersion getCurrentMemberships getMembershipChanges
      paginate MustGet now = .ok (next, rooms)) :
    ∃ roomIDToMembership items,
      syncRoomItems options latestVersion getCurrentMemberships getMembershipChanges
        paginate = .ok (roomIDToMembership, items, next) ∧
      ∀ e ∈ rooms, ∀ ev ∈ e.2.TimelineEvents,
        DeliveredFrom MustGet now items ev ∧
        ∃ item ∈ items, ∃ orig : Event,
          kvGet ev.Unsigned "age" = some (.int (now - orig.Timestamp)) ∧
          kvGet ev.Unsigned "hs.order" =
            some (.base64 (VersionstampToValue item.Version)) ∧
          (item.Version.TransactionVersion ≠ incompleteVersion →
            VersionstampToValue item.Version = 0x33 :: item.Version.Bytes) := by
  obtain ⟨rm, items, hitems, hasm⟩ := syncRoomEvents_items _ _ _ _ _ _ _ _ _ h
  refine ⟨rm, items, hitems, ?_⟩
  intro e he ev hev
  have hd := assembleRooms_delivered MustGet now rm items items [] rooms (fun _ hx => hx)
    (by simp) hasm e he ev hev
  refine ⟨hd, ?_⟩
  obtain ⟨item, hitem, evIDTup, orig, -, -, -, hev'⟩ := hd
  refine ⟨item, hitem, orig, ?_, ?_, ?_⟩
  · rw [hev']; simp [kvGet]
  · rw [hev']; simp [kvGet]
  · intro hc
    simp [VersionstampToValue, hc, versionElementBytes]

/-- Witness of `syncRoomEvents_unsigned`: the sync of the sample store from
commit 1 at time 2000 delivers `$b` and `$c`, stored with timestamp 1000. -/
theorem syncRoomEvents_unsigned_witness :
    ∃ roomIDToMembership items,
      syncRoomItems ⟨sampleVersion 1 0, 10⟩ (sampleLatest 3)
        (sampleRooms.users.TxnLookupUserMemberships "@a:s")
        (sampleRooms.users.TxnLookupUserMembershipChanges "@a:s")
        (fun roomID fromVersion toVersion =>
          txnPaginateRoomSuperStream sampleStore roomID fromVersion toVersion 10) =
        .ok (roomIDToMembership, items, sampleLatest 3) ∧
      ∀ e ∈ sampleDelivered,
        ∀ ev ∈ e.2.TimelineEvents,
        DeliveredFrom sampleRooms.events.Get 2000 items ev ∧
        ∃ item ∈ items, ∃ orig : Event,
          kvGet ev.Unsigned "age" = some (.int (2000 - orig.Timestamp)) ∧
          kvGet ev.Unsigned "hs.order" =
            some (.base64 (VersionstampToValue item.Version)) ∧
          (item.Version.TransactionVersion ≠ incompleteVersion →
            VersionstampToValue item.Version = 0x33 :: item.Version.Bytes) :=
  syncRoomEvents_unsigned ⟨sampleVersion 1 0, 10⟩ (sampleLatest 3)
    (sampleRooms.users.TxnLookupUserMemberships "@a:s")
    (sampleRooms.users.TxnLookupUserMembershipChanges "@a:s")
    (fun roomID fromVersion toVersion =>
      txnPaginateRoomSuperStream sampleStore roomID fromVersion toVersion 10)
    sampleRooms.events.Get 2000 (sampleLatest 3) sampleDelivered (by decide)

/-- Claim C16 as stated fails on the key and on the value of the order: the
events the sync of the sample store delivers have no unsigned key `hs_order`;
their key is `hs.order`, and its value encodes thirteen bytes, the type code
`0x33` before the twelve bytes of the versionstamp. -/
theorem syncRoomEvents_unsigned_no_hs_order :
    timelineUnsigned (SyncRoomsForUser sampleRooms sampleStore 2000 "@a:s"
        ⟨sampleVersion 2 0, 10⟩) =
      .ok [[[("age", .int 1000),
        ("hs.order", .base64 [0x33, 0, 0, 0, 0, 0, 0, 0, 0, 0, 3, 0, 0])]]] ∧
    kvGet [("age", UnsignedValue.int 1000),
      ("hs.order", UnsignedValue.base64 [0x33, 0, 0, 0, 0, 0, 0, 0, 0, 0, 3, 0, 0])]
        "hs_order" = none ∧
    (sampleVersion 3 0).Bytes = [0, 0, 0, 0, 0, 0, 0, 0, 0, 3, 0, 0] ∧
    [0x33, 0, 0, 0, 0, 0, 0, 0, 0, 0, 3, 0, 0] ≠ (sampleVersion 3 0).Bytes := by
  decide

/-! ## Mirroring into the local super-stream -/

theorem txnAddReceiptToSuperStream_added (serverName : String) (db : Store)
    (mutations mutations' : List Mutation) (rc : Receipt) (u : Nat)
    (h : txnAddReceiptToSuperStream serverName db mutations rc (IncompleteVersionstamp u) =
      .ok mutations') :
    ∃ clears : List Mutation,
      mutations' = mutations ++
        ([.setVersionstampedKey false
            (.versionstamped rc.RoomID (IncompleteVersionstamp u)) (receiptStreamValue rc)] ++
          (if Homeserver rc.UserID = serverName then
            [.setVersionstampedKey true
              (.versionstamped rc.RoomID (IncompleteVersionstamp u)) (receiptStreamValue rc)]
           else []) ++ clears ++
          [.setReceiptVersion (keyForSuperStreamReceiptVersion rc)
            (IncompleteVersionstamp u)]) ∧
      (clears = [] ∨ ∃ v, clears =
        [.clear false (.versionstamped rc.RoomID v),
         .clear true (.versionstamped rc.RoomID v)]) := by
  unfold txnAddReceiptToSuperStream at h
  simp only [keyForSuperStreamRoom_incomplete, keyForLocalSuperStreamRoom_incomplete] at h
  by_cases hl : Homeserver rc.UserID = serverName
  · simp only [hl, if_true] at h ⊢
    cases hg : txnGetReceiptVersion db
        (mutations ++ [Mutation.setVersionstampedKey false
            (StreamKey.versionstamped rc.RoomID (IncompleteVersionstamp u))
            (receiptStreamValue rc)] ++
          [Mutation.setVersionstampedKey true
            (StreamKey.versionstamped rc.RoomID (IncompleteVersionstamp u))
            (receiptStreamValue rc)]) (keyForSuperStreamReceiptVersion rc) with
    | error e => rw [hg] at h; simp at h
    | ok cur =>
      rw [hg] at h
      cases cur with
      | none =>
        simp only [Except.ok.injEq] at h
        exact ⟨[], by rw [← h]; simp, Or.inl rfl⟩
      | some v =>
        by_cases hv : v.TransactionVersion = incompleteVersion
        · simp only [keyForSuperStreamRoom_of_incomplete rc.RoomID v hv,
            Except.ok.injEq] at h
          exact ⟨_, by rw [← h]; simp, Or.inr ⟨v, rfl⟩⟩
        · simp [keyForSuperStreamRoom_complete rc.RoomID v hv] at h
  · simp only [hl, if_false] at h ⊢
    cases hg : txnGetReceiptVersion db
        (mutations ++ [Mutation.setVersionstampedKey false
            (StreamKey.versionstamped rc.RoomID (IncompleteVersionstamp u))
            (receiptStreamValue rc)]) (keyForSuperStreamReceiptVersion rc) with
    | error e => rw [hg] at h; simp at h
    | ok cur =>
      rw [hg] at h
      cases cur with
      | none =>
        simp only [Except.ok.injEq] at h
        exact ⟨[], by rw [← h]; simp, Or.inl rfl⟩
      | some v =>
        by_cases hv : v.TransactionVersion = incompleteVersion
        · simp only [keyForSuperStreamRoom_of_incomplete rc.RoomID v hv,
            Except.ok.injEq] at h
          exact ⟨_, by rw [← h]; simp, Or.inr ⟨v, rfl⟩⟩
        · simp [keyForSuperStreamRoom_complete rc.RoomID v hv] at h

/-- Claim C11. With a versionstamp the store still has to fill in,
`txnAddEventToSuperStream` buffers exactly one write to the super-stream and,
if and only if the homeserver of the event's sender is the configured server
name, one write of the same key and value to the local super-stream; after
the commit the super-stream holds the event at `(room, (commit version, user
version))` and the local super-stream holds the same entry exactly for a
local sender. When `txnAddReceiptToSuperStream` succeeds, what it adds holds
the write to the super-stream, and the write of the same key and value to the
local super-stream if and only if the homeserver of the receipt's user is the
configured server name, with the same effect on the two streams at commit. -/
theorem superStream_mirrors_local (serverName : String) (db x : Store)
    (mutations : List Mutation) (ev : Event) (rc : Receipt) (u : Nat)
    (commitVersion : List Nat) :
    (∃ added, txnAddEventToSuperStream serverName mutations ev (IncompleteVersionstamp u) =
        .ok (mutations ++ added) ∧
      added = [.setVersionstampedKey false
          (.versionstamped ev.RoomID (IncompleteVersionstamp u)) (.ev ev.ID)] ++
        (if Homeserver ev.Sender = serverName then
          [.setVersionstampedKey true
            (.versionstamped ev.RoomID (IncompleteVersionstamp u)) (.ev ev.ID)]
         else []) ∧
      (commit commitVersion x added).superStream =
        kvSet x.superStream (ev.RoomID, ⟨commitVersion, u⟩) (.ev ev.ID) ∧
      (commit commitVersion x added).localSuperStream =
        (if Homeserver ev.Sender = serverName then
          kvSet x.localSuperStream (ev.RoomID, ⟨commitVersion, u⟩) (.ev ev.ID)
         else x.localSuperStream)) ∧
    (∀ mutations',
      txnAddReceiptToSuperStream serverName db mutations rc (IncompleteVersionstamp u) =
        .ok mutations' →
      ∃ added, mutations' = mutations ++ added ∧
        Mutation.setVersionstampedKey false
          (.versionstamped rc.RoomID (IncompleteVersionstamp u)) (receiptStreamValue rc) ∈
            added ∧
        (Mutation.setVersionstampedKey true
          (.versionstamped rc.RoomID (IncompleteVersionstamp u)) (receiptStreamValue rc) ∈
            added ↔ Homeserver rc.UserID = serverName) ∧
        (commit commitVersion x added).superStream =
          kvSet x.superStream (rc.RoomID, ⟨commitVersion, u⟩) (receiptStreamValue rc) ∧
        (commit commitVersion x added).localSuperStream =
          (if Homeserver rc.UserID = serverName then
            kvSet x.localSuperStream (rc.RoomID, ⟨commitVersion, u⟩) (receiptStreamValue rc)
           else x.localSuperStream)) := by
  constructor
  · refine ⟨_, ?_, rfl, ?_, ?_⟩
    · unfold txnAddEventToSuperStream
      simp only [keyForSuperStreamRoom_incomplete, keyForLocalSuperStreamRoom_incomplete]
      by_cases hl : Homeserver ev.Sender = serverName <;> simp [hl]
    · by_cases hl : Homeserver ev.Sender = serverName <;>
        simp [hl, commit, applyMutation, commitStreamKey, IncompleteVersionstamp]
    · by_cases hl : Homeserver ev.Sender = serverName <;>
        simp [hl, commit, applyMutation, commitStreamKey, IncompleteVersionstamp]
  · intro mutations' h
    obtain ⟨clears, hm, hclears⟩ := txnAddReceiptToSuperStream_added serverName db mutations
      mutations' rc u h
    refine ⟨_, hm, ?_, ?_, ?_, ?_⟩
    · simp
    · rcases hclears with hc | ⟨v, hc⟩ <;>
        by_cases hl : Homeserver rc.UserID = serverName <;> simp [hl, hc]
    · rcases hclears with hc | ⟨v, hc⟩ <;>
        by_cases hl : Homeserver rc.UserID = serverName <;>
        simp [hl, hc, commit, applyMutation, commitStreamKey, clearStreamKey,
          IncompleteVersionstamp]
    · rcases hclears with hc | ⟨v, hc⟩ <;>
        by_cases hl : Homeserver rc.UserID = serverName <;>
        simp [hl, hc, commit, applyMutation, commitStreamKey, clearStreamKey,
          IncompleteVersionstamp]

/-- Witness of `superStream_mirrors_local`: the read receipt of the local user
`@a:s` is added on the empty store, and what is added carries the write to
both streams. -/
theorem superStream_mirrors_local_witness :
    ∃ mutations',
      txnAddReceiptToSuperStream "s" emptyStore [] rcA (IncompleteVersionstamp 0) =
        .ok mutations' ∧
      ∃ added, mutations' = [] ++ added ∧
        Mutation.setVersionstampedKey false
          (.versionstamped rcA.RoomID (IncompleteVersionstamp 0)) (receiptStreamValue rcA) ∈
            added ∧
        (Mutation.setVersionstampedKey true
          (.versionstamped rcA.RoomID (IncompleteVersionstamp 0)) (receiptStreamValue rcA) ∈
            added ↔ Homeserver rcA.UserID = "s") ∧
        (commit (sampleCommit 1) emptyStore added).superStream =
          kvSet emptyStore.superStream (rcA.RoomID, ⟨sampleCommit 1, 0⟩)
            (receiptStreamValue rcA) ∧
        (commit (sampleCommit 1) emptyStore added).localSuperStream =
          (if Homeserver rcA.UserID = "s" then
            kvSet emptyStore.localSuperStream (rcA.RoomID, ⟨sampleCommit 1, 0⟩)
              (receiptStreamValue rcA)
           else emptyStore.localSuperStream) :=
  ⟨_, rfl, (superStream_mirrors_local "s" emptyStore emptyStore [] ⟨"$a", "!r:s", "@a:s", 1000, []⟩
    rcA 0 (sampleCommit 1)).2 _ rfl⟩

/-! ## Syncing again from the latest version -/

theorem txnGetRange_inverted (s : Stream) (roomID : RoomID) (fromVersion toVersion : Versionstamp)
    (limit : Nat) (hfrom : fromVersion ≠ ZeroVersionstamp) (hto : toVersion ≠ ZeroVersionstamp)
    (hinv : vlt toVersion fromVersion) :
    txnGetRange s (completeVersionRange fromVersion toVersion roomID) limit = [] := by
  have hF : s.filter (fun e => (completeVersionRange fromVersion toVersion roomID).contains e.1) =
      [] := by
    rw [List.filter_eq_nil_iff]
    intro e _ hc
    rw [KeyRange.contains_iff roomID fromVersion toVersion hfrom hto] at hc
    exact vlt_irrefl _ (vlt_trans hinv (vlt_of_vle_of_vlt hc.2.1 hc.2.2))
  unfold txnGetRange
  simp only [hF, List.insertionSort, List.take_nil, ite_self]

theorem initialRanges_eq (from_ latestVersion : Versionstamp) (memberships : Memberships) :
    ∀ e ∈ initialRanges from_ latestVersion memberships, e.2 = ⟨from_, latestVersion⟩ := by
  unfold initialRanges
  have hgen : ∀ (l : Memberships) (acc : List (MembershipTup × versionRange)),
      (∀ e ∈ acc, e.2 = ⟨from_, latestVersion⟩) →
      ∀ e ∈ l.foldl (fun m e => mapPut m e.2 ⟨from_, latestVersion⟩) acc,
        e.2 = ⟨from_, latestVersion⟩ := by
    intro l
    induction l with
    | nil => intro acc hacc; simpa using hacc
    | cons x xs ih =>
      intro acc hacc
      simp only [List.foldl_cons]
      apply ih
      intro e he
      rcases mem_mapPut _ _ _ _ he with h | h
      · exact hacc e h
      · rw [h]
  exact hgen memberships [] (by simp)

theorem paginateAll_all_empty
    (paginate : RoomID → Versionstamp → Versionstamp → Except Err (List SuperStreamItem))
    (ranges : List (MembershipTup × versionRange))
    (h : ∀ e ∈ ranges, paginate e.1.RoomID e.2.from_ e.2.to_ = .ok []) :
    paginateAll paginate ranges = .ok (ranges.map (fun e => (e.1, []))) := by
  induction ranges with
  | nil => rfl
  | cons x xs ih =>
    obtain ⟨tup, vr⟩ := x
    have hx := h (tup, vr) (List.mem_cons_self _ _)
    simp only at hx
    simp only [paginateAll, hx, ih (fun e he => h e (List.mem_cons_of_mem _ he)),
      List.map_cons]

theorem flatten_empty_pages (l : List (MembershipTup × versionRange)) :
    (List.map (fun memAndEvs : MembershipTup × List SuperStreamItem => memAndEvs.2)
      (List.map (fun e => (e.1, [])) l)).flatten = [] := by
  induction l with
  | nil => rfl
  | cons x xs ih => simp [ih]

theorem selectItems_nil (limit : Nat) (latestVersion : Versionstamp) (hlimit : 1 ≤ limit) :
    selectItems limit latestVersion [] = .ok ([], latestVersion) := by
  have hne : ¬ 0 = limit := by omega
  simp [selectItems, SortVersioners, hne]

/-- Claim C12. When the latest write version `V*` of the store is a commit
version, as every value of the time index is (the database completes it when
the transaction commits), and carries the
user version 65534 that the transaction harness writes, and the membership
change lookup returns only changes inside the range it is asked for,
`SyncRoomsForUser` called with `from = V*` on the unchanged store returns no
rooms and the identical `next_from = V*`, for every limit of at least one:
the bumped `V*` sorts after `V*` and after every version of the same
transaction with a user version up to 65534, so every range is empty. -/
theorem sync_from_latest_returns_nothing (r : RoomsDatabase) (db : Store) (now : Int)
    (userID : UserID) (limit : Nat) (latest : Versionstamp) (memberships : Memberships)
    (hlimit : 1 ≤ limit)
    (hlatest : TxnGetLatestWriteVersion db = .ok latest)
    (hcomplete : latest.TransactionVersion ≠ incompleteVersion)
    (huv : latest.UserVersion = 65534)
    (hmem : r.users.TxnLookupUserMemberships userID = .ok memberships)
    (hchanges : ∀ fromVersion toVersion changes,
      r.users.TxnLookupUserMembershipChanges userID fromVersion toVersion = .ok changes →
        ∀ c ∈ changes, vle fromVersion c.Version ∧ vlt c.Version toVersion) :
    SyncRoomsForUser r db now userID ⟨latest, limit⟩ = .ok (latest, []) ∧
    (∀ w : Versionstamp, w.TransactionVersion = latest.TransactionVersion →
      w.UserVersion ≤ 65534 → vlt w (bumpUserVersion latest)) := by
  have hlt : latest.UserVersion < 65535 := by omega
  have hbump : vlt latest (bumpUserVersion latest) := vlt_bumpUserVersion latest hlt
  have hbz : bumpUserVersion latest ≠ ZeroVersionstamp := bumpUserVersion_ne_zero latest hlt
  have hlz : latest ≠ ZeroVersionstamp := by
    intro h
    rw [h] at huv
    simp [ZeroVersionstamp] at huv
  constructor
  · have hnochanges : (match r.users.TxnLookupUserMembershipChanges userID
        (bumpUserVersion latest) latest with
        | .ok changes => changes
        | .error _ => ([] : MembershipChanges)) = [] := by
      cases hc : r.users.TxnLookupUserMembershipChanges userID (bumpUserVersion latest)
          latest with
      | error e => rfl
      | ok changes =>
        simp only
        rw [List.eq_nil_iff_forall_not_mem]
        intro c hcm
        obtain ⟨h1, h2⟩ := hchanges _ _ _ hc c hcm
        exact vlt_irrefl _ (vlt_trans hbump (vlt_of_vle_of_vlt h1 h2))
    have hpag := paginateAll_all_empty
      (fun roomID fromVersion toVersion =>
        txnPaginateRoomSuperStream db roomID fromVersion toVersion limit)
      (initialRanges (bumpUserVersion latest) latest memberships) (by
        intro e he
        rw [initialRanges_eq _ _ _ e he]
        simp only
        rw [txnPaginateRoomSuperStream_complete db _ (bumpUserVersion latest) latest limit
            hcomplete hcomplete,
          txnGetRange_inverted _ _ _ _ _ hbz hlz hbump, List.map_nil])
    unfold SyncRoomsForUser
    simp only [hlatest]
    unfold syncRoomEvents syncRoomItems
    simp only [hmem, hnochanges, membershipsWithRanges, List.foldl_nil, hpag,
      flatten_empty_pages, selectItems_nil limit latest hlimit, assembleRooms]
  · intro w htv hw
    rw [vlt_iff_of_length (by simp [bumpUserVersion, htv])]
    right
    simp only [bumpUserVersion, htv, true_and]
    omega

/-- Witness of `sync_from_latest_returns_nothing`: the sample store synced
from its latest write version, that of commit 3. -/
theorem sync_from_latest_returns_nothing_witness :
    TxnGetLatestWriteVersion sampleStore = .ok (sampleLatest 3) ∧
    (SyncRoomsForUser sampleRooms sampleStore 2000 "@a:s" ⟨sampleLatest 3, 10⟩ =
      .ok (sampleLatest 3, []) ∧
    (∀ w : Versionstamp, w.TransactionVersion = (sampleLatest 3).TransactionVersion →
      w.UserVersion ≤ 65534 → vlt w (bumpUserVersion (sampleLatest 3)))) :=
  ⟨by decide,
    sync_from_latest_returns_nothing sampleRooms sampleStore 2000 "@a:s" 10 (sampleLatest 3)
      [("!r:s", sampleJoin)] (by decide) (by decide) (by decide) (by decide) (by decide) (by
        intro f t changes h c hc
        simp only [sampleRooms, Except.ok.injEq] at h
        subst h
        simp at hc)⟩

/-! ## The upper bound of the reads of a sync -/

/-- Claim C17 fails on the code for `SyncRoomsForServer`. Its membership
change lookup is called with the zero versionstamp as to-version, not with the
snapshotted latest version: with the latest version snapshotted at commit 2
and a leave of the server logged at commit 4, the lookup returns that leave,
the range of the leave ends at commit 4, and the sync keeps the item of commit
3, above the snapshot. `SyncRoomsForUser`, which passes the to-version on,
keeps only the item of commit 1 on the same data. -/
theorem server_sync_reads_past_latest :
    lateRooms.servers.TxnLookupServerMembershipChanges "t" (bumpUserVersion (sampleLatest 0))
        ZeroVersionstamp = .ok [⟨sampleLeave, sampleVersion 4 0⟩] ∧
    keptVersions (serverSyncItems lateRooms lateStore (sampleLatest 2) "t"
        ⟨sampleLatest 0, 10⟩) =
      .ok [sampleVersion 1 0, sampleVersion 1 0, sampleVersion 3 0] ∧
    vlt (sampleLatest 2) (sampleVersion 3 0) ∧
    keptVersions (userSyncItems lateRooms lateStore (sampleLatest 2) "@b:t"
        ⟨sampleLatest 0, 10⟩) = .ok [sampleVersion 1 0] := by
  decide

/-! ## Failing reads of a sync -/

theorem paginateAll_error_of_mem
    (paginate : RoomID → Versionstamp → Versionstamp → Except Err (List SuperStreamItem))
    (ranges : List (MembershipTup × versionRange))
    (h : ∃ r ∈ ranges, ∃ e, paginate r.1.RoomID r.2.from_ r.2.to_ = .error e) :
    ∃ msg, paginateAll paginate ranges = .error (.panic msg) := by
  induction ranges with
  | nil => obtain ⟨r, hr, _⟩ := h; simp at hr
  | cons x xs ih =>
    obtain ⟨tup, vr⟩ := x
    cases hx : paginate tup.RoomID vr.from_ vr.to_ with
    | error e => exact ⟨"error in paginateRoomSuperStream", by simp only [paginateAll, hx]⟩
    | ok items =>
      obtain ⟨r, hr, e, he⟩ := h
      rcases List.mem_cons.mp hr with h1 | h1
      · subst h1
        rw [hx] at he
        cases he
      · obtain ⟨msg, hmsg⟩ := ih ⟨r, h1, e, he⟩
        exact ⟨msg, by simp only [paginateAll, hx, hmsg]⟩

theorem assembleRooms_error_of_missing (MustGet : EventID → Option Event) (now : Int)
    (roomIDToMembership : List (RoomID × MembershipTup)) (items : List SuperStreamItem) :
    ∀ rooms : List (MembershipTup × SyncRoom),
    (∃ item ∈ items, ∃ evIDTup, item.Type_ = .SuperStreamEvent ∧
      item.EventIDTup = some evIDTup ∧ MustGet evIDTup.EventID = none) →
    ∃ msg, assembleRooms MustGet now roomIDToMembership items rooms = .error (.panic msg) := by
  induction items with
  | nil => intro rooms h; obtain ⟨item, hi, _⟩ := h; simp at hi
  | cons x xs ih =>
    intro rooms h
    obtain ⟨item, hi, t, hty, htup, hget⟩ := h
    cases hxt : x.Type_ with
    | SuperStreamReceipt =>
      cases hrc : x.Receipt with
      | none => exact ⟨"nil pointer dereference", by simp only [assembleRooms, hxt, hrc]⟩
      | some rc =>
        rcases List.mem_cons.mp hi with h1 | h1
        · subst h1
          rw [hxt] at hty
          cases hty
        · obtain ⟨msg, hmsg⟩ := ih _ ⟨item, h1, t, hty, htup, hget⟩
          exact ⟨msg, by simp only [assembleRooms, hxt, hrc]; exact hmsg⟩
    | SuperStreamEvent =>
      cases hev : x.EventIDTup with
      | none => exact ⟨"nil pointer dereference", by simp only [assembleRooms, hxt, hev]⟩
      | some evIDTup =>
        cases hg : MustGet evIDTup.EventID with
        | none => exact ⟨"event not found", by simp only [assembleRooms, hxt, hev, hg]⟩
        | some ev =>
          rcases List.mem_cons.mp hi with h1 | h1
          · subst h1
            rw [hev] at htup
            cases htup
            rw [hg] at hget
            cases hget
          · obtain ⟨msg, hmsg⟩ := ih _ ⟨item, h1, t, hty, htup, hget⟩
            exact ⟨msg, by simp only [assembleRooms, hxt, hev, hg]; exact hmsg⟩

/-- Claim C18 as the code has it. When the memberships read fails,
`syncRoomEvents` returns the error of that read and no rooms; when the
pagination of one of the ranges fails, or an event of a kept item is not
stored at the final fetch, it stops with a panic and returns nothing. -/
theorem syncRoomEvents_stops_on_failed_read (options : SyncOptions)
    (latestVersion : Versionstamp) (getCurrentMemberships : Except Err Memberships)
    (getMembershipChanges : Versionstamp → Versionstamp → Except Err MembershipChanges)
    (paginateRoomSuperStream :
      RoomID → Versionstamp → Versionstamp → Except Err (List SuperStreamItem))
    (MustGet : EventID → Option Event) (now : Int)
    (hfail : SyncReadFails options latestVersion getCurrentMemberships getMembershipChanges
      paginateRoomSuperStream MustGet) :
    ∃ e, syncRoomEvents options latestVersion getCurrentMemberships getMembershipChanges
        paginateRoomSuperStream MustGet now = .error e ∧
      (∀ e', getCurrentMemberships = .error e' → e = e') ∧
      (∀ memberships, getCurrentMemberships = .ok memberships → ∃ msg, e = .panic msg) := by
  rcases hfail with ⟨e, he⟩ | ⟨memberships, hm, hr⟩ | ⟨m, items, next, hitems, hbad⟩
  · refine ⟨e, ?_, ?_, ?_⟩
    · simp only [syncRoomEvents, syncRoomItems, he]
    · intro e' he'
      rw [he] at he'
      cases he'
      rfl
    · intro memberships hm
      rw [he] at hm
      cases hm
  · obtain ⟨msg, hmsg⟩ := paginateAll_error_of_mem paginateRoomSuperStream _ hr
    refine ⟨.panic msg, ?_, ?_, ?_⟩
    · unfold changesOrNone at hmsg
      simp only [syncRoomEvents, syncRoomItems, hm, hmsg]
    · intro e' he'
      rw [hm] at he'
      cases he'
    · intro _ _
      exact ⟨msg, rfl⟩
  · obtain ⟨msg, hmsg⟩ := assembleRooms_error_of_missing MustGet now m items [] hbad
    refine ⟨.panic msg, ?_, ?_, ?_⟩
    · simp only [syncRoomEvents, hitems, hmsg]
    · intro e' he'
      simp only [syncRoomItems, he'] at hitems
      cases hitems
    · intro _ _
      exact ⟨msg, rfl⟩

/-- Witness of `syncRoomEvents_stops_on_failed_read`: a sync whose memberships
read fails with the FoundationDB error 1007. -/
theorem syncRoomEvents_stops_on_failed_read_witness :
    SyncReadFails ⟨sampleLatest 0, 10⟩ (sampleLatest 3) (.error (.fdb 1007))
      (fun _ _ => .ok [])
      (fun roomID fromVersion toVersion =>
        txnPaginateRoomSuperStream sampleStore roomID fromVersion toVersion 10)
      sampleRooms.events.Get ∧
    ∃ e, syncRoomEvents ⟨sampleLatest 0, 10⟩ (sampleLatest 3) (.error (.fdb 1007))
        (fun _ _ => .ok [])
        (fun roomID fromVersion toVersion =>
          txnPaginateRoomSuperStream sampleStore roomID fromVersion toVersion 10)
        sampleRooms.events.Get 2000 = .error e ∧
      (∀ e', (.error (.fdb 1007) : Except Err Memberships) = .error e' → e = e') ∧
      (∀ memberships, (.error (.fdb 1007) : Except Err Memberships) = .ok memberships →
        ∃ msg, e = .panic msg) :=
  ⟨Or.inl ⟨_, rfl⟩,
    syncRoomEvents_stops_on_failed_read ⟨sampleLatest 0, 10⟩ (sampleLatest 3)
      (.error (.fdb 1007)) (fun _ _ => .ok [])
      (fun roomID fromVersion toVersion =>
        txnPaginateRoomSuperStream sampleStore roomID fromVersion toVersion 10)
      sampleRooms.events.Get 2000 (Or.inl ⟨_, rfl⟩)⟩

/-- Claim C18 does not hold as stated. A failing pagination does not make
`syncRoomEvents` return an error: its goroutine panics. And a failing
membership changes read is not looked at: the sync goes on without changes and
returns the rooms computed from the other reads. -/
theorem syncRoomEvents_failed_read_not_returned :
    syncRoomEvents ⟨sampleLatest 0, 10⟩ (sampleLatest 3) (.ok [("!r:s", sampleJoin)])
        (fun _ _ => .ok []) (fun _ _ _ => .error (.fdb 1007))
        sampleRooms.events.Get 2000 = .error (.panic "error in paginateRoomSuperStream") ∧
    timelineIDs (syncRoomEvents ⟨sampleLatest 0, 10⟩ (sampleLatest 3)
        (.ok [("!r:s", sampleJoin)]) (fun _ _ => .error (.fdb 1007))
        (fun roomID fromVersion toVersion =>
          txnPaginateRoomSuperStream sampleStore roomID fromVersion toVersion 10)
        sampleRooms.events.Get 2000) = .ok [["$a", "$b", "$c"]] := by
  decide

/-! ## Initial sync -/

theorem mustGetAll_ok (MustGet : EventID → Option Event) (ids : List EventID)
    (h : ∀ evID ∈ ids, ∃ ev, MustGet evID = some ev) :
    ∃ evs, mustGetAll MustGet ids = .ok evs ∧ evs.length = ids.length ∧
      ∀ ev, ev ∈ evs ↔ ∃ evID ∈ ids, MustGet evID = some ev := by
  induction ids with
  | nil => exact ⟨[], rfl, rfl, by simp⟩
  | cons x xs ih =>
    obtain ⟨ev, hev⟩ := h x (List.mem_cons_self _ _)
    obtain ⟨evs, hevs, hlen, hmem⟩ := ih (fun evID hx => h evID (List.mem_cons_of_mem _ hx))
    refine ⟨ev :: evs, by simp only [mustGetAll, hev, hevs], by simp [hlen], ?_⟩
    intro ev'
    simp only [List.mem_cons, hmem, exists_eq_or_imp, hev, Option.some.injEq]
    constructor
    · rintro (h1 | h1)
      · exact Or.inl h1.symm
      · exact Or.inr h1
    · rintro (h1 | h1)
      · exact Or.inl h1.symm
      · exact Or.inr h1

theorem GetCurrentRoomStateEvents_ok (r : RoomsDatabase)
    (SortEventList : List Event → List Event) (roomID : RoomID)
    (hsort : ∀ l, (SortEventList l).Perm l) (hstate : StateReadable r roomID) :
    ∃ evs, GetCurrentRoomStateEvents r SortEventList roomID = .ok evs ∧
      IsCurrentState r roomID evs := by
  obtain ⟨stateMap, memberMap, hs, hm, hget⟩ := hstate
  obtain ⟨evs, hevs, hlen, hmem⟩ := mustGetAll_ok r.events.Get _ hget
  refine ⟨SortEventList evs, by simp only [GetCurrentRoomStateEvents, hs, hm, hevs],
    stateMap, memberMap, hs, hm, ?_, ?_⟩
  · rw [(hsort evs).length_eq, hlen]
    simp
  · intro ev
    rw [(hsort evs).mem_iff, hmem]

theorem TxnGetCurrentReceiptsForRoom_mem (db : Store) (roomID : RoomID) (rType : String) :
    ∃ rcs, TxnGetCurrentReceiptsForRoom db roomID rType = .ok rcs ∧
      ∀ rc, rc ∈ rcs ↔
        KeyValueForReceipt rc ∈ db.receipts ∧ rc.RoomID = roomID ∧ rc.Type_ = rType := by
  refine ⟨_, rfl, ?_⟩
  intro rc
  rw [List.mem_map]
  constructor
  · rintro ⟨kv, hkv, rfl⟩
    rw [(List.perm_insertionSort _ _).mem_iff, List.mem_filter, decide_eq_true_eq] at hkv
    exact hkv
  · intro h
    refine ⟨KeyValueForReceipt rc, ?_, rfl⟩
    rw [(List.perm_insertionSort _ _).mem_iff, List.mem_filter, decide_eq_true_eq]
    exact h

theorem kvGet_map_of_nodup {α κ ν : Type} [DecidableEq κ] (g : α → κ) (f : α → ν)
    (l : List α) (hnodup : (l.map g).Nodup) (a : α) (ha : a ∈ l) :
    kvGet (l.map (fun e => (g e, f e))) (g a) = some (f a) := by
  induction l with
  | nil => simp at ha
  | cons x xs ih =>
    simp only [List.map_cons, List.nodup_cons] at hnodup
    rcases List.mem_cons.mp ha with h1 | h1
    · subst h1
      simp [kvGet]
    · have hne : g x ≠ g a := by
        intro h
        exact hnodup.1 (h ▸ List.mem_map_of_mem g h1)
      have := ih hnodup.2 h1
      unfold kvGet at this ⊢
      simp only [List.map_cons, List.find?_cons, hne, decide_False]
      exact this

theorem initRooms_ok (r : RoomsDatabase) (SortEventList : List Event → List Event)
    (db : Store) (hsort : ∀ l, (SortEventList l).Perm l) (memberships : Memberships)
    (hstate : ∀ e ∈ memberships, StateReadable r e.1) :
    ∃ rooms : RoomID → SyncRoom,
      initRooms r SortEventList db memberships =
        .ok (memberships.map (fun e => (e.2, rooms e.1))) ∧
      ∀ e ∈ memberships, IsCurrentState r e.1 (rooms e.1).StateEvents ∧
        (rooms e.1).TimelineEvents = [] ∧
        ∀ rc, rc ∈ (rooms e.1).Receipts ↔
          KeyValueForReceipt rc ∈ db.receipts ∧ rc.RoomID = e.1 ∧ rc.Type_ = ReceiptTypeRead := by
  refine ⟨fun roomID =>
    ⟨match GetCurrentRoomStateEvents r SortEventList roomID with
      | .ok evs => evs
      | .error _ => [], [],
     match TxnGetCurrentReceiptsForRoom db roomID ReceiptTypeRead with
      | .ok rcs => rcs
      | .error _ => []⟩, ?_, ?_⟩
  · induction memberships with
    | nil => rfl
    | cons x xs ih =>
      obtain ⟨roomID, tup⟩ := x
      obtain ⟨evs, hevs, _⟩ := GetCurrentRoomStateEvents_ok r SortEventList roomID hsort
        (hstate (roomID, tup) (List.mem_cons_self _ _))
      obtain ⟨rcs, hrcs, _⟩ := TxnGetCurrentReceiptsForRoom_mem db roomID ReceiptTypeRead
      simp only [initRooms, hevs, hrcs, ih (fun e he => hstate e (List.mem_cons_of_mem _ he)),
        List.map_cons]
  · intro e he
    obtain ⟨evs, hevs, hcur⟩ := GetCurrentRoomStateEvents_ok r SortEventList e.1 hsort
      (hstate e he)
    obtain ⟨rcs, hrcs, hmem⟩ := TxnGetCurrentReceiptsForRoom_mem db e.1 ReceiptTypeRead
    simp only [hevs, hrcs]
    exact ⟨hcur, trivial, hmem⟩

/-- Claim C13. When the state of every room of the user can be read,
`InitRoomsForUser` returns the latest write version read together with the
memberships, and a result map with exactly one `SyncRoom` per current
membership: its state events are the stored events of the room's general
state map and member state map, it has no timeline events, and its receipts
are the entries of the receipts directory of that room of type `m.read`. -/
theorem InitRoomsForUser_current_state (r : RoomsDatabase)
    (SortEventList : List Event → List Event) (db : Store) (userID : UserID)
    (latest : Versionstamp) (memberships : Memberships)
    (hsort : ∀ l, (SortEventList l).Perm l)
    (hlatest : TxnGetLatestWriteVersion db = .ok latest)
    (hmem : r.users.TxnLookupUserMemberships userID = .ok memberships)
    (hdistinct : (memberships.map (fun e => e.2)).Nodup)
    (hstate : ∀ e ∈ memberships, StateReadable r e.1) :
    ∃ rooms, InitRoomsForUser r SortEventList db userID = .ok (latest, rooms) ∧
      rooms.map (fun e => e.1) = memberships.map (fun e => e.2) ∧
      ∀ e ∈ memberships, ∃ room, kvGet rooms e.2 = some room ∧
        IsCurrentState r e.1 room.StateEvents ∧ room.TimelineEvents = [] ∧
        ∀ rc, rc ∈ room.Receipts ↔
          KeyValueForReceipt rc ∈ db.receipts ∧ rc.RoomID = e.1 ∧ rc.Type_ = "m.read" := by
  obtain ⟨rooms, hinit, hrooms⟩ := initRooms_ok r SortEventList db hsort memberships hstate
  have hfold := foldl_mapPut_fresh (fun room : SyncRoom => room)
    (memberships.map (fun e => (e.2, rooms e.1))) []
    (by simpa [List.map_map, Function.comp_def] using hdistinct) (by simp)
  simp only [List.nil_append, List.map_map, Function.comp_def] at hfold
  refine ⟨memberships.map (fun e => (e.2, rooms e.1)), ?_, ?_, ?_⟩
  · simp only [InitRoomsForUser, hlatest, hmem, hinit, hfold, List.map_map,
      Function.comp_def]
  · simp [List.map_map, Function.comp_def]
  · intro e he
    exact ⟨rooms e.1,
      kvGet_map_of_nodup (fun e : RoomID × MembershipTup => e.2) (fun e => rooms e.1)
        memberships hdistinct e he,
      hrooms e he⟩

/-- Witness of `InitRoomsForUser_current_state`: the initial sync of `@a:s`
on the store that holds its read receipt. -/
theorem InitRoomsForUser_current_state_witness :
    ∃ rooms, InitRoomsForUser initRoomsSample (fun l => l) storeAfterFirstReceipt "@a:s" =
        .ok (⟨sampleCommit 5, 65534⟩, rooms) ∧
      rooms.map (fun e => e.1) =
        ([("!r:s", sampleJoin)] : Memberships).map (fun e => e.2) ∧
      ∀ e ∈ ([("!r:s", sampleJoin)] : Memberships), ∃ room, kvGet rooms e.2 = some room ∧
        IsCurrentState initRoomsSample e.1 room.StateEvents ∧ room.TimelineEvents = [] ∧
        ∀ rc, rc ∈ room.Receipts ↔
          KeyValueForReceipt rc ∈ storeAfterFirstReceipt.receipts ∧ rc.RoomID = e.1 ∧
            rc.Type_ = "m.read" :=
  InitRoomsForUser_current_state initRoomsSample (fun l => l) storeAfterFirstReceipt "@a:s"
    ⟨sampleCommit 5, 65534⟩ [("!r:s", sampleJoin)] (fun _ => List.Perm.refl _) (by decide)
    (by decide) (by decide) (by
      intro e he
      simp only [List.mem_singleton] at he
      subst he
      exact ⟨[("m.room.create", "$a")], [("@a:s", "$b")], rfl, rfl,
        fun evID _ => ⟨_, rfl⟩⟩)

/-! ## The federation sender and the server positions -/

theorem sendEventsLoop_calls_prefix (r : RoomsDatabase)
    (sendTransactionToServer : String → Versionstamp → List Event → Except Err Unit)
    (checkUpdateLock : Store → Except Err Unit) (now : Int) (serverName : String)
    (commits : List (List Nat × Nat)) :
    ∀ (db : Store) (serverVersions : VersionMap) (sent : Bool) (calls : List SenderCall),
      ∃ more, (sendEventsLoop r sendTransactionToServer checkUpdateLock now serverName commits
        db serverVersions sent calls).calls = calls ++ more := by
  induction commits with
  | nil =>
    intro db serverVersions sent calls
    rw [sendEventsLoop]
    cases hs : SyncRoomsForServer r db now serverName
        ⟨(kvGet serverVersions RoomsVersionKey).getD ZeroVersionstamp, 50⟩ with
    | error e => cases e <;> exact ⟨[], by simp⟩
    | ok res =>
      obtain ⟨nextVersion, events⟩ := res
      simp only
      by_cases hn : nextVersion = (kvGet serverVersions RoomsVersionKey).getD ZeroVersionstamp
      · rw [if_pos hn]
        exact ⟨[], by simp⟩
      · rw [if_neg hn]
        by_cases hl : (events.flatMap
            (fun evs => evs.2.StateEvents ++ evs.2.TimelineEvents)).length > 0
        · simp only [hl, if_true]
          cases sendTransactionToServer serverName
              ((kvGet serverVersions RoomsVersionKey).getD ZeroVersionstamp)
              (events.flatMap (fun evs => evs.2.StateEvents ++ evs.2.TimelineEvents)) with
          | error e => exact ⟨_, rfl⟩
          | ok u => exact ⟨_, rfl⟩
        · simp only [hl, if_false]
          exact ⟨[], by simp⟩
  | cons c rest ih =>
    intro db serverVersions sent calls
    obtain ⟨commitVersion, nowNanos⟩ := c
    rw [sendEventsLoop]
    cases hs : SyncRoomsForServer r db now serverName
        ⟨(kvGet serverVersions RoomsVersionKey).getD ZeroVersionstamp, 50⟩ with
    | error e => cases e <;> exact ⟨[], by simp⟩
    | ok res =>
      obtain ⟨nextVersion, events⟩ := res
      simp only
      by_cases hn : nextVersion = (kvGet serverVersions RoomsVersionKey).getD ZeroVersionstamp
      · rw [if_pos hn]
        exact ⟨[], by simp⟩
      · rw [if_neg hn]
        cases hu : UpdateServerPositions db commitVersion nowNanos serverName
            (mapPut serverVersions RoomsVersionKey nextVersion) checkUpdateLock with
        | mk err db' =>
        by_cases hl : (events.flatMap
            (fun evs => evs.2.StateEvents ++ evs.2.TimelineEvents)).length > 0
        · simp only [hl, if_true]
          cases sendTransactionToServer serverName
              ((kvGet serverVersions RoomsVersionKey).getD ZeroVersionstamp)
              (events.flatMap (fun evs => evs.2.StateEvents ++ evs.2.TimelineEvents)) with
          | error e => exact ⟨_, rfl⟩
          | ok u =>
            cases err with
            | some e => exact ⟨_, List.append_assoc _ _ _⟩
            | none =>
              obtain ⟨more, hmore⟩ := ih db' (mapPut serverVersions RoomsVersionKey nextVersion)
                true ((calls ++ [SenderCall.send
                  ((kvGet serverVersions RoomsVersionKey).getD ZeroVersionstamp)
                  (events.flatMap (fun evs => evs.2.StateEvents ++ evs.2.TimelineEvents))]) ++
                  [.update (mapPut serverVersions RoomsVersionKey nextVersion)])
              exact ⟨_, by rw [hmore, List.append_assoc, List.append_assoc]⟩
        · simp only [hl, if_false]
          cases err with
          | some e => exact ⟨_, rfl⟩
          | none =>
            obtain ⟨more, hmore⟩ := ih db' (mapPut serverVersions RoomsVersionKey nextVersion)
              true (calls ++ [.update (mapPut serverVersions RoomsVersionKey nextVersion)])
            exact ⟨_, by rw [hmore, List.append_assoc]⟩

/-- Claim C20. `UpdateServerPositions` runs `checkUpdateLock` on the write
transaction before it sets the position key: when the check fails, the error
of the check is returned, nothing is committed, and the store with the stored
position of the server is unchanged; when the check passes, the position key
holds the marshalled versions after the commit. -/
theorem UpdateServerPositions_checks_lock (db : Store) (commitVersion : List Nat)
    (nowNanos : Nat) (serverName : String) (versions : VersionMap)
    (checkUpdateLock : Store → Except Err Unit) :
    (∀ e, checkUpdateLock db = .error e →
      UpdateServerPositions db commitVersion nowNanos serverName versions checkUpdateLock =
        (some e, db) ∧
      GetServerPositions
        (UpdateServerPositions db commitVersion nowNanos serverName versions checkUpdateLock).2
        serverName = GetServerPositions db serverName) ∧
    (checkUpdateLock db = .ok () →
      ∃ data, VersionMap.MarshalMsgpack versions = .ok data ∧
        (UpdateServerPositions db commitVersion nowNanos serverName versions
          checkUpdateLock).1 = none ∧
        kvGet (UpdateServerPositions db commitVersion nowNanos serverName versions
          checkUpdateLock).2.serverPositions serverName = some data) := by
  constructor
  · intro e he
    have h : UpdateServerPositions db commitVersion nowNanos serverName versions
        checkUpdateLock = (some e, db) := by
      simp only [UpdateServerPositions, VersionMap.MarshalMsgpack, he, DoWriteTransaction]
    exact ⟨h, by rw [h]⟩
  · intro hok
    refine ⟨_, rfl, ?_, ?_⟩
    · simp only [UpdateServerPositions, VersionMap.MarshalMsgpack, hok, DoWriteTransaction]
    · simp only [UpdateServerPositions, VersionMap.MarshalMsgpack, hok, DoWriteTransaction,
        commit, List.foldl_cons, List.foldl_nil, List.cons_append, List.nil_append,
        applyMutation, kvGet_kvSet_self]

/-- Witness of `UpdateServerPositions_checks_lock`: an update of the position
of server `t` on the sample store while the lock is owned by another process. -/
theorem UpdateServerPositions_checks_lock_witness :
    lockOwnedByOther sampleStore = .error (.other "lock owned by another process") ∧
    UpdateServerPositions sampleStore (sampleCommit 4) 4 "t" [(RoomsVersionKey, sampleLatest 3)]
        lockOwnedByOther = (some (.other "lock owned by another process"), sampleStore) ∧
    GetServerPositions
      (UpdateServerPositions sampleStore (sampleCommit 4) 4 "t"
        [(RoomsVersionKey, sampleLatest 3)] lockOwnedByOther).2 "t" =
      GetServerPositions sampleStore "t" :=
  ⟨rfl, (UpdateServerPositions_checks_lock sampleStore (sampleCommit 4) 4 "t"
    [(RoomsVersionKey, sampleLatest 3)] lockOwnedByOther).1 _ rfl⟩

/-- Claim C19. When the sync from the stored position of a server returns a
new position and a batch with events, and `sendTransactionToServer` fails for
that batch, `sendEventsToServer` returns after that one call: it does not call
`UpdateServerPositions`, the store and the stored position are unchanged, and
the next attempt on that store, whatever its send and lock check do, starts
by sending the same batch from the same position. -/
theorem sendEventsToServer_failed_send_keeps_position (r : RoomsDatabase)
    (sendTransactionToServer : String → Versionstamp → List Event → Except Err Unit)
    (checkUpdateLock : Store → Except Err Unit) (now : Int) (serverName : String)
    (commits : List (List Nat × Nat)) (db : Store) (positions : Option VersionMap)
    (nextVersion : Versionstamp) (events : List (MembershipTup × SyncRoom)) (e : Err)
    (hpos : GetServerPositions db serverName = .ok positions)
    (hsync : SyncRoomsForServer r db now serverName ⟨storedRoomsVersion positions, 50⟩ =
      .ok (nextVersion, events))
    (hnext : nextVersion ≠ storedRoomsVersion positions)
    (hevs : batchOf events ≠ [])
    (hsend : sendTransactionToServer serverName (storedRoomsVersion positions)
      (batchOf events) = .error e) :
    sendEventsToServer r sendTransactionToServer checkUpdateLock now serverName commits db =
      ⟨true, db, [.send (storedRoomsVersion positions) (batchOf events)], .returned⟩ ∧
    GetServerPositions
      (sendEventsToServer r sendTransactionToServer checkUpdateLock now serverName commits
        db).db serverName = .ok positions ∧
    (∀ (send' : String → Versionstamp → List Event → Except Err Unit)
      (check' : Store → Except Err Unit) (commits' : List (List Nat × Nat)),
      (sendEventsToServer r send' check' now serverName commits' db).calls.head? =
        some (.send (storedRoomsVersion positions) (batchOf events))) := by
  have hlen : (events.flatMap
      (fun evs => evs.2.StateEvents ++ evs.2.TimelineEvents)).length > 0 := by
    have := List.length_pos.mpr hevs
    simpa [batchOf] using this
  have hrun : sendEventsToServer r sendTransactionToServer checkUpdateLock now serverName
      commits db =
      ⟨true, db, [.send (storedRoomsVersion positions) (batchOf events)], .returned⟩ := by
    unfold sendEventsToServer
    simp only [hpos]
    rw [sendEventsLoop]
    simp only [storedRoomsVersion, batchOf] at hsync hnext hsend ⊢
    simp only [hsync, if_neg hnext, hlen, if_true, hsend, List.nil_append]
  refine ⟨hrun, by rw [hrun]; exact hpos, ?_⟩
  intro send' check' commits'
  unfold sendEventsToServer
  simp only [hpos]
  rw [sendEventsLoop]
  simp only [storedRoomsVersion, batchOf] at hsync hnext ⊢
  simp only [hsync, if_neg hnext, hlen, if_true, List.nil_append]
  cases send' serverName ((kvGet (positions.getD []) RoomsVersionKey).getD ZeroVersionstamp)
      (events.flatMap (fun evs => evs.2.StateEvents ++ evs.2.TimelineEvents)) with
  | error e' => rfl
  | ok u =>
    cases commits' with
    | nil => rfl
    | cons c rest =>
      obtain ⟨commitVersion, nowNanos⟩ := c
      simp only
      cases hu : UpdateServerPositions db commitVersion nowNanos serverName
          (mapPut (positions.getD []) RoomsVersionKey nextVersion) check' with
      | mk err db' =>
        cases err with
        | some e' => rfl
        | none =>
          obtain ⟨more, hmore⟩ := sendEventsLoop_calls_prefix r send' check' now serverName
            rest db' (mapPut (positions.getD []) RoomsVersionKey nextVersion) true
            ([SenderCall.send ((kvGet (positions.getD []) RoomsVersionKey).getD ZeroVersionstamp)
              (events.flatMap (fun evs => evs.2.StateEvents ++ evs.2.TimelineEvents))] ++
              [.update (mapPut (positions.getD []) RoomsVersionKey nextVersion)])
          simp only [List.cons_append, List.nil_append] at hmore ⊢
          simp only [hmore, List.head?_cons]

/-- Witness of `sendEventsToServer_failed_send_keeps_position`: server `t` has
no stored position, the sync of the sample store gives it three events, and
the network send fails. -/
theorem sendEventsToServer_failed_send_keeps_position_witness :
    sendEventsToServer sampleRooms failingSend (fun _ => .ok ()) 2000 "t"
        [(sampleCommit 4, 4)] sampleStore =
      ⟨true, sampleStore, [.send (storedRoomsVersion none) (batchOf sampleServerEvents)],
        .returned⟩ ∧
    GetServerPositions
      (sendEventsToServer sampleRooms failingSend (fun _ => .ok ()) 2000 "t"
        [(sampleCommit 4, 4)] sampleStore).db "t" = .ok none ∧
    (∀ (send' : String → Versionstamp → List Event → Except Err Unit)
      (check' : Store → Except Err Unit) (commits' : List (List Nat × Nat)),
      (sendEventsToServer sampleRooms send' check' 2000 "t" commits' sampleStore).calls.head? =
        some (.send (storedRoomsVersion none) (batchOf sampleServerEvents))) :=
  sendEventsToServer_failed_send_keeps_position sampleRooms failingSend (fun _ => .ok ()) 2000
    "t" [(sampleCommit 4, 4)] sampleStore none (sampleLatest 3) sampleServerEvents
    (.other "connection refused") (by decide) (by decide) (by decide) (by decide) rfl

/-! ## The truncation step at limit zero -/

/-- Claim C28 fails on the code at limit zero. With `limit = 0` the kept slice
is empty and its length equals the limit, so `items[len(items)-1]` reads index
`-1` and panics, whatever the items are: `syncRoomEvents` does not return
`next_from = V*`, neither on the sample store nor on a store without items.
With a limit of at least one and no items it does return `V*`. -/
theorem selectItems_limit_zero_panics :
    (∀ (latestVersion : Versionstamp) (allItems : List SuperStreamItem),
      selectItems 0 latestVersion allItems = .error (.panic "index out of range [-1]")) ∧
    SyncRoomsForUser sampleRooms sampleStore 2000 "@a:s" ⟨sampleLatest 0, 0⟩ =
      .error (.panic "index out of range [-1]") ∧
    SyncRoomsForUser sampleRooms { sampleStore with superStream := [] } 2000 "@a:s"
        ⟨sampleLatest 0, 0⟩ = .error (.panic "index out of range [-1]") ∧
    SyncRoomsForUser sampleRooms { sampleStore with superStream := [] } 2000 "@a:s"
        ⟨sampleLatest 0, 1⟩ = .ok (sampleLatest 3, []) := by
  refine ⟨?_, by decide, by decide, by decide⟩
  intro latestVersion allItems
  simp [selectItems, MinInt]

/-! ## Items returned twice -/

/-- Claim C26 fails on the code. With the current membership `leave` and the
change log "join at commit 1, leave at commit 3", the ranges of the sync hold
two entries for room `!r:s`, the leave with `(from, v3)` and the join with
`(v1, V*)`; both are paginated, and the items of commits 1 and 2 are kept
twice: the keys of the kept items are not pairwise distinct and the timeline
of the room holds `$m2` twice. -/
theorem sync_join_then_leave_keeps_items_twice :
    keptKeys (userSyncItems leaveRooms leaveStore (sampleLatest 4) "@b:s"
        ⟨sampleLatest 0, 10⟩) =
      .ok [("!r:s", sampleVersion 1 0), ("!r:s", sampleVersion 1 0),
        ("!r:s", sampleVersion 2 0), ("!r:s", sampleVersion 2 0),
        ("!r:s", sampleVersion 3 0), ("!r:s", sampleVersion 4 0)] ∧
    ¬ [("!r:s", sampleVersion 1 0), ("!r:s", sampleVersion 1 0),
        ("!r:s", sampleVersion 2 0), ("!r:s", sampleVersion 2 0),
        ("!r:s", sampleVersion 3 0), ("!r:s", sampleVersion 4 0)].Nodup ∧
    (timelineIDs (SyncRoomsForUser leaveRooms leaveStore 2000 "@b:s"
        ⟨sampleLatest 0, 10⟩)).map (fun rooms => rooms.map (fun ids => ids.count "$m2")) =
      .ok [2] := by
  decide

/-! ## The sync response -/

/-- Claim C24 fails on the code. `NewSyncFromRooms` leaves `DeviceLists` nil,
so when no room is in any of the four sections `IsEmpty` goes on to read
`s.DeviceLists.Changed` and panics: for the empty rooms map, and for a map
whose only membership is a ban, it does not return. For no rooms map at all
does `IsEmpty` return true; with a room in a section it returns false. -/
theorem IsEmpty_of_NewSyncFromRooms_never_true :
    (NewSyncFromRooms []).IsEmpty =
      .error (.panic "invalid memory address or nil pointer dereference") ∧
    (NewSyncFromRooms [(⟨"$ban", "!r:s", "ban"⟩, ⟨[], [], []⟩)]).IsEmpty =
      .error (.panic "invalid memory address or nil pointer dereference") ∧
    (NewSyncFromRooms [(sampleJoin, ⟨[], [], []⟩)]).IsEmpty = .ok false ∧
    (∀ rooms : List (MembershipTup × SyncRoom), (NewSyncFromRooms rooms).IsEmpty ≠ .ok true) := by
  refine ⟨by decide, by decide, by decide, ?_⟩
  intro rooms
  simp only [NewSyncFromRooms, Sync.IsEmpty]
  split_ifs <;> simp

/-- Claim C29 fails on the code. `prepareForJSON` merges the maps `Leave`,
`Invite` and `Knock` into the map `Join` itself, so in the JSON of a sync
whose only room has the membership `leave`, that room is under `rooms.join`
as well as under `rooms.leave`: the keys of `Join` before and after differ. -/
theorem MarshalJSON_puts_left_room_under_join :
    (NewSyncFromRooms [(sampleLeave, ⟨[], [], []⟩)]).Rooms.map
        (fun rooms => rooms.Join.map (fun e => e.1)) = some [] ∧
    (NewSyncFromRooms [(sampleLeave, ⟨[], [], []⟩)]).MarshalJSON =
      .ok ⟨["!r:s"], ["!r:s"], [], []⟩ ∧
    sampleLeave.Membership = MembershipLeave := by
  decide

/-! ## The sender loop -/

theorem consecutiveNoSends_append (pre : List Bool) (sent : Bool) :
    consecutiveNoSends (pre ++ [sent]) = trySend sent (consecutiveNoSends pre) := by
  unfold consecutiveNoSends trySend
  cases sent <;> simp [List.takeWhile]

theorem take_append_cons_length {α : Type} (pre rest : List α) (x : α) :
    (pre ++ x :: rest).take (pre.length + 1) = pre ++ [x] := by
  rw [List.take_append_eq_append_take]
  simp

theorem sendEventsToServerLoopRounds_iff (rest : List Bool) :
    ∀ (pre : List Bool) (n c : Nat), consecutiveNoSends pre < 10 →
      (sendEventsToServerLoopRounds rest (consecutiveNoSends pre) pre.length = some (n, c) ↔
        pre.length < n ∧ n ≤ pre.length + rest.length ∧ c = 10 ∧
        consecutiveNoSends ((pre ++ rest).take n) = 10 ∧
        ∀ m, pre.length < m → m < n → consecutiveNoSends ((pre ++ rest).take m) < 10) := by
  induction rest with
  | nil =>
    intro pre n c _
    simp only [sendEventsToServerLoopRounds, List.length_nil, Nat.add_zero]
    constructor
    · intro h; cases h
    · rintro ⟨h1, h2, _⟩; omega
  | cons x rest ih =>
    intro pre n c hpre
    have hstep := consecutiveNoSends_append pre x
    have htake := take_append_cons_length pre rest x
    have hle : trySend x (consecutiveNoSends pre) ≤ 10 := by
      unfold trySend; split <;> omega
    simp only [sendEventsToServerLoopRounds]
    by_cases hge : trySend x (consecutiveNoSends pre) ≥ 10
    · rw [if_pos hge]
      have heq : trySend x (consecutiveNoSends pre) = 10 := by omega
      constructor
      · intro h
        simp only [Option.some.injEq, Prod.mk.injEq] at h
        obtain ⟨h1, h2⟩ := h
        subst h1
        refine ⟨by omega, by simp, by omega, ?_, ?_⟩
        · rw [htake, hstep, heq]
        · intro m h1 h2; omega
      · rintro ⟨h1, h2, h3, h4, h5⟩
        have hn : n = pre.length + 1 := by
          by_contra hne
          have := h5 (pre.length + 1) (by omega) (by omega)
          rw [htake, hstep, heq] at this
          omega
        simp only [Option.some.injEq, Prod.mk.injEq]
        omega
    · rw [if_neg hge]
      have hlt : consecutiveNoSends (pre ++ [x]) < 10 := by rw [hstep]; omega
      have := ih (pre ++ [x]) n c hlt
      rw [hstep] at this
      simp only [List.length_append, List.length_singleton, List.append_assoc,
        List.singleton_append] at this
      rw [this]
      simp only [List.length_cons]
      constructor
      · rintro ⟨h1, h2, h3, h4, h5⟩
        refine ⟨by omega, by omega, h3, h4, ?_⟩
        intro m hm1 hm2
        by_cases hm : m = pre.length + 1
        · rw [hm, htake, hstep]; omega
        · exact h5 m (by omega) hm2
      · rintro ⟨h1, h2, h3, h4, h5⟩
        have hn : n ≠ pre.length + 1 := by
          intro hn
          rw [hn, htake, hstep] at h4
          omega
        exact ⟨by omega, by omega, h3, h4, fun m hm1 hm2 => h5 m (by omega) hm2⟩

/-- Claim C21. Without cancellation `sendEventsToServerLoop` returns after
its `n`-th call of `sendEventsToServer`, the first call included, exactly
when `n` is the first number of calls after which the last ten calls in a row
reported no send: the counter, which every call that reports a send puts back
to zero, is then ten, and it was below ten after every smaller number of
calls. -/
theorem sendEventsToServerLoop_returns_at_ten (polls : List Bool) (n c : Nat) :
    sendEventsToServerLoop polls = some (n, c) ↔
      n ≤ polls.length ∧ c = 10 ∧ consecutiveNoSends (polls.take n) = 10 ∧
      ∀ m, m < n → consecutiveNoSends (polls.take m) < 10 := by
  cases polls with
  | nil =>
    simp only [sendEventsToServerLoop, List.length_nil, List.take_nil]
    constructor
    · intro h; cases h
    · rintro ⟨_, _, h, _⟩
      simp [consecutiveNoSends] at h
  | cons x rest =>
    have h1 : consecutiveNoSends [x] = trySend x 0 := by
      have := consecutiveNoSends_append [] x
      simpa [consecutiveNoSends] using this
    have hlt : consecutiveNoSends [x] < 10 := by
      rw [h1]; unfold trySend; split <;> omega
    have := sendEventsToServerLoopRounds_iff rest [x] n c hlt
    rw [h1] at this
    simp only [List.length_singleton, List.singleton_append] at this
    simp only [sendEventsToServerLoop, this, List.length_cons]
    constructor
    · rintro ⟨h2, h3, h4, h5, h6⟩
      refine ⟨by omega, h4, h5, ?_⟩
      intro m hm
      by_cases hm1 : 1 < m
      · exact h6 m hm1 hm
      · have : m = 0 ∨ m = 1 := by omega
        rcases this with rfl | rfl
        · simp [consecutiveNoSends]
        · simpa using hlt
    · rintro ⟨h2, h3, h4, h5⟩
      have hn : 1 < n := by
        by_contra hn
        have : n = 0 ∨ n = 1 := by omega
        rcases this with rfl | rfl
        · simp [consecutiveNoSends] at h4
        · simp only [List.take_succ_cons, List.take_zero] at h4
          omega
      exact ⟨hn, by omega, h3, h4, fun m _ hm => h5 m hm⟩

/-! ## Tokens and users of the accounts database -/

theorem foldl_preserves {σ β : Type} (P : σ → Prop) (step : σ → β → σ)
    (hstep : ∀ st b, P st → P (step st b)) (l : List β) :
    ∀ init, P init → P (l.foldl step init) := by
  induction l with
  | nil => intro init h; exact h
  | cons x xs ih => intro init h; exact ih _ (hstep _ _ h)

theorem TxnClearUserDeviceTokens_keeps_tokens (db : AccountsStore) (userID : UserID)
    (deviceID : DeviceID) (token : String) :
    kvGet (TxnClearUserDeviceTokens db userID deviceID).authTokens (.string token) =
        kvGet db.authTokens (.string token) ∧
      kvGet (TxnClearUserDeviceTokens db userID deviceID).refreshTokens (.string token) =
        kvGet db.refreshTokens (.string token) := by
  unfold TxnClearUserDeviceTokens
  apply foldl_preserves (fun st : AccountsStore =>
    kvGet st.authTokens (.string token) = kvGet db.authTokens (.string token) ∧
    kvGet st.refreshTokens (.string token) = kvGet db.refreshTokens (.string token))
  · intro st kv h
    refine ⟨?_, h.2⟩
    simp only
    rw [kvGet_kvClear_ne _ _ _ (by simp)]
    exact h.1
  · apply foldl_preserves (fun st : AccountsStore =>
      kvGet st.authTokens (.string token) = kvGet db.authTokens (.string token) ∧
      kvGet st.refreshTokens (.string token) = kvGet db.refreshTokens (.string token))
    · intro st kv h
      refine ⟨h.1, ?_⟩
      simp only
      rw [kvGet_kvClear_ne _ _ _ (by simp)]
      exact h.2
    · exact ⟨rfl, rfl⟩

/-- Claim C22 fails on the code. `TxnClearUserDeviceTokens` clears the key
packed from the value of the index entry, an empty byte string, instead of
the token of the index key, so no entry of `authTokens` or `refreshTokens` is
ever cleared: after the second `TxnCreateNewTokensForUserDevice` for `@a:s`
and device `DEV`, the first access token `A1` is still found by
`TxnGetAuthTokenTup`, still authenticates as that user and device, and the
first refresh token `R1` is still stored. -/
theorem old_tokens_survive_new_tokens :
    (∀ (db : AccountsStore) (userID : UserID) (deviceID : DeviceID) (token : String),
      TxnGetAuthTokenTup (TxnClearUserDeviceTokens db userID deviceID) token =
        TxnGetAuthTokenTup db token) ∧
    TxnGetAuthTokenTup accountsAfterTwoLogins "A1" = some ⟨"@a:s", "DEV", 0⟩ ∧
    GetUserDeviceForAuthToken accountsAfterTwoLogins 3000 "A1" = .ok ⟨"@a:s", "DEV"⟩ ∧
    GetUserDeviceForAuthToken accountsAfterTwoLogins 3000 "A2" = .ok ⟨"@a:s", "DEV"⟩ ∧
    kvGet accountsAfterTwoLogins.refreshTokens (.string "R1") = some ⟨"@a:s", "DEV"⟩ := by
  refine ⟨?_, by decide, by decide, by decide, by decide⟩
  intro db userID deviceID token
  exact (TxnClearUserDeviceTokens_keeps_tokens db userID deviceID token).1

/-- Claim C30. `TxnCreateUser` on a username that has a stored record returns
`ErrUserAlreadyExists` without a write, and `RegisterWithPassword` then
returns that error with no token in the response and leaves the whole
accounts database as it was: the user record, the password hash, the tokens
and the devices. On a username without a record `TxnCreateUser` succeeds and
`TxnGetLocalUser` on the result returns the created user. -/
theorem TxnCreateUser_existing_changes_nothing (env : RegisterEnv) (db : AccountsStore)
    (user : User) (hashedPassword : Option (List Nat)) (hash : List Nat)
    (withRefreshToken : Bool) (deviceID : DeviceID) (initialDeviceDisplayName : String) :
    (∀ existing, kvGet db.byUsername user.Username = some existing →
      TxnCreateUser db user hashedPassword = .error .ErrUserAlreadyExists ∧
      (env.hashedPassword = .ok hash →
        ∃ resp, RegisterWithPassword env db user.Username withRefreshToken deviceID
            initialDeviceDisplayName = ((resp, some .ErrUserAlreadyExists), db) ∧
          resp.AccessToken = "" ∧ resp.RefreshToken = "")) ∧
    (kvGet db.byUsername user.Username = none →
      ∃ db', TxnCreateUser db user hashedPassword = .ok db' ∧
        TxnGetLocalUser db' user.Username user.ServerName = .ok user) := by
  constructor
  · intro existing hex
    have hcreate : ∀ (u : User) (h : Option (List Nat)), u.Username = user.Username →
        TxnCreateUser db u h = .error .ErrUserAlreadyExists := by
      intro u h hu
      simp only [TxnCreateUser, hu, hex]
    refine ⟨hcreate user hashedPassword rfl, ?_⟩
    intro hhash
    refine ⟨⟨if deviceID = "" then env.randomDeviceID else deviceID, "", ""⟩, ?_, rfl, rfl⟩
    simp only [RegisterWithPassword, hhash, DoAccountsWriteTransaction,
      hcreate ⟨user.Username, env.ServerName, "", env.now⟩ (some hash) rfl]
  · intro hnone
    have hex : ∃ db', TxnCreateUser db user hashedPassword = .ok db' := by
      cases hashedPassword <;> simp [TxnCreateUser, hnone]
    obtain ⟨db', hdb'⟩ := hex
    have hget : kvGet db'.byUsername user.Username = some user.ToMsgpack := by
      cases hashedPassword <;>
        simp only [TxnCreateUser, hnone, Except.ok.injEq] at hdb' <;>
        subst hdb' <;>
        simp only [TxnSetLocalUserPasswordHash, kvGet_kvSet_self]
    exact ⟨db', hdb', by
      simp only [TxnGetLocalUser, hget, MustNewUserFromBytes, User.ToMsgpack]⟩

/-- Witness of `TxnCreateUser_existing_changes_nothing`: a second
registration of `alice`, and the first registration of `bob`. -/
theorem TxnCreateUser_existing_changes_nothing_witness :
    (∃ resp, RegisterWithPassword sampleRegisterEnv accountsWithAlice "alice" true "" "phone" =
        ((resp, some .ErrUserAlreadyExists), accountsWithAlice) ∧
      resp.AccessToken = "" ∧ resp.RefreshToken = "") ∧
    (∃ db', TxnCreateUser accountsWithAlice ⟨"bob", "s", "", 5000⟩ (some [1]) = .ok db' ∧
      TxnGetLocalUser db' "bob" "s" = .ok ⟨"bob", "s", "", 5000⟩) :=
  ⟨((TxnCreateUser_existing_changes_nothing sampleRegisterEnv accountsWithAlice
      ⟨"alice", "s", "", 5000⟩ (some [1]) [36, 50, 97] true "" "phone").1 ⟨"", 1000⟩
      (by decide)).2 rfl,
    (TxnCreateUser_existing_changes_nothing sampleRegisterEnv accountsWithAlice
      ⟨"bob", "s", "", 5000⟩ (some [1]) [36, 50, 97] true "" "phone").2 (by decide)⟩

/-! ## Media round trip -/

/-- Claim C23. For every `Media` value `m` and all key parts,
`NewMediaFromBytes` on the marshalled `m` succeeds and returns `m` with
`ServerName` and `MediaID` set to the key parts: `StoreKey`, `StorePath`,
`Size`, `ContentType`, `Sender` and the two times are those of `m`, also
where `omitempty` left a zero field out. With the key parts of `m` itself
the result is `m`, and so for the media `NewMedia` builds. -/
theorem NewMediaFromBytes_MarshalMsgpack (m : Media) (serverName mediaID : String) :
    NewMediaFromBytes m.MarshalMsgpack serverName mediaID =
      .ok { m with ServerName := serverName, MediaID := mediaID } ∧
    NewMediaFromBytes m.MarshalMsgpack m.ServerName m.MediaID = .ok m ∧
    (∀ (now : Int) (storeKey : String) (sender : UserID),
      NewMediaFromBytes (NewMedia now serverName mediaID storeKey sender).MarshalMsgpack
        serverName mediaID = .ok (NewMedia now serverName mediaID storeKey sender)) := by
  have key : ∀ (m : Media) (serverName mediaID : String),
      NewMediaFromBytes m.MarshalMsgpack serverName mediaID =
        .ok { m with ServerName := serverName, MediaID := mediaID } := by
    intro m serverName mediaID
    by_cases h1 : m.Size = 0 <;> by_cases h2 : m.ContentType = "" <;>
      by_cases h3 : m.UploadedAt = 0 <;>
      simp [NewMediaFromBytes, Media.MarshalMsgpack, Media.UnmarshalMsgpack,
        Media.decodeField, h1, h2, h3]
  exact ⟨key m serverName mediaID, key m m.ServerName m.MediaID,
    fun now storeKey sender => key _ serverName mediaID⟩

/-! ## The sender on a store without new items -/

theorem kvGet_mapPut_self {κ ν : Type} [DecidableEq κ] (m : List (κ × ν)) (k : κ) (v : ν) :
    kvGet (mapPut m k v) k = some v := by
  unfold mapPut
  split_ifs with h
  · unfold kvGet at h ⊢
    induction m with
    | nil => simp at h
    | cons x xs ih =>
      by_cases hx : x.1 = k
      · simp [List.find?_cons, hx]
      · simp only [List.find?_cons, hx, decide_False] at h
        simp only [List.map_cons, hx, if_false, List.find?_cons, decide_False]
        exact ih h
  · unfold kvGet
    rw [List.find?_append]
    have hnone : m.find? (fun e => decide (e.1 = k)) = none := by
      unfold kvGet at h
      cases hf : m.find? (fun e => decide (e.1 = k)) with
      | none => rfl
      | some e => rw [hf] at h; simp at h
    simp [hnone]

theorem latest_foldl_some (l : List (Nat × Versionstamp)) (b : Nat × Versionstamp)
    (h : ∀ e ∈ l, e.1 ≤ b.1) :
    l.foldl (fun best e =>
      match best with
      | none => some e
      | some b => if b.1 < e.1 then some e else some b) (some b) = some b := by
  induction l with
  | nil => rfl
  | cons x xs ih =>
    have hx : ¬ b.1 < x.1 := by
      have := h x (List.mem_cons_self _ _)
      omega
    simp only [List.foldl_cons, hx, if_false]
    exact ih (fun e he => h e (List.mem_cons_of_mem _ he))

theorem TxnGetLatestWriteVersion_kvSet (db : Store) (n : Nat) (v : Versionstamp)
    (ttv : List (Nat × Versionstamp)) (httv : ttv = kvSet db.ttv n v)
    (h : ∀ e ∈ db.ttv, e.1 ≤ n) (db' : Store) (hdb' : db'.ttv = ttv) :
    TxnGetLatestWriteVersion db' = .ok v := by
  unfold TxnGetLatestWriteVersion
  rw [hdb', httv]
  unfold kvSet
  simp only [List.foldl_cons]
  rw [latest_foldl_some _ (n, v)]
  intro e he
  unfold kvClear at he
  exact h e (List.mem_of_mem_filter he)

theorem membershipsWithRanges_complete (from_ latestVersion : Versionstamp)
    (memberships : Memberships) (changes : MembershipChanges)
    (hfrom : from_.TransactionVersion ≠ incompleteVersion)
    (hlatest : latestVersion.TransactionVersion ≠ incompleteVersion)
    (hchanges : ∀ c ∈ changes, c.Version.TransactionVersion ≠ incompleteVersion) :
    ∀ e ∈ membershipsWithRanges from_ latestVersion memberships changes,
      e.2.from_.TransactionVersion ≠ incompleteVersion ∧
        e.2.to_.TransactionVersion ≠ incompleteVersion := by
  unfold membershipsWithRanges
  have hgen : ∀ (l : MembershipChanges) (acc : List (MembershipTup × versionRange)),
      (∀ c ∈ l, c.Version.TransactionVersion ≠ incompleteVersion) →
      (∀ e ∈ acc, e.2.from_.TransactionVersion ≠ incompleteVersion ∧
        e.2.to_.TransactionVersion ≠ incompleteVersion) →
      ∀ e ∈ l.foldl (applyMembershipChange from_ latestVersion) acc,
        e.2.from_.TransactionVersion ≠ incompleteVersion ∧
          e.2.to_.TransactionVersion ≠ incompleteVersion := by
    intro l
    induction l with
    | nil => intro acc _ hacc; simpa using hacc
    | cons x xs ih =>
      intro acc hl hacc
      simp only [List.foldl_cons]
      apply ih _ (fun c hc => hl c (List.mem_cons_of_mem _ hc))
      have hx := hl x (List.mem_cons_self _ _)
      have hv : (match kvGet acc x.MembershipTup with
          | some r => r
          | none => (⟨from_, latestVersion⟩ : versionRange)).from_.TransactionVersion ≠
            incompleteVersion ∧
          (match kvGet acc x.MembershipTup with
          | some r => r
          | none => (⟨from_, latestVersion⟩ : versionRange)).to_.TransactionVersion ≠
            incompleteVersion := by
        cases hk : kvGet acc x.MembershipTup with
        | none => exact ⟨hfrom, hlatest⟩
        | some r => exact hacc _ (kvGet_some_mem _ _ _ hk)
      intro e he
      unfold applyMembershipChange at he
      split_ifs at he
      · rcases mem_mapPut _ _ _ _ he with h | h
        · exact hacc e h
        · rw [h]; exact ⟨hx, hv.2⟩
      · rcases mem_mapPut _ _ _ _ he with h | h
        · exact hacc e h
        · rw [h]; exact ⟨hv.1, hx⟩
  apply hgen changes _ hchanges
  intro e he
  rw [initialRanges_eq _ _ _ e he]
  exact ⟨hfrom, hlatest⟩

theorem SyncRoomsForServer_no_items (r : RoomsDatabase) (db : Store) (now : Int)
    (serverName : String) (fromVersion latest : Versionstamp) (limit : Nat)
    (memberships : Memberships) (hlimit : 1 ≤ limit)
    (hlatest : TxnGetLatestWriteVersion db = .ok latest)
    (hfromc : fromVersion.TransactionVersion ≠ incompleteVersion)
    (hlatestc : latest.TransactionVersion ≠ incompleteVersion)
    (hstream : db.localSuperStream = [])
    (hmem : r.servers.TxnLookupServerMemberships serverName = .ok memberships)
    (hchanges : ∀ fromVersion toVersion changes,
      r.servers.TxnLookupServerMembershipChanges serverName fromVersion toVersion =
        .ok changes → ∀ c ∈ changes, c.Version.TransactionVersion ≠ incompleteVersion) :
    SyncRoomsForServer r db now serverName ⟨fromVersion, limit⟩ = .ok (latest, []) := by
  have hpag : ∀ ranges : List (MembershipTup × versionRange),
      (∀ e ∈ ranges, e.2.from_.TransactionVersion ≠ incompleteVersion ∧
        e.2.to_.TransactionVersion ≠ incompleteVersion) →
      paginateAll (fun roomID fromVersion toVersion =>
        txnPaginateRoomLocalSuperStream db roomID fromVersion toVersion limit) ranges =
        .ok (ranges.map (fun e => (e.1, []))) := by
    intro ranges hr
    apply paginateAll_all_empty
    intro e he
    rw [txnPaginateRoomLocalSuperStream_complete db _ _ _ limit (hr e he).1 (hr e he).2]
    simp [hstream, txnGetRange]
  have hcs : ∀ c ∈ (match r.servers.TxnLookupServerMembershipChanges serverName
      (bumpUserVersion fromVersion) ZeroVersionstamp with
      | .ok changes => changes
      | .error _ => ([] : MembershipChanges)),
      c.Version.TransactionVersion ≠ incompleteVersion := by
    cases hc : r.servers.TxnLookupServerMembershipChanges serverName
        (bumpUserVersion fromVersion) ZeroVersionstamp with
    | error e => intro c hcm; simp at hcm
    | ok changes => exact hchanges _ _ _ hc
  have hranges := membershipsWithRanges_complete (bumpUserVersion fromVersion) latest
    memberships _ hfromc hlatestc hcs
  unfold SyncRoomsForServer
  simp only [hlatest]
  unfold syncRoomEvents syncRoomItems
  simp only [hmem, hpag _ hranges, flatten_empty_pages, selectItems_nil limit latest hlimit,
    assembleRooms]

theorem UpdateServerPositions_ok (db : Store) (commitVersion : List Nat) (nowNanos : Nat)
    (serverName : String) (versions : VersionMap) (checkUpdateLock : Store → Except Err Unit)
    (hcheck : checkUpdateLock db = .ok ()) :
    ∃ db', UpdateServerPositions db commitVersion nowNanos serverName versions
        checkUpdateLock = (none, db') ∧
      db'.ttv = kvSet db.ttv nowNanos (Versionstamp.mk commitVersion 65534) ∧
      db'.localSuperStream = db.localSuperStream := by
  refine ⟨(UpdateServerPositions db commitVersion nowNanos serverName versions
    checkUpdateLock).2, ?_, ?_, ?_⟩
  · simp only [UpdateServerPositions, VersionMap.MarshalMsgpack, hcheck, DoWriteTransaction]
  · simp [UpdateServerPositions, VersionMap.MarshalMsgpack, hcheck, DoWriteTransaction,
      commit, applyMutation, IncompleteVersionstamp]
  · simp [UpdateServerPositions, VersionMap.MarshalMsgpack, hcheck, DoWriteTransaction,
      commit, applyMutation]

theorem sendEventsLoop_never_returns (r : RoomsDatabase)
    (sendTransactionToServer : String → Versionstamp → List Event → Except Err Unit)
    (checkUpdateLock : Store → Except Err Unit) (now : Int) (serverName : String)
    (memberships : Memberships)
    (hmem : r.servers.TxnLookupServerMemberships serverName = .ok memberships)
    (hchanges : ∀ fromVersion toVersion changes,
      r.servers.TxnLookupServerMembershipChanges serverName fromVersion toVersion =
        .ok changes → ∀ c ∈ changes, c.Version.TransactionVersion ≠ incompleteVersion)
    (hcheck : ∀ db, checkUpdateLock db = .ok ())
    (commits : List (List Nat × Nat)) :
    ∀ (db : Store) (serverVersions : VersionMap) (sent : Bool) (calls : List SenderCall)
      (bound : Nat) (latest : Versionstamp),
      (∀ e ∈ db.ttv, e.1 ≤ bound) → TxnGetLatestWriteVersion db = .ok latest →
      latest.TransactionVersion ≠ incompleteVersion →
      ((kvGet serverVersions RoomsVersionKey).getD ZeroVersionstamp).TransactionVersion ≠
        incompleteVersion →
      db.localSuperStream = [] →
      (kvGet serverVersions RoomsVersionKey).getD ZeroVersionstamp ≠ latest →
      FreshCommits bound latest commits →
      (sendEventsLoop r sendTransactionToServer checkUpdateLock now serverName commits db
        serverVersions sent calls).ending = .cut ∧
      ∃ updates, (sendEventsLoop r sendTransactionToServer checkUpdateLock now serverName commits
        db serverVersions sent calls).calls = calls ++ updates ∧
        updates.length = commits.length ∧ ∀ c ∈ updates, ∃ versions, c = .update versions := by
  induction commits with
  | nil =>
    intro db serverVersions sent calls bound latest _ hlatest hlc hpc hstream hne _
    have hsync := SyncRoomsForServer_no_items r db now serverName
      ((kvGet serverVersions RoomsVersionKey).getD ZeroVersionstamp) latest 50 memberships
      (by omega) hlatest hpc hlc hstream hmem hchanges
    rw [sendEventsLoop]
    simp only [hsync, if_neg (Ne.symm hne), List.flatMap_nil, List.length_nil,
      gt_iff_lt, Nat.lt_irrefl, if_false]
    exact ⟨trivial, [], by simp, rfl, by simp⟩
  | cons c rest ih =>
    intro db serverVersions sent calls bound latest hbound hlatest hlc hpc hstream hne hfresh
    obtain ⟨commitVersion, nowNanos⟩ := c
    obtain ⟨hb, hcc, hcv, hrest⟩ := hfresh
    have hsync := SyncRoomsForServer_no_items r db now serverName
      ((kvGet serverVersions RoomsVersionKey).getD ZeroVersionstamp) latest 50 memberships
      (by omega) hlatest hpc hlc hstream hmem hchanges
    obtain ⟨db', hupd, httv, hls⟩ := UpdateServerPositions_ok db commitVersion nowNanos
      serverName (mapPut serverVersions RoomsVersionKey latest) checkUpdateLock (hcheck db)
    have hlatest' : TxnGetLatestWriteVersion db' = .ok (Versionstamp.mk commitVersion 65534) :=
      TxnGetLatestWriteVersion_kvSet db nowNanos _ _ rfl
        (fun e he => by have := hbound e he; omega) db' httv
    have hbound' : ∀ e ∈ db'.ttv, e.1 ≤ nowNanos := by
      intro e he
      rw [httv, mem_kvSet] at he
      rcases he with rfl | ⟨he, _⟩
      · exact Nat.le_refl _
      · have := hbound e he; omega
    have hne' : (kvGet (mapPut serverVersions RoomsVersionKey latest) RoomsVersionKey).getD
        ZeroVersionstamp ≠ Versionstamp.mk commitVersion 65534 := by
      rw [kvGet_mapPut_self]
      exact fun h => hcv h.symm
    obtain ⟨hend, updates, hcalls, hlen, hall⟩ := ih db'
      (mapPut serverVersions RoomsVersionKey latest) true
      (calls ++ [.update (mapPut serverVersions RoomsVersionKey latest)]) nowNanos
      (Versionstamp.mk commitVersion 65534) hbound' hlatest' hcc
      (by rw [kvGet_mapPut_self]; exact hlc) (by rw [hls, hstream]) hne' hrest
    rw [sendEventsLoop]
    simp only [hsync, if_neg (Ne.symm hne), List.flatMap_nil, List.length_nil,
      gt_iff_lt, Nat.lt_irrefl, if_false, hupd]
    refine ⟨hend, .update (mapPut serverVersions RoomsVersionKey latest) :: updates, ?_, ?_, ?_⟩
    · rw [hcalls]; simp
    · simp [hlen]
    · intro c hc
      rcases List.mem_cons.mp hc with rfl | hc
      · exact ⟨_, rfl⟩
      · exact hall c hc

/-- Claim C27 fails on the code. With the lock held, no item in the local
super-stream, no other writer and all stored versions commit versions,
`sendEventsToServer` never meets
`nextVersion == roomsVersion` once the stored position differs from the
latest write version: every round syncs up to the latest write version,
stores it with `UpdateServerPositions`, and that commit writes a newer time
index entry, which is the latest write version of the next round. Whatever
number of commits the store hands out, the run makes one position update per
commit, sends nothing, and is still in its loop after the last of them. -/
theorem sendEventsToServer_never_returns (r : RoomsDatabase)
    (sendTransactionToServer : String → Versionstamp → List Event → Except Err Unit)
    (checkUpdateLock : Store → Except Err Unit) (now : Int) (serverName : String)
    (commits : List (List Nat × Nat)) (db : Store) (positions : Option VersionMap)
    (memberships : Memberships) (bound : Nat) (latest : Versionstamp)
    (hpos : GetServerPositions db serverName = .ok positions)
    (hmem : r.servers.TxnLookupServerMemberships serverName = .ok memberships)
    (hchanges : ∀ fromVersion toVersion changes,
      r.servers.TxnLookupServerMembershipChanges serverName fromVersion toVersion =
        .ok changes → ∀ c ∈ changes, c.Version.TransactionVersion ≠ incompleteVersion)
    (hcheck : ∀ db, checkUpdateLock db = .ok ())
    (hbound : ∀ e ∈ db.ttv, e.1 ≤ bound)
    (hlatest : TxnGetLatestWriteVersion db = .ok latest)
    (hlatestc : latest.TransactionVersion ≠ incompleteVersion)
    (hposc : (storedRoomsVersion positions).TransactionVersion ≠ incompleteVersion)
    (hstream : db.localSuperStream = [])
    (hne : storedRoomsVersion positions ≠ latest)
    (hfresh : FreshCommits bound latest commits) :
    (sendEventsToServer r sendTransactionToServer checkUpdateLock now serverName commits
      db).ending = .cut ∧
    ∃ updates, (sendEventsToServer r sendTransactionToServer checkUpdateLock now serverName
        commits db).calls = updates ∧
      updates.length = commits.length ∧ ∀ c ∈ updates, ∃ versions, c = .update versions := by
  unfold sendEventsToServer
  simp only [hpos]
  obtain ⟨hend, updates, hcalls, hlen, hall⟩ := sendEventsLoop_never_returns r
    sendTransactionToServer checkUpdateLock now serverName memberships hmem hchanges hcheck
    commits db (positions.getD []) false [] bound latest hbound hlatest hlatestc hposc hstream
    hne hfresh
  exact ⟨hend, updates, by simpa using hcalls, hlen, hall⟩

/-- Witness of `sendEventsToServer_never_returns`: server `t` without stored
position on a store whose only write so far is commit 3, run for three
commits. -/
theorem sendEventsToServer_never_returns_witness :
    (sendEventsToServer sampleRooms failingSend (fun _ => .ok ()) 2000 "t"
      [(sampleCommit 4, 4), (sampleCommit 5, 5), (sampleCommit 6, 6)]
      { sampleStore with localSuperStream := [] }).ending = .cut ∧
    ∃ updates, (sendEventsToServer sampleRooms failingSend (fun _ => .ok ()) 2000 "t"
        [(sampleCommit 4, 4), (sampleCommit 5, 5), (sampleCommit 6, 6)]
        { sampleStore with localSuperStream := [] }).calls = updates ∧
      updates.length = [(sampleCommit 4, 4), (sampleCommit 5, 5), (sampleCommit 6, 6)].length ∧
      ∀ c ∈ updates, ∃ versions, c = .update versions :=
  sendEventsToServer_never_returns sampleRooms failingSend (fun _ => .ok ()) 2000 "t"
    [(sampleCommit 4, 4), (sampleCommit 5, 5), (sampleCommit 6, 6)]
    { sampleStore with localSuperStream := [] } none [("!r:s", sampleJoin)] 3 (sampleLatest 3)
    (by decide) (by decide)
    (by
      intro f t changes h c hc
      simp only [sampleRooms, Except.ok.injEq] at h
      subst h
      simp at hc)
    (fun _ => rfl) (by decide) (by decide) (by decide) (by decide) rfl (by decide)
    (by simp only [FreshCommits]; decide)

/-! ## Chained syncs lose nothing -/

theorem valueToSuperStreamItem_Version (roomID : RoomID) (version : Versionstamp)
    (value : StreamValue) : (valueToSuperStreamItem roomID version value).Version = version := by
  cases value <;> rfl

theorem selectItems_of_lt (limit : Nat) (latestVersion : Versionstamp)
    (allItems : List SuperStreamItem) (h : allItems.length < limit) :
    selectItems limit latestVersion allItems = .ok (SortVersioners allItems, latestVersion) := by
  have hlen : (SortVersioners allItems).length = allItems.length :=
    (SortVersioners_perm allItems).length_eq
  have hmin : min limit allItems.length = allItems.length := by omega
  have htake : (SortVersioners allItems).take allItems.length = SortVersioners allItems :=
    List.take_of_length_le (by omega)
  have hne : ¬ allItems.length = limit := by omega
  simp only [selectItems, MinInt_pair, hlen, hmin, htake, hne, if_false]

theorem selectItems_covers (limit : Nat) (latestVersion next : Versionstamp)
    (allItems items : List SuperStreamItem) (hlimit : 1 ≤ limit)
    (hdistinct : (allItems.map (fun i => i.Version)).Nodup)
    (hsel : selectItems limit latestVersion allItems = .ok (items, next))
    (x : SuperStreamItem) (hx : x ∈ allItems) (hle : vle x.Version next) : x ∈ items := by
  by_cases hn : allItems.length < limit
  · rw [selectItems_of_lt limit latestVersion allItems hn] at hsel
    simp only [Except.ok.injEq, Prod.mk.injEq] at hsel
    rw [← hsel.1]
    exact (SortVersioners_perm allItems).symm.subset hx
  · obtain ⟨items', next', hsel', hlen, _, _, hout, hlast, _⟩ :=
      selectItems_keeps_smallest limit latestVersion allItems hlimit hdistinct
    rw [hsel] at hsel'
    simp only [Except.ok.injEq, Prod.mk.injEq] at hsel'
    obtain ⟨rfl, rfl⟩ := hsel'
    by_contra hxi
    have hl := hlast (by omega)
    cases hgl : items.getLast? with
    | none => rw [hgl] at hl; simp at hl
    | some last =>
      rw [hgl] at hl
      simp only [Option.map_some', Option.some.injEq] at hl
      have hmem : last ∈ items := List.mem_of_getLast?_eq_some hgl
      have := hout x hx hxi last hmem
      rw [hl] at this
      exact not_vle_of_vlt this hle

theorem selectItems_full_blocks (limit : Nat) (latestVersion next : Versionstamp)
    (allItems items : List SuperStreamItem) (hlimit : 1 ≤ limit)
    (hdistinct : (allItems.map (fun i => i.Version)).Nodup)
    (hsel : selectItems limit latestVersion allItems = .ok (items, next))
    (P : List SuperStreamItem) (hP : ∀ p ∈ P, p ∈ allItems) (hPnodup : P.Nodup)
    (hPlen : P.length = limit) (hPlt : ∀ p ∈ P, vlt p.Version next) : False := by
  have hallNodup : allItems.Nodup := List.Nodup.of_map _ hdistinct
  have hle : limit ≤ allItems.length := by
    rw [← hPlen]
    exact (List.subperm_of_subset hPnodup hP).length_le
  obtain ⟨items', next', hsel', hlen, _, _, hout, hlast, _⟩ :=
    selectItems_keeps_smallest limit latestVersion allItems hlimit hdistinct
  rw [hsel] at hsel'
  simp only [Except.ok.injEq, Prod.mk.injEq] at hsel'
  obtain ⟨rfl, rfl⟩ := hsel'
  have hl := hlast hle
  cases hgl : items.getLast? with
  | none => rw [hgl] at hl; simp at hl
  | some last =>
    rw [hgl] at hl
    simp only [Option.map_some', Option.some.injEq] at hl
    obtain ⟨ys, hys⟩ := List.getLast?_eq_some_iff.mp hgl
    have hsub : ∀ p ∈ P, p ∈ ys := by
      intro p hp
      have hpi : p ∈ items := by
        by_contra hpi
        have := hout p (hP p hp) hpi last (List.mem_of_getLast?_eq_some hgl)
        rw [hl] at this
        exact vlt_asymm this (hPlt p hp)
      rw [hys] at hpi
      rcases List.mem_append.mp hpi with h | h
      · exact h
      · simp only [List.mem_singleton] at h
        have := hPlt p hp
        rw [h, hl] at this
        exact absurd this (vlt_irrefl _)
    have h1 := (List.subperm_of_subset hPnodup hsub).length_le
    have h2 : items.length = ys.length + 1 := by rw [hys]; simp
    omega

theorem version_injOn (s : Stream) (hnodup : (s.map (fun e => e.1.2)).Nodup) :
    ∀ a ∈ s, ∀ b ∈ s, a.1.2 = b.1.2 → a = b :=
  fun _ ha _ hb h => List.inj_on_of_nodup_map hnodup ha hb h

theorem keys_nodup_of_versions (s : Stream) (hnodup : (s.map (fun e => e.1.2)).Nodup) :
    (s.map (fun e => e.1)).Nodup := by
  have : s.map (fun e => e.1.2) = (s.map (fun e => e.1)).map (fun k => k.2) := by
    simp [List.map_map, Function.comp_def]
  rw [this] at hnodup
  exact List.Nodup.of_map _ hnodup

theorem txnGetRange_mem_or_full (s : Stream) (roomID : RoomID)
    (fromVersion toVersion : Versionstamp) (limit : Nat)
    (hfrom : fromVersion ≠ ZeroVersionstamp) (hto : toVersion ≠ ZeroVersionstamp)
    (hlimit : 1 ≤ limit) (hnodup : (s.map (fun e => e.1.2)).Nodup)
    (e : (RoomID × Versionstamp) × StreamValue) (hes : e ∈ s) (hr : e.1.1 = roomID)
    (hf : vle fromVersion e.1.2) (ht : vlt e.1.2 toVersion) :
    e ∈ txnGetRange s (completeVersionRange fromVersion toVersion roomID) limit ∨
      ((txnGetRange s (completeVersionRange fromVersion toVersion roomID) limit).length = limit ∧
        ∀ y ∈ txnGetRange s (completeVersionRange fromVersion toVersion roomID) limit,
          vlt y.1.2 e.1.2) := by
  obtain ⟨_, hstrict, hmem, hlen, hdich⟩ :=
    txnGetRange_spec s roomID fromVersion toVersion limit hfrom hto hlimit
  have hstrict := hstrict (keys_nodup_of_versions s hnodup)
  set kept := txnGetRange s (completeVersionRange fromVersion toVersion roomID) limit with hkept
  by_cases hek : e ∈ kept
  · exact Or.inl hek
  · right
    have hall : ∀ y ∈ kept, vle y.1.2 e.1.2 := by
      rcases hdich e hes hr hf ht with h | h
      · exact absurd h hek
      · exact h
    have hkeptNodup : kept.Nodup := by
      unfold List.Nodup
      refine hstrict.imp ?_
      intro a b h hab
      rw [hab] at h
      exact vlt_irrefl _ h
    set F := s.filter (fun e =>
      decide (e.1.1 = roomID ∧ vle fromVersion e.1.2 ∧ vlt e.1.2 toVersion)) with hF
    have heF : e ∈ F := by
      rw [hF, List.mem_filter]
      exact ⟨hes, by simp [hr, hf, ht]⟩
    have hsubF : ∀ y ∈ kept, y ∈ F := by
      intro y hy
      rw [hF, List.mem_filter]
      obtain ⟨h1, h2, h3, h4⟩ := hmem y hy
      exact ⟨h1, by simp [h2, h3, h4]⟩
    constructor
    · by_contra hne
      have hkl : kept.length = F.length := by omega
      have hperm := (List.subperm_of_subset hkeptNodup hsubF).perm_of_length_le (by omega)
      exact hek (hperm.symm.subset heF)
    · intro y hy
      apply vlt_of_vle_of_ne (hall y hy)
      intro hv
      have := version_injOn s hnodup y (hmem y hy).1 e hes hv
      exact hek (this ▸ hy)

theorem mem_roomPage (s : Stream) (fromVersion toVersion : Versionstamp) (limit : Nat)
    (roomID : RoomID) (hfrom : fromVersion ≠ ZeroVersionstamp)
    (hto : toVersion ≠ ZeroVersionstamp) (hlimit : 1 ≤ limit) (x : SuperStreamItem)
    (hx : x ∈ roomPage s fromVersion toVersion limit roomID) :
    ∃ kv ∈ s, kv.1.1 = roomID ∧ x.Version = kv.1.2 ∧ vle fromVersion kv.1.2 ∧
      vlt kv.1.2 toVersion := by
  unfold roomPage at hx
  rw [List.mem_map] at hx
  obtain ⟨kv, hkv, rfl⟩ := hx
  obtain ⟨_, _, hmem, _, _⟩ :=
    txnGetRange_spec s roomID fromVersion toVersion limit hfrom hto hlimit
  obtain ⟨h1, h2, h3, h4⟩ := hmem kv hkv
  exact ⟨kv, h1, h2, valueToSuperStreamItem_Version _ _ _, h3, h4⟩

theorem roomPage_versions_nodup (s : Stream) (fromVersion toVersion : Versionstamp)
    (limit : Nat) (roomID : RoomID) (hfrom : fromVersion ≠ ZeroVersionstamp)
    (hto : toVersion ≠ ZeroVersionstamp) (hlimit : 1 ≤ limit)
    (hnodup : (s.map (fun e => e.1.2)).Nodup) :
    ((roomPage s fromVersion toVersion limit roomID).map (fun i => i.Version)).Nodup := by
  obtain ⟨_, hstrict, _, _, _⟩ :=
    txnGetRange_spec s roomID fromVersion toVersion limit hfrom hto hlimit
  have hstrict := hstrict (keys_nodup_of_versions s hnodup)
  unfold roomPage
  rw [List.map_map]
  have : ((fun i : SuperStreamItem => i.Version) ∘
      (fun kv : (RoomID × Versionstamp) × StreamValue =>
        valueToSuperStreamItem roomID kv.1.2 kv.2)) = (fun kv => kv.1.2) := by
    funext kv
    exact valueToSuperStreamItem_Version _ _ _
  rw [this]
  unfold List.Nodup
  rw [List.pairwise_map]
  refine hstrict.imp ?_
  intro a b h hab
  rw [hab] at h
  exact vlt_irrefl _ h

theorem pages_versions_nodup (s : Stream) (fromVersion toVersion : Versionstamp)
    (limit : Nat) (hfrom : fromVersion ≠ ZeroVersionstamp)
    (hto : toVersion ≠ ZeroVersionstamp) (hlimit : 1 ≤ limit)
    (hnodup : (s.map (fun e => e.1.2)).Nodup) (memberships : Memberships)
    (hrooms : (memberships.map (fun e => e.2.RoomID)).Nodup) :
    (((memberships.map (fun e => roomPage s fromVersion toVersion limit e.2.RoomID)).flatten).map
      (fun i => i.Version)).Nodup := by
  induction memberships with
  | nil => simp
  | cons e rest ih =>
    simp only [List.map_cons, List.nodup_cons] at hrooms
    simp only [List.map_cons, List.flatten_cons, List.map_append]
    rw [List.nodup_append]
    refine ⟨roomPage_versions_nodup s fromVersion toVersion limit _ hfrom hto hlimit hnodup,
      ih hrooms.2, ?_⟩
    intro v hv1 hv2
    rw [List.mem_map] at hv1 hv2
    obtain ⟨x, hx, rfl⟩ := hv1
    obtain ⟨y, hy, hyx⟩ := hv2
    rw [List.mem_flatten] at hy
    obtain ⟨page, hpage, hyp⟩ := hy
    rw [List.mem_map] at hpage
    obtain ⟨e', he', rfl⟩ := hpage
    obtain ⟨kv, hkv, hkr, hkver, _⟩ := mem_roomPage s fromVersion toVersion limit _ hfrom hto
      hlimit x hx
    obtain ⟨kv', hkv', hkr', hkver', _⟩ := mem_roomPage s fromVersion toVersion limit _ hfrom
      hto hlimit y hyp
    have heq : kv = kv' := version_injOn s hnodup kv hkv kv' hkv'
      (by rw [← hkver, ← hkver', hyx])
    apply hrooms.1
    rw [List.mem_map]
    exact ⟨e', he', by rw [← hkr', ← heq, hkr]⟩

theorem initialRanges_map (from_ latestVersion : Versionstamp) (memberships : Memberships)
    (hnodup : (memberships.map (fun e => e.2)).Nodup) :
    initialRanges from_ latestVersion memberships =
      memberships.map (fun e => (e.2, ⟨from_, latestVersion⟩)) := by
  have h := foldl_mapPut_fresh (fun _ : Unit => (⟨from_, latestVersion⟩ : versionRange))
    (memberships.map (fun e => (e.2, ()))) []
    (by simpa [List.map_map, Function.comp_def] using hnodup) (by simp)
  rw [List.foldl_map] at h
  simp only [List.nil_append, List.map_map, Function.comp_def] at h
  unfold initialRanges
  exact h

theorem paginateAll_pages (db : Store) (fromVersion toVersion : Versionstamp) (limit : Nat)
    (memberships : Memberships)
    (hfrom : fromVersion.TransactionVersion ≠ incompleteVersion)
    (hto : toVersion.TransactionVersion ≠ incompleteVersion) :
    paginateAll (fun roomID fromVersion toVersion =>
        txnPaginateRoomSuperStream db roomID fromVersion toVersion limit)
      (memberships.map (fun e => (e.2, ⟨fromVersion, toVersion⟩))) =
      .ok (memberships.map
        (fun e => (e.2, roomPage db.superStream fromVersion toVersion limit e.2.RoomID))) := by
  induction memberships with
  | nil => rfl
  | cons x xs ih =>
    simp only [List.map_cons, paginateAll, ih,
      txnPaginateRoomSuperStream_complete db _ fromVersion toVersion limit hfrom hto]
    rfl

theorem userSyncItems_loses_nothing (r : RoomsDatabase) (db : Store) (latest : Versionstamp)
    (userID : UserID) (fromVersion : Versionstamp) (limit : Nat) (memberships : Memberships)
    (hlimit : 1 ≤ limit)
    (hfromuv : fromVersion.UserVersion < 65536)
    (hfromlen : fromVersion.TransactionVersion.length = 10)
    (hfromne : fromVersion ≠ ⟨List.replicate 10 0, 65535⟩)
    (hfromc : fromVersion.TransactionVersion ≠ incompleteVersion)
    (hlatestc : latest.TransactionVersion ≠ incompleteVersion)
    (hlatest : latest.UserVersion = 65534)
    (hmem : r.users.TxnLookupUserMemberships userID = .ok memberships)
    (hrooms : (memberships.map (fun e => e.2.RoomID)).Nodup)
    (hchanges : r.users.TxnLookupUserMembershipChanges userID (bumpUserVersion fromVersion)
      latest = .ok [])
    (hdistinct : (db.superStream.map (fun e => e.1.2)).Nodup)
    (hwf : ∀ e ∈ db.superStream,
      e.1.2.TransactionVersion.length = 10 ∧ e.1.2.UserVersion < 65534) :
    ∃ items next,
      userSyncItems r db latest userID ⟨fromVersion, limit⟩ =
        .ok (memberships.map (fun e => (e.2.RoomID, e.2)), items, next) ∧
      (∀ x ∈ items, ∃ e ∈ memberships, ∃ kv ∈ db.superStream, kv.1.1 = e.2.RoomID ∧
        x = valueToSuperStreamItem kv.1.1 kv.1.2 kv.2) ∧
      ∀ e ∈ memberships, ∀ kv ∈ db.superStream, kv.1.1 = e.2.RoomID →
        vlt fromVersion kv.1.2 → vle kv.1.2 next →
        valueToSuperStreamItem kv.1.1 kv.1.2 kv.2 ∈ items := by
  have hf0 : bumpUserVersion fromVersion ≠ ZeroVersionstamp := by
    by_cases huv : fromVersion.UserVersion < 65535
    · exact bumpUserVersion_ne_zero fromVersion huv
    · have huv' : fromVersion.UserVersion = 65535 := by omega
      intro h
      apply hfromne
      have htv := congrArg Versionstamp.TransactionVersion h
      simp only [bumpUserVersion, ZeroVersionstamp] at htv
      cases fromVersion
      simp only at htv huv'
      rw [htv, huv']
  have hl0 : latest ≠ ZeroVersionstamp := by
    intro h
    rw [h] at hlatest
    simp [ZeroVersionstamp] at hlatest
  have htups : (memberships.map (fun e => e.2)).Nodup := by
    have : memberships.map (fun e => e.2.RoomID) =
        (memberships.map (fun e => e.2)).map (fun t => t.RoomID) := by
      simp [List.map_map, Function.comp_def]
    rw [this] at hrooms
    exact List.Nodup.of_map _ hrooms
  set s := db.superStream with hs
  set allItems := (memberships.map (fun e =>
    roomPage s (bumpUserVersion fromVersion) latest limit e.2.RoomID)).flatten with hall
  have hallNodup : (allItems.map (fun i => i.Version)).Nodup :=
    pages_versions_nodup s _ _ limit hf0 hl0 hlimit hdistinct memberships hrooms
  obtain ⟨items, next, hsel, _, _, hsub, _, hlast, hnext⟩ :=
    selectItems_keeps_smallest limit latest allItems hlimit hallNodup
  have hflat : ((memberships.map (fun e =>
      (e.2, roomPage s (bumpUserVersion fromVersion) latest limit e.2.RoomID))).map
      (fun memAndEvs => memAndEvs.2)).flatten = allItems := by
    rw [hall, List.map_map]
    rfl
  have hmap : (memberships.map (fun e =>
      (e.2, roomPage s (bumpUserVersion fromVersion) latest limit e.2.RoomID))).foldl
      (fun m memAndEvs => mapPut m memAndEvs.1.RoomID memAndEvs.1) [] =
      memberships.map (fun e => (e.2.RoomID, e.2)) := by
    have h := foldl_mapPut_fresh (fun t : MembershipTup => t)
      (memberships.map (fun e => (e.2.RoomID, e.2))) []
      (by simpa [List.map_map, Function.comp_def] using hrooms) (by simp)
    rw [List.foldl_map] at h
    simp only [List.nil_append, List.map_map, Function.comp_def] at h
    rw [List.foldl_map]
    exact h
  refine ⟨items, next, ?_, ?_, ?_⟩
  · unfold userSyncItems syncRoomItems
    simp only [hmem, hchanges, membershipsWithRanges, List.foldl_nil,
      initialRanges_map _ _ _ htups, paginateAll_pages db (bumpUserVersion fromVersion) latest limit memberships hfromc
        hlatestc,
      ← hs, hflat, hsel, hmap]
  · intro x hx
    have hxa := hsub x hx
    rw [hall, List.mem_flatten] at hxa
    obtain ⟨page, hpage, hxp⟩ := hxa
    rw [List.mem_map] at hpage
    obtain ⟨e, he, rfl⟩ := hpage
    unfold roomPage at hxp
    rw [List.mem_map] at hxp
    obtain ⟨kv, hkv, rfl⟩ := hxp
    obtain ⟨_, _, hmem', _, _⟩ :=
      txnGetRange_spec s e.2.RoomID _ _ limit hf0 hl0 hlimit
    obtain ⟨h1, h2, _, _⟩ := hmem' kv hkv
    exact ⟨e, he, kv, h1, h2, by rw [h2]⟩
  · intro e he kv hkv hroom hgt hle
    have hallLt : ∀ x ∈ allItems, vlt x.Version latest := by
      intro x hx
      rw [hall, List.mem_flatten] at hx
      obtain ⟨page, hpage, hxp⟩ := hx
      rw [List.mem_map] at hpage
      obtain ⟨e', _, rfl⟩ := hpage
      obtain ⟨kv', _, _, hver, _, hlt⟩ := mem_roomPage s _ _ limit _ hf0 hl0 hlimit x hxp
      rw [hver]
      exact hlt
    have hkvLatest : vlt kv.1.2 latest := by
      by_cases hn : allItems.length < limit
      · have hne : kv.1.2 ≠ latest := by
          intro h
          have := (hwf kv hkv).2
          rw [h, hlatest] at this
          omega
        rw [hnext hn] at hle
        exact vlt_of_vle_of_ne hle hne
      · have hl := hlast (by omega)
        cases hgl : items.getLast? with
        | none => rw [hgl] at hl; simp at hl
        | some last =>
          rw [hgl] at hl
          simp only [Option.map_some', Option.some.injEq] at hl
          have := hallLt last (hsub last (List.mem_of_getLast?_eq_some hgl))
          rw [hl] at this
          exact vlt_of_vle_of_vlt hle this
    have hkvFrom : vle (bumpUserVersion fromVersion) kv.1.2 := by
      by_cases huv : fromVersion.UserVersion < 65535
      · exact bumpUserVersion_least fromVersion kv.1.2 huv
          (by rw [(hwf kv hkv).1, hfromlen]) hgt
      · have huv' : fromVersion.UserVersion = 65535 := by omega
        have hwrap : vlt (bumpUserVersion fromVersion) fromVersion := by
          rw [vlt_iff_of_length (by simp [bumpUserVersion])]
          right
          simp [bumpUserVersion, huv']
        rw [vle_iff]
        exact Or.inl (vlt_trans hwrap hgt)
    have hpageSub : ∀ p ∈ roomPage s (bumpUserVersion fromVersion) latest limit e.2.RoomID,
        p ∈ allItems := by
      intro p hp
      rw [hall, List.mem_flatten]
      exact ⟨_, List.mem_map.mpr ⟨e, he, rfl⟩, hp⟩
    rcases txnGetRange_mem_or_full s e.2.RoomID _ _ limit hf0 hl0 hlimit hdistinct kv hkv
        hroom hkvFrom hkvLatest with hin | ⟨hfull, hbelow⟩
    · apply selectItems_covers limit latest next allItems items hlimit hallNodup hsel
      · apply hpageSub
        unfold roomPage
        rw [List.mem_map]
        exact ⟨kv, hin, by rw [hroom]⟩
      · rw [valueToSuperStreamItem_Version]
        exact hle
    · exfalso
      apply selectItems_full_blocks limit latest next allItems items hlimit hallNodup hsel
        (roomPage s (bumpUserVersion fromVersion) latest limit e.2.RoomID) hpageSub
      · exact List.Nodup.of_map _
          (roomPage_versions_nodup s _ _ limit _ hf0 hl0 hlimit hdistinct)
      · unfold roomPage
        rw [List.length_map]
        exact hfull
      · intro p hp
        unfold roomPage at hp
        rw [List.mem_map] at hp
        obtain ⟨y, hy, rfl⟩ := hp
        rw [valueToSuperStreamItem_Version]
        exact vlt_of_vlt_of_vle (hbelow y hy) hle

theorem kvGet_mapPut_ne {κ ν : Type} [DecidableEq κ] (m : List (κ × ν)) (k k' : κ) (v : ν)
    (h : k' ≠ k) : kvGet (mapPut m k v) k' = kvGet m k' := by
  unfold mapPut
  split_ifs with hk
  · unfold kvGet
    congr 1
    clear hk
    have hk' : ¬ k = k' := fun h' => h h'.symm
    induction m with
    | nil => rfl
    | cons x xs ih =>
      by_cases hx : x.1 = k
      · have hx' : ¬ x.1 = k' := fun h' => h (h'.symm.trans hx)
        simp only [List.map_cons, hx, if_true, List.find?_cons, hk', hx', decide_False]
        exact ih
      · by_cases hx' : x.1 = k'
        · rw [List.map_cons, if_neg hx, List.find?_cons, List.find?_cons]
          simp only [hx', decide_True]
        · simp only [List.map_cons, hx, if_false, List.find?_cons, hx', decide_False]
          exact ih
  · unfold kvGet
    rw [List.find?_append]
    have hk' : ¬ k = k' := fun h' => h h'.symm
    cases hf : m.find? (fun e => decide (e.1 = k')) with
    | none => simp [hk']
    | some e => simp

theorem ItemDelivered_mono (MustGet : EventID → Option Event) (now : Int)
    (item : SuperStreamItem) (room room' : SyncRoom)
    (ht : ∀ ev ∈ room.TimelineEvents, ev ∈ room'.TimelineEvents)
    (hr : ∀ rc ∈ room.Receipts, rc ∈ room'.Receipts)
    (h : ItemDelivered MustGet now item room) : ItemDelivered MustGet now item room' := by
  unfold ItemDelivered at h ⊢
  cases hty : item.Type_ with
  | SuperStreamReceipt =>
    rw [hty] at h
    simp only at h ⊢
    cases hrc : item.Receipt with
    | none => rw [hrc] at h; exact h.elim
    | some rc => rw [hrc] at h; exact hr _ h
  | SuperStreamEvent =>
    rw [hty] at h
    simp only at h ⊢
    cases htup : item.EventIDTup with
    | none => rw [htup] at h; exact h.elim
    | some evIDTup =>
      rw [htup] at h
      simp only at h ⊢
      cases hget : MustGet evIDTup.EventID with
      | none => rw [hget] at h; exact h.elim
      | some orig => rw [hget] at h; exact ht _ h

theorem updateSyncRoom_grows (roomIDToMembership : List (RoomID × MembershipTup))
    (rooms : List (MembershipTup × SyncRoom)) (roomID : RoomID) (f : SyncRoom → SyncRoom)
    (hf : ∀ room, (∀ ev ∈ room.TimelineEvents, ev ∈ (f room).TimelineEvents) ∧
      ∀ rc ∈ room.Receipts, rc ∈ (f room).Receipts)
    (tup : MembershipTup) (room : SyncRoom) (h : kvGet rooms tup = some room) :
    ∃ room', kvGet (updateSyncRoom roomIDToMembership rooms roomID f) tup = some room' ∧
      (∀ ev ∈ room.TimelineEvents, ev ∈ room'.TimelineEvents) ∧
      ∀ rc ∈ room.Receipts, rc ∈ room'.Receipts := by
  unfold updateSyncRoom
  simp only
  by_cases ht : tup = (kvGet roomIDToMembership roomID).getD ⟨"", "", ""⟩
  · rw [← ht, h]
    simp only
    exact ⟨f room, kvGet_mapPut_self _ _ _, hf room⟩
  · cases hg : kvGet rooms ((kvGet roomIDToMembership roomID).getD ⟨"", "", ""⟩) with
    | none =>
      simp only
      rw [kvGet_mapPut_ne _ _ _ _ ht]
      exact ⟨room, h, fun _ h => h, fun _ h => h⟩
    | some other =>
      simp only
      rw [kvGet_mapPut_ne _ _ _ _ ht]
      exact ⟨room, h, fun _ h => h, fun _ h => h⟩

theorem updateSyncRoom_target (roomIDToMembership : List (RoomID × MembershipTup))
    (rooms : List (MembershipTup × SyncRoom)) (roomID : RoomID) (f : SyncRoom → SyncRoom) :
    ∃ room, kvGet (updateSyncRoom roomIDToMembership rooms roomID f)
      ((kvGet roomIDToMembership roomID).getD ⟨"", "", ""⟩) = some (f room) := by
  unfold updateSyncRoom
  simp only
  cases hg : kvGet rooms ((kvGet roomIDToMembership roomID).getD ⟨"", "", ""⟩) with
  | none => exact ⟨_, kvGet_mapPut_self _ _ _⟩
  | some other => exact ⟨_, kvGet_mapPut_self _ _ _⟩

theorem assembleRooms_grows (MustGet : EventID → Option Event) (now : Int)
    (roomIDToMembership : List (RoomID × MembershipTup)) (rest : List SuperStreamItem) :
    ∀ rooms rooms' : List (MembershipTup × SyncRoom),
      assembleRooms MustGet now roomIDToMembership rest rooms = .ok rooms' →
      ∀ tup room, kvGet rooms tup = some room →
        ∃ room', kvGet rooms' tup = some room' ∧
          (∀ ev ∈ room.TimelineEvents, ev ∈ room'.TimelineEvents) ∧
          ∀ rc ∈ room.Receipts, rc ∈ room'.Receipts := by
  induction rest with
  | nil =>
    intro rooms rooms' h tup room hg
    simp only [assembleRooms, Except.ok.injEq] at h
    rw [← h]
    exact ⟨room, hg, fun _ h => h, fun _ h => h⟩
  | cons item rest ih =>
    intro rooms rooms' h tup room hg
    rw [assembleRooms] at h
    cases hty : item.Type_ with
    | SuperStreamReceipt =>
      rw [hty] at h
      simp only at h
      cases hrc : item.Receipt with
      | none => rw [hrc] at h; simp at h
      | some rc =>
        rw [hrc] at h
        simp only at h
        obtain ⟨room1, hg1, ht1, hr1⟩ := updateSyncRoom_grows roomIDToMembership rooms rc.RoomID
          (fun room => { room with Receipts := room.Receipts ++ [rc] })
          (fun room => ⟨fun _ h => h, fun _ h => List.mem_append_left _ h⟩) tup room hg
        obtain ⟨room2, hg2, ht2, hr2⟩ := ih _ rooms' h tup room1 hg1
        exact ⟨room2, hg2, fun ev hev => ht2 ev (ht1 ev hev), fun x hx => hr2 x (hr1 x hx)⟩
    | SuperStreamEvent =>
      rw [hty] at h
      simp only at h
      cases htup : item.EventIDTup with
      | none => rw [htup] at h; simp at h
      | some evIDTup =>
        rw [htup] at h
        simp only at h
        cases hget : MustGet evIDTup.EventID with
        | none => rw [hget] at h; simp at h
        | some orig =>
          rw [hget] at h
          simp only at h
          obtain ⟨room1, hg1, ht1, hr1⟩ := updateSyncRoom_grows roomIDToMembership rooms
            evIDTup.RoomID
            (fun room => { room with TimelineEvents := room.TimelineEvents ++
              [{ orig with Unsigned :=
                [("age", .int (now - orig.Timestamp)),
                 ("hs.order", .base64 (VersionstampToValue item.Version))] }] })
            (fun room => ⟨fun _ h => List.mem_append_left _ h, fun _ h => h⟩) tup room hg
          obtain ⟨room2, hg2, ht2, hr2⟩ := ih _ rooms' h tup room1 hg1
          exact ⟨room2, hg2, fun ev hev => ht2 ev (ht1 ev hev), fun x hx => hr2 x (hr1 x hx)⟩

theorem assembleRooms_delivers (MustGet : EventID → Option Event) (now : Int)
    (roomIDToMembership : List (RoomID × MembershipTup)) (rest : List SuperStreamItem) :
    ∀ rooms rooms' : List (MembershipTup × SyncRoom),
      assembleRooms MustGet now roomIDToMembership rest rooms = .ok rooms' →
      ∀ item ∈ rest, ∃ room',
        kvGet rooms' ((kvGet roomIDToMembership (itemRoomID item)).getD ⟨"", "", ""⟩) =
          some room' ∧ ItemDelivered MustGet now item room' := by
  induction rest with
  | nil => intro rooms rooms' _ item hitem; simp at hitem
  | cons x rest ih =>
    intro rooms rooms' h item hitem
    rw [assembleRooms] at h
    cases hty : x.Type_ with
    | SuperStreamReceipt =>
      rw [hty] at h
      simp only at h
      cases hrc : x.Receipt with
      | none => rw [hrc] at h; simp at h
      | some rc =>
        rw [hrc] at h
        simp only at h
        rcases List.mem_cons.mp hitem with hx | hx
        · subst hx
          obtain ⟨room0, hg0⟩ := updateSyncRoom_target roomIDToMembership rooms rc.RoomID
            (fun room => { room with Receipts := room.Receipts ++ [rc] })
          obtain ⟨room2, hg2, ht2, hr2⟩ := assembleRooms_grows MustGet now roomIDToMembership
            rest _ rooms' h _ _ hg0
          have hid : itemRoomID item = rc.RoomID := by simp [itemRoomID, hty, hrc]
          refine ⟨room2, by rw [hid]; exact hg2, ?_⟩
          apply ItemDelivered_mono MustGet now item _ room2 ht2 hr2
          simp [ItemDelivered, hty, hrc]
        · exact ih _ rooms' h item hx
    | SuperStreamEvent =>
      rw [hty] at h
      simp only at h
      cases htup : x.EventIDTup with
      | none => rw [htup] at h; simp at h
      | some evIDTup =>
        rw [htup] at h
        simp only at h
        cases hget : MustGet evIDTup.EventID with
        | none => rw [hget] at h; simp at h
        | some orig =>
          rw [hget] at h
          simp only at h
          rcases List.mem_cons.mp hitem with hx | hx
          · subst hx
            obtain ⟨room0, hg0⟩ := updateSyncRoom_target roomIDToMembership rooms
              evIDTup.RoomID
              (fun room => { room with TimelineEvents := room.TimelineEvents ++
                [{ orig with Unsigned :=
                  [("age", .int (now - orig.Timestamp)),
                   ("hs.order", .base64 (VersionstampToValue item.Version))] }] })
            obtain ⟨room2, hg2, ht2, hr2⟩ := assembleRooms_grows MustGet now roomIDToMembership
              rest _ rooms' h _ _ hg0
            have hid : itemRoomID item = evIDTup.RoomID := by simp [itemRoomID, hty, htup]
            refine ⟨room2, by rw [hid]; exact hg2, ?_⟩
            apply ItemDelivered_mono MustGet now item _ room2 ht2 hr2
            simp [ItemDelivered, hty, htup, hget]
          · exact ih _ rooms' h item hx

theorem assembleRooms_ok (MustGet : EventID → Option Event) (now : Int)
    (roomIDToMembership : List (RoomID × MembershipTup)) (rest : List SuperStreamItem) :
    ∀ rooms : List (MembershipTup × SyncRoom),
      (∀ item ∈ rest, ∃ roomID version value,
        item = valueToSuperStreamItem roomID version value ∧ valueStored MustGet value = true) →
      ∃ rooms', assembleRooms MustGet now roomIDToMembership rest rooms = .ok rooms' := by
  induction rest with
  | nil => intro rooms _; exact ⟨rooms, rfl⟩
  | cons x rest ih =>
    intro rooms hall
    obtain ⟨roomID, version, value, hx, hst⟩ := hall x (List.mem_cons_self _ _)
    have hrest : ∀ item ∈ rest, ∃ roomID version value,
        item = valueToSuperStreamItem roomID version value ∧ valueStored MustGet value = true :=
      fun item hi => hall item (List.mem_cons_of_mem _ hi)
    subst hx
    cases value with
    | ev eventID =>
      simp only [valueStored] at hst
      cases hget : MustGet eventID with
      | none => rw [hget] at hst; simp at hst
      | some orig =>
        rw [assembleRooms]
        simp only [valueToSuperStreamItem, hget]
        exact ih _ hrest
    | rc userID eventID threadID type data =>
      rw [assembleRooms]
      simp only [valueToSuperStreamItem]
      exact ih _ hrest

theorem itemRoomID_valueToSuperStreamItem (roomID : RoomID) (version : Versionstamp)
    (value : StreamValue) : itemRoomID (valueToSuperStreamItem roomID version value) = roomID := by
  cases value <;> rfl

/-- Claim C25. Let all versions of the super-stream be pairwise distinct with
user versions below 65534, let the latest write version of the store be a
commit version with the user version 65534, and let the subject have one
current membership per room and no membership change in the window. Take a
well-formed `from` of a complete transaction version, other than the zero
transaction with user version 65535, and a limit of at least one. Then
`SyncRoomsForUser` returns whenever the events of the streams of those rooms
are stored, and whenever it returns `next_from` and rooms, every stream entry
of one of those rooms whose version `v` has `from < v ≤ next_from` is in the
room returned for that membership, an event in the timeline and a receipt among
the receipts: cutting every room to `limit` items and the merged list to
`limit` items skips nothing, so nothing is lost by a next sync from
`next_from`. -/
theorem sync_chain_loses_nothing (r : RoomsDatabase) (db : Store) (now : Int)
    (latest : Versionstamp) (userID : UserID) (fromVersion : Versionstamp) (limit : Nat)
    (memberships : Memberships)
    (hlimit : 1 ≤ limit)
    (hfromuv : fromVersion.UserVersion < 65536)
    (hfromlen : fromVersion.TransactionVersion.length = 10)
    (hfromne : fromVersion ≠ ⟨List.replicate 10 0, 65535⟩)
    (hfromc : fromVersion.TransactionVersion ≠ incompleteVersion)
    (hlatestw : TxnGetLatestWriteVersion db = .ok latest)
    (hlatestc : latest.TransactionVersion ≠ incompleteVersion)
    (hlatest : latest.UserVersion = 65534)
    (hmem : r.users.TxnLookupUserMemberships userID = .ok memberships)
    (hrooms : (memberships.map (fun e => e.2.RoomID)).Nodup)
    (hchanges : r.users.TxnLookupUserMembershipChanges userID (bumpUserVersion fromVersion)
      latest = .ok [])
    (hdistinct : (db.superStream.map (fun e => e.1.2)).Nodup)
    (hwf : ∀ e ∈ db.superStream,
      e.1.2.TransactionVersion.length = 10 ∧ e.1.2.UserVersion < 65534) :
    ((∀ e ∈ memberships, ∀ kv ∈ db.superStream, kv.1.1 = e.2.RoomID →
        valueStored r.events.Get kv.2 = true) →
      ∃ next rooms,
        SyncRoomsForUser r db now userID ⟨fromVersion, limit⟩ = .ok (next, rooms)) ∧
    ∀ next rooms, SyncRoomsForUser r db now userID ⟨fromVersion, limit⟩ = .ok (next, rooms) →
      ∀ e ∈ memberships, ∀ kv ∈ db.superStream, kv.1.1 = e.2.RoomID →
        vlt fromVersion kv.1.2 → vle kv.1.2 next →
        ∃ room, kvGet rooms e.2 = some room ∧
          ItemDelivered r.events.Get now (valueToSuperStreamItem kv.1.1 kv.1.2 kv.2) room := by
  obtain ⟨items, next0, hitems, hsrc, hcover⟩ := userSyncItems_loses_nothing r db latest userID
    fromVersion limit memberships hlimit hfromuv hfromlen hfromne hfromc hlatestc hlatest hmem
    hrooms hchanges hdistinct hwf
  unfold userSyncItems at hitems
  simp only at hitems
  constructor
  · intro hstored
    obtain ⟨rooms, hrooms'⟩ := assembleRooms_ok r.events.Get now
      (memberships.map (fun e => (e.2.RoomID, e.2))) items [] (by
        intro item hitem
        obtain ⟨e, he, kv, hkv, hroom, hx⟩ := hsrc item hitem
        exact ⟨kv.1.1, kv.1.2, kv.2, hx, hstored e he kv hkv hroom⟩)
    refine ⟨next0, rooms, ?_⟩
    unfold SyncRoomsForUser
    simp only [hlatestw]
    unfold syncRoomEvents
    simp only [hitems, hrooms']
  · intro next rooms hsync e he kv hkv hroom hgt hle
    unfold SyncRoomsForUser at hsync
    simp only [hlatestw] at hsync
    unfold syncRoomEvents at hsync
    simp only [hitems] at hsync
    cases ha : assembleRooms r.events.Get now (memberships.map (fun e => (e.2.RoomID, e.2)))
        items [] with
    | error err => rw [ha] at hsync; simp at hsync
    | ok rooms' =>
      rw [ha] at hsync
      simp only [Except.ok.injEq, Prod.mk.injEq] at hsync
      obtain ⟨hn, hr⟩ := hsync
      subst hn
      subst hr
      obtain ⟨room, hg, hd⟩ := assembleRooms_delivers r.events.Get now _ items [] rooms' ha
        (valueToSuperStreamItem kv.1.1 kv.1.2 kv.2) (hcover e he kv hkv hroom hgt hle)
      rw [itemRoomID_valueToSuperStreamItem, hroom,
        kvGet_map_of_nodup (fun e : String × MembershipTup => e.2.RoomID) (fun e => e.2)
          memberships hrooms e he] at hg
      exact ⟨room, hg, hd⟩

/-- Witness of `sync_chain_loses_nothing`: the sync of `@a:s` on the sample
store from commit 0 with limit 2. The three events of room `!r:s` are stored,
so the sync returns, and what it returns holds every entry of the room up to
the next position. -/
theorem sync_chain_loses_nothing_witness :
    (∃ next rooms,
      SyncRoomsForUser sampleRooms sampleStore 2000 "@a:s" ⟨sampleLatest 0, 2⟩ =
        .ok (next, rooms)) ∧
    ∀ next rooms,
      SyncRoomsForUser sampleRooms sampleStore 2000 "@a:s" ⟨sampleLatest 0, 2⟩ =
        .ok (next, rooms) →
      ∀ e ∈ ([("!r:s", sampleJoin)] : Memberships), ∀ kv ∈ sampleStore.superStream,
        kv.1.1 = e.2.RoomID → vlt (sampleLatest 0) kv.1.2 → vle kv.1.2 next →
        ∃ room, kvGet rooms e.2 = some room ∧
          ItemDelivered sampleRooms.events.Get 2000
            (valueToSuperStreamItem kv.1.1 kv.1.2 kv.2) room :=
  ⟨(sync_chain_loses_nothing sampleRooms sampleStore 2000 (sampleLatest 3) "@a:s"
      (sampleLatest 0) 2 [("!r:s", sampleJoin)] (by decide) (by decide) (by decide) (by decide)
      (by decide) (by decide) (by decide) (by decide) (by decide) (by decide) (by decide)
      (by decide) (by decide)).1 (by decide),
    (sync_chain_loses_nothing sampleRooms sampleStore 2000 (sampleLatest 3) "@a:s"
      (sampleLatest 0) 2 [("!r:s", sampleJoin)] (by decide) (by decide) (by decide) (by decide)
      (by decide) (by decide) (by decide) (by decide) (by decide) (by decide) (by decide)
      (by decide) (by decide)).2⟩

end Babbleserv
